import Mathlib

/-!
Shallow embedding of the job-scheduling engine: the data model
(Task, Job, TaskSchedule, ScheduleResult), the topological orderer
(Kahn's algorithm with lexicographic tie-breaks), the CPM engine
(forward pass, minimum completion time, backward critical-path trace)
and the worker-constrained discrete-event simulation.

Modelling conventions:
  - Go maps `map[string]*Task` become association lists with unique keys
    (uniqueness is the Go map invariant, stated as a hypothesis);
    `map[string]int` values read with a 0 default, as Go does.
  - Go `int` becomes `Int`.
  - Go's unordered map iteration: every iteration in the source is either
    order-insensitive (maximum computations, set membership) or sorted
    before use, except the end-task selection in findCriticalPath; that
    one iteration order is exposed as an explicit `enum` parameter which
    theorems quantify over (any permutation of the eft entries).
  - A nil-pointer dereference (looking up a missing task and calling a
    method on it) is modelled by the `Outcome.panics` result.
  - Loops are modelled with explicit fuel; the fuel amounts are proved
    sufficient for the inputs the theorems quantify over, so the models
    agree with the unbounded Go loops there.
-/

namespace SchedulerModel

/-- Model of model.Task: a unit of work (the ID is the key in Job.tasks). -/
structure Task where
  duration : Int
  dependencies : List String
deriving Repr, DecidableEq

/-- Model of model.Job: a name and a task map (association list, unique keys). -/
structure Job where
  name : String
  tasks : List (String × Task)
deriving Repr, DecidableEq

/-- Go `job.Tasks[id]` as an optional lookup. -/
def Job.find? (j : Job) (id : String) : Option Task :=
  (j.tasks.find? (fun p => p.1 == id)).map (fun p => p.2)

/-- Lookup with a default task. Go returns a nil pointer for a missing key and
any field access panics; call sites using this helper only look up keys that
are provably present. -/
def Job.findD (j : Job) (id : String) : Task :=
  (j.find? id).getD ⟨0, []⟩

/-- Model of Job.TaskCount(): number of tasks. -/
def Job.taskCount (j : Job) : Nat := j.tasks.length

/-- The task IDs, in task-map order. -/
def taskIds (j : Job) : List String := j.tasks.map Prod.fst

/-- Model of Task.HasDependencies(). -/
def Task.hasDependencies (t : Task) : Bool := !t.dependencies.isEmpty

/-- Reading an int-valued Go map: 0 for a missing key. -/
def lookup0 (m : List (String × Int)) (id : String) : Int :=
  ((m.find? (fun p => p.1 == id)).map (fun p => p.2)).getD 0

/-- Membership test in an int-valued Go map (the `_, ok :=` form). -/
def lookupMem (m : List (String × Int)) (id : String) : Bool :=
  (m.find? (fun p => p.1 == id)).isSome

/-- Lexicographic comparison of character lists by code point (Go compares
strings bytewise; on the ASCII ids the engine deals in the two orders
coincide, and both are the ascending lexicographic order). -/
def charListLe : List Char → List Char → Bool
  | [], _ => true
  | _ :: _, [] => false
  | a :: as, b :: bs =>
    if a.toNat < b.toNat then true
    else if a.toNat = b.toNat then charListLe as bs
    else false

/-- Lexicographic order on strings, as a Boolean. -/
def strLe (a b : String) : Bool := charListLe a.data b.data

/-- Lexicographic order on strings, as a proposition. -/
def strLeP (a b : String) : Prop := strLe a b = true

instance : DecidableRel strLeP := fun a b => by
  unfold strLeP; infer_instance

/-- Go sort.Strings: ascending lexicographic sort. -/
def sortStrings (l : List String) : List String :=
  l.insertionSort strLeP

/-- Model of model.TaskSchedule. -/
structure TaskSchedule where
  taskID : String
  earliestStart : Int
  earliestFinish : Int
deriving Repr, DecidableEq

/-- Model of model.ScheduleResult (the variant carrying Workers).
CriticalPath is `none` where Go leaves the slice nil. -/
structure ScheduleResult where
  jobName : String
  workers : Int
  minCompletionTime : Int
  taskSchedules : List TaskSchedule
  executionOrder : List String
  criticalPath : Option (List String)
deriving Repr, DecidableEq

instance {ε α : Type} [DecidableEq ε] [DecidableEq α] : DecidableEq (Except ε α)
  | Except.ok a, Except.ok b => by
    cases h : decide (a = b) with
    | true => exact isTrue (by rw [decide_eq_true_iff.mp h])
    | false => exact isFalse (by intro hc; cases hc; simp at h)
  | Except.ok _, Except.error _ => isFalse (by intro hc; cases hc)
  | Except.error _, Except.ok _ => isFalse (by intro hc; cases hc)
  | Except.error a, Except.error b => by
    cases h : decide (a = b) with
    | true => exact isTrue (by rw [decide_eq_true_iff.mp h])
    | false => exact isFalse (by intro hc; cases hc; simp at h)

/-- Result of running a Go function that may return an error or panic. -/
inductive Outcome (α : Type) where
  | panics : Outcome α
  | error : String → Outcome α
  | ok : α → Outcome α
deriving Repr, DecidableEq

/-- Mapping a function over the ok value of an Outcome. -/
def Outcome.map {α β : Type} (f : α → β) : Outcome α → Outcome β
  | Outcome.panics => Outcome.panics
  | Outcome.error e => Outcome.error e
  | Outcome.ok a => Outcome.ok (f a)

/-- The reverse-dependency index entry: all tasks that list `d` as a
dependency, one occurrence per occurrence of `d` in their dependency list
(the double loop in the source appends the dependent once per occurrence,
scanning tasks in map order; only the multiset is ever observed, since
every use sorts or treats it as a set). Shared shape of the `adjacency`
map in topologicalOrder and the `reverse` map in scheduleLimited. -/
def dependents (j : Job) (d : String) : List String :=
  j.tasks.foldr (fun p acc => List.replicate (p.2.dependencies.count d) p.1 ++ acc) []

/-- One outer iteration body of Kahn's queue processing applied to the sorted
neighbor list: decrement each neighbor's in-degree; when it reaches zero,
append it to the queue and re-sort the queue. -/
def kahnFold (acc : List String × (String → Int)) (nb : String) :
    List String × (String → Int) :=
  let d := acc.2 nb - 1
  let ind := fun x => if x = nb then d else acc.2 x
  if d = 0 then (sortStrings (acc.1 ++ [nb]), ind) else (acc.1, ind)

/-- The Kahn queue loop of WorkerScheduler.topologicalOrder: pop the head of
the (sorted) queue, emit it, decrement its sorted neighbors, enqueueing
those reaching in-degree zero. Fuel bounds the number of pops; each id is
enqueued at most once, so `taskCount + 1` fuel is enough (proved later). -/
def kahnLoop (j : Job) : Nat → List String → (String → Int) → List String → List String
  | 0, _, _, order => order
  | Nat.succ fuel, queue, indeg, order =>
    match queue with
    | [] => order
    | current :: rest =>
      let res := (sortStrings (dependents j current)).foldl kahnFold (rest, indeg)
      kahnLoop j fuel res.1 res.2 (order ++ [current])

/-- The initial in-degree map: every task id maps to the length of its own
dependency list (initialized to 0 and incremented once per dependency). -/
def indeg0 (j : Job) : String → Int :=
  fun x => ((j.find? x).map (fun t => (t.dependencies.length : Int))).getD 0

/-- Model of WorkerScheduler.topologicalOrder (identical to
CriticalPathScheduler.topologicalOrder): Kahn's algorithm, seeding the queue
with all zero-in-degree ids sorted ascending, re-sorting on every enqueue;
if the order misses some task the graph has a cycle. -/
def topologicalOrder (j : Job) : Except String (List String) :=
  let seed := sortStrings ((taskIds j).filter (fun x => indeg0 j x == 0))
  let order := kahnLoop j (j.taskCount + 1) seed (indeg0 j) []
  if order.length = j.taskCount then Except.ok order
  else Except.error "topological sort failed: graph contains a cycle"

/-- The forward pass of scheduleUnlimited, processing ids in topological
order: est = 0 without dependencies, else the running maximum (from 0) of
the dependencies' eft; eft = est + duration. Entries are appended in
processing order (order ids are present in the job, see the topological
order lemmas, so the default task is never read). -/
def forwardPass (j : Job) (order : List String) :
    List (String × Int) × List (String × Int) :=
  order.foldl (fun acc id =>
    let task := j.findD id
    let e := if task.hasDependencies then
        task.dependencies.foldl
          (fun m depID => if lookup0 acc.2 depID > m then lookup0 acc.2 depID else m) 0
      else 0
    (acc.1 ++ [(id, e)], acc.2 ++ [(id, e + task.duration)])) ([], [])

/-- Maximum of the eft map values, starting from 0 (order-insensitive, so
the entry-list order stands in for Go's map iteration). -/
def maxEft (eft : List (String × Int)) : Int :=
  eft.foldl (fun m p => if p.2 > m then p.2 else m) 0

/-- Comparator of buildSortedSchedules and the scheduleLimited result sort:
by earliest start ascending, ties by task ID ascending. -/
def schedLe (a b : TaskSchedule) : Prop :=
  a.earliestStart < b.earliestStart ∨
    (a.earliestStart = b.earliestStart ∧ strLeP a.taskID b.taskID)

instance : DecidableRel schedLe := fun a b => by
  unfold schedLe; infer_instance

/-- Model of buildSortedSchedules: one record per id in order, sorted by
(earliest start, task ID). Go uses an unstable sort; task ids are distinct
for the inputs considered, so the sorted list is unique. -/
def buildSortedSchedules (order : List String) (est eft : List (String × Int)) :
    List TaskSchedule :=
  (order.map (fun id => TaskSchedule.mk id (lookup0 est id) (lookup0 eft id))).insertionSort
    schedLe

/-- The end-task selection of findCriticalPath: the first entry of the eft
map (iterated in the order given by `enum`) whose value equals the minimum
completion time; the empty string when none matches (this is Go's zero
value for an unassigned string). -/
def findEndTask (enum : List (String × Int)) (minCompletion : Int) : String :=
  match enum.find? (fun p => p.2 == minCompletion) with
  | some p => p.1
  | none => ""

/-- The backward-trace loop of findCriticalPath: from the current task, stop
if it has no dependencies, else step to the first dependency (in declared
order) whose eft equals the current est, prepending it. A missing task
lookup is Go's nil dereference, hence `none`. Fuel bounds the number of
steps; est strictly decreases along the trace for valid jobs, so
`taskCount + 1` fuel is enough (proved later). -/
def traceBack (j : Job) (est eft : List (String × Int)) :
    Nat → String → List String → Option (List String)
  | 0, _, path => some path
  | Nat.succ fuel, currentID, path =>
    match j.find? currentID with
    | none => none
    | some task =>
      if task.hasDependencies then
        match task.dependencies.find?
            (fun depID => lookup0 eft depID == lookup0 est currentID) with
        | some depID => traceBack j est eft fuel depID (depID :: path)
        | none => some path
      else some path

/-- Model of WorkerScheduler.findCriticalPath: pick an end task with
eft = minimum completion time (map iteration order `enum`), then trace
backwards. -/
def findCriticalPath (j : Job) (est eft enum : List (String × Int))
    (minCompletion : Int) : Option (List String) :=
  let endTaskID := findEndTask enum minCompletion
  traceBack j est eft (j.taskCount + 1) endTaskID [endTaskID]

/-- Model of WorkerScheduler.scheduleUnlimited: topological order, forward
pass, minimum completion time, sorted schedules, critical path. `enum` is
the iteration order of the eft map used by findCriticalPath (theorems
quantify over permutations of the eft entries). -/
def scheduleUnlimited (j : Job) (workers : Int) (enum : List (String × Int)) :
    Outcome ScheduleResult :=
  match topologicalOrder j with
  | Except.error e => Outcome.error e
  | Except.ok order =>
    let est := (forwardPass j order).1
    let eft := (forwardPass j order).2
    let minCompletion := maxEft eft
    let schedules := buildSortedSchedules order est eft
    let executionOrder := schedules.map (fun ts => ts.taskID)
    match findCriticalPath j est eft enum minCompletion with
    | none => Outcome.panics
    | some cp =>
      Outcome.ok
        { jobName := j.name, workers := workers, minCompletionTime := minCompletion,
          taskSchedules := schedules, executionOrder := executionOrder,
          criticalPath := some cp }

/-- A running worker slot: the task it executes and its scheduled finish. -/
structure Slot where
  taskID : String
  finishTime : Int
deriving Repr, DecidableEq

/-- The mutable state of the scheduleLimited event loop. `ready` is a set
(Go map to bool): duplicate insertion is a no-op and only its sorted
contents are observed. -/
structure SimState where
  ready : List String
  running : List Slot
  finished : List (String × Int)
  startTime : List (String × Int)
  execOrder : List String
  currentTime : Int
deriving Repr, DecidableEq

/-- Set insertion for the ready map. -/
def insertReady (s : List String) (x : String) : List String :=
  if x ∈ s then s else s ++ [x]

/-- The dispatch phase: walk the sorted ready list while a worker is free,
starting each task at the current time. -/
def dispatchLoop (j : Job) (workers : Int) : List String → SimState → SimState
  | [], st => st
  | id :: restList, st =>
    if (st.running.length : Int) < workers then
      let task := j.findD id
      dispatchLoop j workers restList
        { st with
          ready := st.ready.erase id,
          startTime := st.startTime ++ [(id, st.currentTime)],
          running := st.running ++ [Slot.mk id (st.currentTime + task.duration)],
          execOrder := st.execOrder ++ [id] }
    else st

/-- Minimum scheduled finish among the running slots (first slot's finish,
then a running minimum over the rest, exactly as the source scans). -/
def minFinishTime (s0 : Slot) (rest : List Slot) : Int :=
  rest.foldl (fun m sl => if sl.finishTime < m then sl.finishTime else m) s0.finishTime

/-- The completion phase: scan the running slots; a slot finishing exactly
now is recorded as finished and its dependents with all dependencies
finished become ready; other slots survive (in order) into `acc`. -/
def completeSlots (j : Job) : List Slot → List Slot → SimState → List Slot × SimState
  | [], acc, st => (acc, st)
  | sl :: rest, acc, st =>
    if sl.finishTime = st.currentTime then
      let st1 := { st with finished := st.finished ++ [(sl.taskID, st.currentTime)] }
      let st2 := (dependents j sl.taskID).foldl
        (fun s nextID =>
          let task := j.findD nextID
          if task.dependencies.all (fun depID => lookupMem s.finished depID) then
            { s with ready := insertReady s.ready nextID }
          else s) st1
      completeSlots j rest acc st2
    else completeSlots j rest (acc ++ [sl]) st

/-- One iteration of the scheduleLimited event loop: dispatch, then either
break (no task running) or advance the clock to the next completion and
complete every slot finishing then. Returns the new state and whether the
loop broke. -/
def simBody (j : Job) (workers : Int) (st : SimState) : SimState × Bool :=
  let st1 := dispatchLoop j workers (sortStrings st.ready) st
  match st1.running with
  | [] => (st1, true)
  | s0 :: rest =>
    let t := minFinishTime s0 rest
    let pr := completeSlots j st1.running [] { st1 with currentTime := t, running := [] }
    ({ pr.2 with running := pr.1 }, false)

/-- The scheduleLimited event loop, fuel-bounded. Every iteration that does
not break finishes at least one task, so `taskCount + 1` fuel is enough
(proved later). -/
def simLoop (j : Job) (workers : Int) : Nat → SimState → SimState
  | 0, st => st
  | Nat.succ fuel, st =>
    let res := simBody j workers st
    if res.2 then res.1 else simLoop j workers fuel res.1

/-- The initial simulation state: tasks without dependencies are ready. -/
def initState (j : Job) : SimState :=
  { ready := (j.tasks.filter (fun p => !p.2.hasDependencies)).map Prod.fst,
    running := [], finished := [], startTime := [], execOrder := [], currentTime := 0 }

/-- The state after k iterations of the scheduleLimited event loop (the
states the loop passes through, whether or not it has broken yet). -/
def simIter (j : Job) (w : Int) : Nat → SimState
  | 0 => initState j
  | Nat.succ k => (simBody j w (simIter j w k)).1

/-- Comparator of the scheduleLimited result sort: identical relation to
`schedLe` (the source phrases the ifs dually). -/
def buildLimitedSchedules (startTime finished : List (String × Int)) :
    List TaskSchedule :=
  (startTime.map (fun p => TaskSchedule.mk p.1 p.2 (lookup0 finished p.1))).insertionSort
    schedLe

/-- Model of WorkerScheduler.scheduleLimited: check orderability, run the
event simulation, then build the result from the recorded start and finish
times, sorted by (start, id); ExecutionOrder is read off the sorted
schedules (the dispatch-order list is built but not returned). -/
def scheduleLimited (j : Job) (workers : Int) : Except String ScheduleResult :=
  match topologicalOrder j with
  | Except.error e => Except.error e
  | Except.ok _ =>
    let fin := simLoop j workers (j.taskCount + 1) (initState j)
    let schedules := buildLimitedSchedules fin.startTime fin.finished
    Except.ok
      { jobName := j.name, workers := workers, minCompletionTime := fin.currentTime,
        taskSchedules := schedules,
        executionOrder := schedules.map (fun ts => ts.taskID),
        criticalPath := none }

/-- Model of WorkerScheduler.Schedule: reject non-positive worker counts
before any computation, then dispatch on workers >= taskCount. -/
def Schedule (j : Job) (workers : Int) (enum : List (String × Int)) :
    Outcome ScheduleResult :=
  if workers ≤ 0 then
    Outcome.error ("workers must be positive, got " ++ toString workers)
  else if workers ≥ (j.taskCount : Int) then
    scheduleUnlimited j workers enum
  else
    match scheduleLimited j workers with
    | Except.error e => Outcome.error e
    | Except.ok r => Outcome.ok r

/-- The Go map key-uniqueness invariant plus the per-task checks of
validator.GraphValidator: positive duration, no self-dependency, every
dependency resolves to a task of the job. -/
def Job.WellFormed (j : Job) : Prop :=
  (j.tasks.map Prod.fst).Nodup ∧
    ∀ p ∈ j.tasks, 0 < p.2.duration ∧
      ∀ d ∈ p.2.dependencies, d ≠ p.1 ∧ d ∈ j.tasks.map Prod.fst

instance (j : Job) : Decidable j.WellFormed := by
  unfold Job.WellFormed; infer_instance

/-- Task x depends on task y: the task stored under x lists y. -/
def DependsOn (j : Job) (x y : String) : Prop :=
  ∃ t, j.find? x = some t ∧ y ∈ t.dependencies

/-- The dependency relation of the job has no cycle. -/
def Acyclic (j : Job) : Prop :=
  ∀ x, ¬ Relation.TransGen (DependsOn j) x x

/-- A job the excluded validator accepts: non-empty, well-formed, acyclic. -/
def Job.Valid (j : Job) : Prop :=
  j.tasks ≠ [] ∧ j.WellFormed ∧ Acyclic j

/-- The est map the unconstrained (CPM) path computes (empty on a cycle
error), usable to state properties of the forward pass. -/
def cpmEst (j : Job) : List (String × Int) :=
  match topologicalOrder j with
  | Except.ok order => (forwardPass j order).1
  | Except.error _ => []

/-- The eft map the unconstrained (CPM) path computes (empty on a cycle
error). Theorems about findCriticalPath quantify the map iteration order
over permutations of these entries. -/
def cpmEft (j : Job) : List (String × Int) :=
  match topologicalOrder j with
  | Except.ok order => (forwardPass j order).2
  | Except.error _ => []

/-- Tasks eligible for emission once the ids in `done` have been emitted:
present in the job, not yet emitted, every dependency emitted. This is the
frontier of the specification's determinism requirement. -/
def eligible (j : Job) (done : List String) : List String :=
  (taskIds j).filter (fun x =>
    !done.contains x && (j.findD x).dependencies.all (fun d => done.contains d))

/-- The concrete scenario of the specification: A(3), B(2), C(4) free,
D(5) after A, E(2) after B and C, F(3) after D and E. -/
def job1 : Job :=
  { name := "J",
    tasks := [("A", ⟨3, []⟩), ("B", ⟨2, []⟩), ("C", ⟨4, []⟩),
              ("D", ⟨5, ["A"]⟩), ("E", ⟨2, ["B", "C"]⟩), ("F", ⟨3, ["D", "E"]⟩)] }

/-- A scheduling-anomaly instance for the worker-constrained simulator:
chain a(1) -> b(1) -> t(8), with g(3) also after b, and two short chains
u(1) -> w(2) and v(1) -> x(3). -/
def job3 : Job :=
  { name := "G",
    tasks := [("a", ⟨1, []⟩), ("b", ⟨1, ["a"]⟩), ("g", ⟨3, ["b"]⟩), ("t", ⟨8, ["b"]⟩),
              ("u", ⟨1, []⟩), ("v", ⟨1, []⟩), ("w", ⟨2, ["u"]⟩), ("x", ⟨3, ["v"]⟩)] }

/-- Two independent unit tasks that tie for the latest finish time. -/
def job7 : Job :=
  { name := "T", tasks := [("X", ⟨1, []⟩), ("Y", ⟨1, []⟩)] }

/-- The job with zero tasks. -/
def jobE : Job :=
  { name := "E", tasks := [] }

/-- A two-task dependency cycle: P needs Q and Q needs P. -/
def jobC : Job :=
  { name := "C", tasks := [("P", ⟨1, ["Q"]⟩), ("Q", ⟨1, ["P"]⟩)] }

/-!  Theorems. -/

theorem char_eq_of_toNat_eq {a b : Char} (h : a.toNat = b.toNat) : a = b :=
  Char.eq_of_val_eq (UInt32.ext h)

theorem charListLe_refl : ∀ l : List Char, charListLe l l = true
  | [] => rfl
  | a :: as => by
    unfold charListLe
    rw [if_neg (lt_irrefl a.toNat), if_pos rfl]
    exact charListLe_refl as

theorem charListLe_total : ∀ l1 l2 : List Char, charListLe l1 l2 = true ∨ charListLe l2 l1 = true
  | [], _ => Or.inl rfl
  | _ :: _, [] => Or.inr rfl
  | a :: as, b :: bs => by
    rcases lt_trichotomy a.toNat b.toNat with h | h | h
    · left; unfold charListLe; rw [if_pos h]
    · rcases charListLe_total as bs with h2 | h2
      · left; unfold charListLe; rw [if_neg (by omega), if_pos h]; exact h2
      · right; unfold charListLe; rw [if_neg (by omega), if_pos h.symm]; exact h2
    · right; unfold charListLe; rw [if_pos h]

theorem charListLe_trans : ∀ l1 l2 l3 : List Char,
    charListLe l1 l2 = true → charListLe l2 l3 = true → charListLe l1 l3 = true
  | [], _, _, _, _ => rfl
  | _ :: _, [], _, h, _ => by cases h
  | _ :: _, _ :: _, [], _, h => by cases h
  | a :: as, b :: bs, c :: cs, h1, h2 => by
    unfold charListLe at h1 h2 ⊢
    rcases lt_trichotomy a.toNat b.toNat with hab | hab | hab
    · rcases lt_trichotomy b.toNat c.toNat with hbc | hbc | hbc
      · rw [if_pos (by omega)]
      · rw [if_pos (by omega)]
      · rw [if_neg (by omega), if_neg (by omega)] at h2; cases h2
    · rw [if_neg (by omega), if_pos hab] at h1
      rcases lt_trichotomy b.toNat c.toNat with hbc | hbc | hbc
      · rw [if_pos (by omega)]
      · rw [if_neg (by omega), if_pos (by omega)] at h2 ⊢
        exact charListLe_trans as bs cs h1 h2
      · rw [if_neg (by omega), if_neg (by omega)] at h2; cases h2
    · rw [if_neg (by omega), if_neg (by omega)] at h1; cases h1

theorem charListLe_antisymm : ∀ l1 l2 : List Char,
    charListLe l1 l2 = true → charListLe l2 l1 = true → l1 = l2
  | [], [], _, _ => rfl
  | [], _ :: _, _, h => by cases h
  | _ :: _, [], h, _ => by cases h
  | a :: as, b :: bs, h1, h2 => by
    unfold charListLe at h1 h2
    rcases lt_trichotomy a.toNat b.toNat with hab | hab | hab
    · rw [if_neg (by omega), if_neg (by omega)] at h2; cases h2
    · rw [if_neg (by omega), if_pos hab] at h1
      rw [if_neg (by omega), if_pos hab.symm] at h2
      rw [char_eq_of_toNat_eq hab, charListLe_antisymm as bs h1 h2]
    · rw [if_neg (by omega), if_neg (by omega)] at h1; cases h1

theorem strLeP_refl (a : String) : strLeP a a := charListLe_refl a.data

theorem strLeP_total (a b : String) : strLeP a b ∨ strLeP b a := charListLe_total a.data b.data

theorem strLeP_trans {a b c : String} (h1 : strLeP a b) (h2 : strLeP b c) : strLeP a c :=
  charListLe_trans a.data b.data c.data h1 h2

theorem strLeP_antisymm {a b : String} (h1 : strLeP a b) (h2 : strLeP b a) : a = b := by
  cases a; cases b
  exact congrArg String.mk (charListLe_antisymm _ _ h1 h2)

instance : IsTotal String strLeP := ⟨strLeP_total⟩
instance : IsTrans String strLeP := ⟨fun _ _ _ => strLeP_trans⟩
instance : IsAntisymm String strLeP := ⟨fun _ _ => strLeP_antisymm⟩
instance : IsRefl String strLeP := ⟨strLeP_refl⟩

theorem sortStrings_perm (l : List String) : (sortStrings l).Perm l :=
  List.perm_insertionSort strLeP l

theorem sortStrings_sorted (l : List String) : (sortStrings l).Sorted strLeP :=
  List.sorted_insertionSort strLeP l

theorem mem_sortStrings {x : String} {l : List String} : x ∈ sortStrings l ↔ x ∈ l :=
  (sortStrings_perm l).mem_iff

theorem sortStrings_nodup {l : List String} (h : l.Nodup) : (sortStrings l).Nodup :=
  (sortStrings_perm l).nodup_iff.mpr h

theorem sortStrings_eq_of_perm {l1 l2 : List String} (h : l1.Perm l2) :
    sortStrings l1 = sortStrings l2 :=
  List.eq_of_perm_of_sorted ((sortStrings_perm l1).trans (h.trans (sortStrings_perm l2).symm))
    (sortStrings_sorted l1) (sortStrings_sorted l2)

theorem sortStrings_count (l : List String) (x : String) :
    (sortStrings l).count x = l.count x :=
  (sortStrings_perm l).count_eq x

/-- List.find? returns the unique element satisfying the predicate. -/
theorem find_eq_of_unique {α : Type} (p : α → Bool) {l : List α} {a : α}
    (ha : a ∈ l) (hpa : p a = true) (huniq : ∀ x ∈ l, p x = true → x = a) :
    l.find? p = some a := by
  induction l with
  | nil => cases ha
  | cons b t ih =>
    by_cases hb : p b = true
    · have hba : b = a := huniq b (List.mem_cons_self b t) hb
      rw [List.find?_cons_of_pos _ hb, hba]
    · rw [List.find?_cons_of_neg _ hb]
      have hba : b ≠ a := fun h => hb (h ▸ hpa)
      have ha2 : a ∈ t := by
        rcases List.mem_cons.mp ha with h | h
        · exact absurd h.symm hba
        · exact h
      exact ih ha2 (fun x hx => huniq x (List.mem_cons_of_mem b hx))

def decrAt (ind : String → Int) (nb : String) : String → Int :=
  fun x => if x = nb then ind nb - 1 else ind x

theorem decrAt_self (ind : String → Int) (nb : String) : decrAt ind nb nb = ind nb - 1 := by
  simp [decrAt]

theorem decrAt_ne (ind : String → Int) {nb x : String} (h : x ≠ nb) :
    decrAt ind nb x = ind x := by
  simp [decrAt, h]

theorem kahnFold_eq_pos (q : List String) (ind : String → Int) (nb : String)
    (h : ind nb - 1 = 0) :
    kahnFold (q, ind) nb = (sortStrings (q ++ [nb]), decrAt ind nb) := by
  simp only [kahnFold]
  rw [if_pos h]
  rfl

theorem kahnFold_eq_neg (q : List String) (ind : String → Int) (nb : String)
    (h : ¬ ind nb - 1 = 0) :
    kahnFold (q, ind) nb = (q, decrAt ind nb) := by
  simp only [kahnFold]
  rw [if_neg h]
  rfl

theorem kahnFold_spec : ∀ (ns q : List String) (ind : String → Int),
    q.Sorted strLeP → q.Nodup →
    (∀ x, (ns.count x : Int) ≤ ind x) →
    (∀ x, 0 < ns.count x → ind x = (ns.count x : Int) → x ∉ q) →
    (ns.foldl kahnFold (q, ind)).2 = (fun x => ind x - (ns.count x : Int)) ∧
    (∀ x, x ∈ (ns.foldl kahnFold (q, ind)).1 ↔
      x ∈ q ∨ (0 < ns.count x ∧ ind x = (ns.count x : Int))) ∧
    (ns.foldl kahnFold (q, ind)).1.Sorted strLeP ∧
    (ns.foldl kahnFold (q, ind)).1.Nodup := by
  intro ns
  induction ns with
  | nil =>
    intro q ind hs hn _ _
    refine ⟨funext fun x => by simp, fun x => by simp, hs, hn⟩
  | cons nb tl ih =>
    intro q ind hs hn hcount hfresh
    rw [List.foldl_cons]
    have hcnb1 : ((nb :: tl).count nb : Int) = (tl.count nb : Int) + 1 := by
      rw [List.count_cons_self]; push_cast; ring
    have hcne : ∀ x, x ≠ nb → (nb :: tl).count x = tl.count x := by
      intro x hx; rw [List.count_cons_of_ne hx]
    by_cases hd : ind nb - 1 = 0
    · rw [kahnFold_eq_pos q ind nb hd]
      have hindnb : ind nb = 1 := by omega
      have htl0 : tl.count nb = 0 := by
        have h1 := hcount nb
        rw [hcnb1] at h1
        omega
      have hnspos : 0 < (nb :: tl).count nb := by simp [List.count_cons_self]
      have hnbq : nb ∉ q := hfresh nb hnspos (by rw [hcnb1, htl0]; omega)
      have hnd1 : (q ++ [nb]).Nodup := by
        rw [List.nodup_append]
        refine ⟨hn, List.nodup_singleton nb, ?_⟩
        intro x hx hx2
        rw [List.mem_singleton] at hx2
        exact hnbq (hx2 ▸ hx)
      have IH := ih (sortStrings (q ++ [nb])) (decrAt ind nb)
        (sortStrings_sorted _) (sortStrings_nodup hnd1)
        (by
          intro x
          by_cases hxnb : x = nb
          · subst hxnb
            rw [htl0, decrAt_self]
            omega
          · rw [decrAt_ne ind hxnb]
            have h1 := hcount x
            rw [hcne x hxnb] at h1
            exact h1)
        (by
          intro x hpos heq
          by_cases hxnb : x = nb
          · subst hxnb; rw [htl0] at hpos; omega
          · rw [decrAt_ne ind hxnb] at heq
            have hx : x ∉ q := hfresh x (by rwa [hcne x hxnb]) (by rwa [hcne x hxnb])
            intro hmem
            rcases List.mem_append.mp (mem_sortStrings.mp hmem) with h | h
            · exact hx h
            · exact hxnb (List.mem_singleton.mp h))
      refine ⟨?_, ?_, IH.2.2.1, IH.2.2.2⟩
      · rw [IH.1]
        funext x
        by_cases hxnb : x = nb
        · subst hxnb
          rw [decrAt_self, htl0, hcnb1, htl0]
          push_cast
          ring
        · rw [decrAt_ne ind hxnb, hcne x hxnb]
      · intro x
        rw [IH.2.1 x]
        by_cases hxnb : x = nb
        · subst hxnb
          constructor
          · intro _
            exact Or.inr ⟨hnspos, by rw [hcnb1, htl0]; omega⟩
          · intro _
            refine Or.inl (mem_sortStrings.mpr (List.mem_append.mpr (Or.inr ?_)))
            simp
        · rw [mem_sortStrings, List.mem_append, decrAt_ne ind hxnb, hcne x hxnb]
          simp only [List.mem_singleton]
          constructor
          · rintro ((h | h) | h)
            · exact Or.inl h
            · exact absurd h hxnb
            · exact Or.inr h
          · rintro (h | h)
            · exact Or.inl (Or.inl h)
            · exact Or.inr h
    · rw [kahnFold_eq_neg q ind nb hd]
      have IH := ih q (decrAt ind nb) hs hn
        (by
          intro x
          by_cases hxnb : x = nb
          · subst hxnb
            rw [decrAt_self]
            have h1 := hcount x
            rw [hcnb1] at h1
            omega
          · rw [decrAt_ne ind hxnb]
            have h1 := hcount x
            rw [hcne x hxnb] at h1
            exact h1)
        (by
          intro x hpos heq
          by_cases hxnb : x = nb
          · subst hxnb
            rw [decrAt_self] at heq
            apply hfresh x (by simp [List.count_cons_self])
            rw [hcnb1]
            omega
          · rw [decrAt_ne ind hxnb] at heq
            exact hfresh x (by rwa [hcne x hxnb]) (by rwa [hcne x hxnb]))
      refine ⟨?_, ?_, IH.2.2.1, IH.2.2.2⟩
      · rw [IH.1]
        funext x
        by_cases hxnb : x = nb
        · subst hxnb
          rw [decrAt_self, hcnb1]
          ring
        · rw [decrAt_ne ind hxnb, hcne x hxnb]
      · intro x
        rw [IH.2.1 x]
        by_cases hxnb : x = nb
        · subst hxnb
          rw [decrAt_self, hcnb1]
          constructor
          · rintro (h | ⟨hp, he⟩)
            · exact Or.inl h
            · exact Or.inr ⟨by simp [List.count_cons_self], by omega⟩
          · rintro (h | ⟨hp, he⟩)
            · exact Or.inl h
            · have htlpos : 0 < tl.count x := by
                rcases Nat.eq_zero_or_pos (tl.count x) with h0 | h0
                · rw [h0] at he
                  exfalso
                  apply hd
                  omega
                · exact h0
              exact Or.inr ⟨htlpos, by omega⟩
        · rw [decrAt_ne ind hxnb, hcne x hxnb]

theorem find?_eq_none_iff {j : Job} {x : String} :
    j.find? x = none ↔ x ∉ taskIds j := by
  unfold Job.find? taskIds
  rw [Option.map_eq_none', List.find?_eq_none]
  constructor
  · intro h hx
    rcases List.mem_map.mp hx with ⟨p, hp, hpx⟩
    exact h p hp (by simpa using hpx)
  · intro h p hp hbeq
    exact h (List.mem_map.mpr ⟨p, hp, by simpa using hbeq⟩)

theorem findD_entry_mem {j : Job} {x : String} (h : x ∈ taskIds j) :
    (x, j.findD x) ∈ j.tasks := by
  cases hf : j.find? x with
  | none => exact absurd h (find?_eq_none_iff.mp hf)
  | some t =>
    have hD : j.findD x = t := by unfold Job.findD; rw [hf]; rfl
    have hf2 := hf
    unfold Job.find? at hf2
    rcases Option.map_eq_some'.mp hf2 with ⟨p, hp, hpt⟩
    have hkey : p.1 = x := by simpa using List.find?_some hp
    rw [hD, ← hpt, ← hkey]
    exact List.mem_of_find?_eq_some hp

theorem findD_default {j : Job} {x : String} (h : x ∉ taskIds j) :
    j.findD x = ⟨0, []⟩ := by
  unfold Job.findD
  rw [find?_eq_none_iff.mpr h]
  rfl

theorem keys_nodup_entry_unique : ∀ {l : List (String × Task)},
    (l.map Prod.fst).Nodup → ∀ {x : String} {a b : Task},
    (x, a) ∈ l → (x, b) ∈ l → a = b := by
  intro l
  induction l with
  | nil => intro _ x a b ha; cases ha
  | cons p t ih =>
    intro hnd x a b ha hb
    rw [List.map_cons, List.nodup_cons] at hnd
    rcases List.mem_cons.mp ha with ha1 | ha1 <;> rcases List.mem_cons.mp hb with hb1 | hb1
    · exact (Prod.ext_iff.mp (ha1.trans hb1.symm)).2
    · exfalso
      apply hnd.1
      have hpx : p.1 = x := by rw [← ha1]
      rw [hpx]
      exact List.mem_map.mpr ⟨(x, b), hb1, rfl⟩
    · exfalso
      apply hnd.1
      have hpx : p.1 = x := by rw [← hb1]
      rw [hpx]
      exact List.mem_map.mpr ⟨(x, a), ha1, rfl⟩
    · exact ih hnd.2 ha1 hb1

theorem findD_of_entry {j : Job} (hnd : (taskIds j).Nodup) {x : String} {t : Task}
    (h : (x, t) ∈ j.tasks) : j.findD x = t := by
  have hx : x ∈ taskIds j := List.mem_map.mpr ⟨(x, t), h, rfl⟩
  exact keys_nodup_entry_unique hnd (findD_entry_mem hx) h

theorem indeg0_eq (j : Job) (x : String) :
    indeg0 j x = ((j.findD x).dependencies.length : Int) := by
  unfold indeg0 Job.findD
  cases h : j.find? x with
  | none => rfl
  | some t => rfl

theorem mem_depFoldr : ∀ {l : List (String × Task)} {d y : String},
    y ∈ l.foldr (fun p acc => List.replicate (p.2.dependencies.count d) p.1 ++ acc) [] →
    y ∈ l.map Prod.fst := by
  intro l
  induction l with
  | nil => intro d y h; cases h
  | cons p t ih =>
    intro d y h
    rw [List.foldr_cons] at h
    rw [List.map_cons]
    rcases List.mem_append.mp h with h1 | h1
    · rw [List.eq_of_mem_replicate h1]
      exact List.mem_cons_self _ _
    · exact List.mem_cons_of_mem _ (ih h1)

theorem count_depFoldr : ∀ (l : List (String × Task)), (l.map Prod.fst).Nodup →
    ∀ (d x : String),
    (l.foldr (fun p acc => List.replicate (p.2.dependencies.count d) p.1 ++ acc) []).count x
      = ((Option.getD (Option.map (fun (p : String × Task) => p.2)
          (l.find? (fun p => p.1 == x))) (⟨0, []⟩ : Task)).dependencies.count d) := by
  intro l
  induction l with
  | nil => intro _ d x; simp
  | cons p t ih =>
    intro hnd d x
    rw [List.map_cons, List.nodup_cons] at hnd
    rw [List.foldr_cons, List.count_append]
    by_cases hkey : (p.1 == x) = true
    · rw [List.find?_cons_of_pos (p := fun q => q.1 == x) t hkey]
      have hx : p.1 = x := by simpa using hkey
      have hrest : (t.foldr (fun p acc => List.replicate (p.2.dependencies.count d) p.1 ++ acc)
          []).count x = 0 := by
        rw [List.count_eq_zero]
        intro hmem
        exact hnd.1 (hx ▸ mem_depFoldr hmem)
      rw [hrest]
      simp [List.count_replicate, hx]
    · rw [List.find?_cons_of_neg (p := fun q => q.1 == x) t hkey]
      have hx : p.1 ≠ x := by simpa using hkey
      rw [ih hnd.2 d x]
      simp [List.count_replicate, hx]

theorem count_dependents (j : Job) (hnd : (taskIds j).Nodup) (d x : String) :
    (dependents j d).count x = (j.findD x).dependencies.count d := by
  unfold dependents Job.findD Job.find?
  exact count_depFoldr j.tasks hnd d x

theorem mem_dependents {j : Job} {d y : String}
    (h : y ∈ dependents j d) : y ∈ taskIds j := by
  unfold dependents at h
  exact mem_depFoldr h

theorem nodup_subset_length_le {l1 l2 : List String} (h : l1.Nodup)
    (hs : ∀ x ∈ l1, x ∈ l2) : l1.length ≤ l2.length := by
  have h1 : l1.toFinset.card = l1.length := List.toFinset_card_of_nodup h
  have h2 : l1.toFinset ⊆ l2.toFinset := by
    intro x hx
    rw [List.mem_toFinset] at hx ⊢
    exact hs x hx
  calc l1.length = l1.toFinset.card := h1.symm
    _ ≤ l2.toFinset.card := Finset.card_le_card h2
    _ ≤ l2.length := l2.toFinset_card_le

theorem not_contains_iff {l : List String} {x : String} :
    (!l.contains x) = true ↔ x ∉ l := by
  simp

theorem mem_eligible_iff {j : Job} {done : List String} {x : String} :
    x ∈ eligible j done ↔
      x ∈ taskIds j ∧ x ∉ done ∧ ∀ d ∈ (j.findD x).dependencies, d ∈ done := by
  unfold eligible
  rw [List.mem_filter]
  constructor
  · rintro ⟨h1, h2⟩
    rw [Bool.and_eq_true] at h2
    refine ⟨h1, not_contains_iff.mp h2.1, ?_⟩
    intro d hd
    have := List.all_eq_true.mp h2.2 d hd
    simpa using this
  · rintro ⟨h1, h2, h3⟩
    refine ⟨h1, ?_⟩
    rw [Bool.and_eq_true]
    refine ⟨not_contains_iff.mpr h2, List.all_eq_true.mpr ?_⟩
    intro d hd
    simpa using h3 d hd

theorem length_filter_out_concat {ord : List String} {c : String} (hc : c ∉ ord) :
    ∀ l : List String,
    ((l.filter (fun d => !(ord ++ [c]).contains d)).length : Int)
      = ((l.filter (fun d => !ord.contains d)).length : Int) - l.count c
  | [] => by simp
  | d :: t => by
    have IH := length_filter_out_concat hc t
    by_cases hdc : d = c
    · subst hdc
      rw [List.filter_cons, List.filter_cons]
      rw [if_neg (by simp), if_pos (by simpa using hc)]
      rw [List.count_cons_self, IH]
      simp only [List.length_cons]
      push_cast
      ring
    · rw [List.filter_cons, List.filter_cons, List.count_cons_of_ne (Ne.symm hdc)]
      by_cases hmem : d ∈ ord
      · rw [if_neg (by simp [hmem]), if_neg (by simp [hmem])]
        exact IH
      · rw [if_pos (by simp [hmem, hdc]), if_pos (by simpa using hmem)]
        simp only [List.length_cons]
        push_cast
        rw [IH]
        ring

/-- Loop invariant of the Kahn queue loop, for a job with unique task ids:
the emitted order and the queue are disjoint task ids, the queue is sorted,
the in-degree map counts each task's dependencies not yet emitted, a task
is emitted or queued exactly when all its dependencies are emitted, every
emitted task's dependencies precede it, and each emitted task was the
lexicographically least eligible task at its step. -/
structure KahnInv (j : Job) (queue : List String) (indeg : String → Int)
    (order : List String) : Prop where
  orderSub : ∀ x ∈ order, x ∈ taskIds j
  queueSub : ∀ x ∈ queue, x ∈ taskIds j
  nodupAll : (order ++ queue).Nodup
  queueSorted : queue.Sorted strLeP
  indegMem : ∀ x ∈ taskIds j,
    indeg x = (((j.findD x).dependencies.filter (fun d => !order.contains d)).length : Int)
  indegOut : ∀ x, x ∉ taskIds j → indeg x = 0
  memberIff : ∀ x ∈ taskIds j,
    (x ∈ order ∨ x ∈ queue) ↔ ∀ d ∈ (j.findD x).dependencies, d ∈ order
  emittedDeps : ∀ i (h : i < order.length),
    ∀ d ∈ (j.findD (order.get ⟨i, h⟩)).dependencies, d ∈ order.take i
  minHist : ∀ i (h : i < order.length),
    order.get ⟨i, h⟩ ∈ eligible j (order.take i) ∧
      ∀ y ∈ eligible j (order.take i), strLeP (order.get ⟨i, h⟩) y

theorem kahnInv_init (j : Job) (hnd : (taskIds j).Nodup) :
    KahnInv j (sortStrings ((taskIds j).filter (fun x => indeg0 j x == 0)))
      (indeg0 j) [] := by
  constructor
  · intro x hx; cases hx
  · intro x hx
    exact (List.mem_filter.mp (mem_sortStrings.mp hx)).1
  · rw [List.nil_append]
    exact sortStrings_nodup (List.Nodup.filter _ hnd)
  · exact sortStrings_sorted _
  · intro x _
    rw [indeg0_eq]
    congr 1
    rw [List.filter_length_eq_length.mpr]
    intro d _
    simp
  · intro x hx
    rw [indeg0_eq, findD_default hx]
    rfl
  · intro x hx
    constructor
    · intro hmem d hd
      rcases hmem with h | h
      · cases h
      · exfalso
        have h2 := (List.mem_filter.mp (mem_sortStrings.mp h)).2
        have h3 : indeg0 j x = 0 := by simpa using h2
        rw [indeg0_eq] at h3
        have h4 : (j.findD x).dependencies.length = 0 := by exact_mod_cast h3
        rw [List.length_eq_zero.mp h4] at hd
        cases hd
    · intro hdeps
      right
      rw [mem_sortStrings, List.mem_filter]
      refine ⟨hx, ?_⟩
      have h4 : (j.findD x).dependencies = [] := by
        cases hdep : (j.findD x).dependencies with
        | nil => rfl
        | cons d t =>
          exfalso
          have := hdeps d (by rw [hdep]; exact List.mem_cons_self d t)
          cases this
      rw [indeg0_eq, h4]
      simp
  · intro i h
    cases h
  · intro i h
    cases h

end SchedulerModel

namespace SchedulerModel

theorem kahnInv_step (j : Job) (hnd : (taskIds j).Nodup)
    {current : String} {rest : List String} {indeg : String → Int} {order : List String}
    (inv : KahnInv j (current :: rest) indeg order) :
    KahnInv j ((sortStrings (dependents j current)).foldl kahnFold (rest, indeg)).1
      ((sortStrings (dependents j current)).foldl kahnFold (rest, indeg)).2
      (order ++ [current]) := by
  have hcount_ns : ∀ x, (sortStrings (dependents j current)).count x
      = (j.findD x).dependencies.count current := by
    intro x
    rw [sortStrings_count, count_dependents j hnd]
  have hcur_ids : current ∈ taskIds j := inv.queueSub current (List.mem_cons_self _ _)
  have hnodup := inv.nodupAll
  rw [List.nodup_append] at hnodup
  obtain ⟨horder_nd, hqueue_nd, hdisj⟩ := hnodup
  have hcur_notrest : current ∉ rest := (List.nodup_cons.mp hqueue_nd).1
  have hrest_nd : rest.Nodup := (List.nodup_cons.mp hqueue_nd).2
  have hcur_noorder : current ∉ order := fun h => hdisj h (List.mem_cons_self _ _)
  have hdeps_cur : ∀ d ∈ (j.findD current).dependencies, d ∈ order :=
    (inv.memberIff current hcur_ids).mp (Or.inr (List.mem_cons_self _ _))
  have hq_sorted : rest.Sorted strLeP := (List.sorted_cons.mp inv.queueSorted).2
  have hcount : ∀ x, ((sortStrings (dependents j current)).count x : Int) ≤ indeg x := by
    intro x
    by_cases hx : x ∈ taskIds j
    · rw [inv.indegMem x hx, hcount_ns x]
      have hpass : (fun d => !order.contains d) current = true := by
        simpa using hcur_noorder
      have h1 : (j.findD x).dependencies.count current
          = ((j.findD x).dependencies.filter (fun d => !order.contains d)).count current :=
        (List.count_filter (p := fun d => !order.contains d) (a := current) hpass).symm
      rw [h1]
      exact_mod_cast List.count_le_length _ _
    · rw [hcount_ns x, findD_default hx, inv.indegOut x hx]
      simp
  have hfresh : ∀ x, 0 < (sortStrings (dependents j current)).count x →
      indeg x = ((sortStrings (dependents j current)).count x : Int) → x ∉ rest := by
    intro x hpos heq hxrest
    have hx_ids : x ∈ taskIds j := by
      have hxmem : x ∈ sortStrings (dependents j current) := List.count_pos_iff.mp hpos
      exact mem_dependents (mem_sortStrings.mp hxmem)
    have hcur_dep : current ∈ (j.findD x).dependencies := by
      rw [hcount_ns x] at hpos
      exact List.count_pos_iff.mp hpos
    have hall : ∀ d ∈ (j.findD x).dependencies, d ∈ order :=
      (inv.memberIff x hx_ids).mp (Or.inr (List.mem_cons_of_mem _ hxrest))
    exact hcur_noorder (hall current hcur_dep)
  obtain ⟨hind2, hmem2, hsort2, hnodup2⟩ :=
    kahnFold_spec (sortStrings (dependents j current)) rest indeg hq_sorted hrest_nd
      hcount hfresh
  have hnew_char : ∀ x, 0 < (sortStrings (dependents j current)).count x →
      indeg x = ((sortStrings (dependents j current)).count x : Int) →
      x ∈ taskIds j ∧ current ∈ (j.findD x).dependencies ∧
        ∀ d ∈ (j.findD x).dependencies, d ∉ order → d = current := by
    intro x hpos heq
    have hx_ids : x ∈ taskIds j := by
      have hxmem : x ∈ sortStrings (dependents j current) := List.count_pos_iff.mp hpos
      exact mem_dependents (mem_sortStrings.mp hxmem)
    have hcur_dep : current ∈ (j.findD x).dependencies := by
      rw [hcount_ns x] at hpos
      exact List.count_pos_iff.mp hpos
    refine ⟨hx_ids, hcur_dep, ?_⟩
    have heq2 : (((j.findD x).dependencies.filter (fun d => !order.contains d)).length : Int)
        = ((j.findD x).dependencies.count current : Int) := by
      rw [← inv.indegMem x hx_ids, heq, hcount_ns x]
    have hpass : (fun d => !order.contains d) current = true := by
      simpa using hcur_noorder
    have heq3 : ((j.findD x).dependencies.filter (fun d => !order.contains d)).count current
        = ((j.findD x).dependencies.filter (fun d => !order.contains d)).length := by
      rw [List.count_filter (p := fun d => !order.contains d) (a := current) hpass]
      exact_mod_cast heq2.symm
    have hallc := List.count_eq_length.mp heq3
    intro d hd hdo
    have hdf : d ∈ (j.findD x).dependencies.filter (fun d => !order.contains d) :=
      List.mem_filter.mpr ⟨hd, by simpa using hdo⟩
    exact (hallc d hdf).symm
  have hnew_char2 : ∀ x, x ∈ taskIds j → current ∈ (j.findD x).dependencies →
      (∀ d ∈ (j.findD x).dependencies, d ∉ order → d = current) →
      0 < (sortStrings (dependents j current)).count x ∧
        indeg x = ((sortStrings (dependents j current)).count x : Int) := by
    intro x hx_ids hcur_dep hklein
    constructor
    · rw [hcount_ns x]
      exact List.count_pos_iff.mpr hcur_dep
    · rw [inv.indegMem x hx_ids, hcount_ns x]
      have hpass : (fun d => !order.contains d) current = true := by
        simpa using hcur_noorder
      congr 1
      have hallc : ∀ d ∈ (j.findD x).dependencies.filter (fun d => !order.contains d),
          current = d := by
        intro d hdf
        have := List.mem_filter.mp hdf
        exact (hklein d this.1 (by simpa using this.2)).symm
      rw [← List.count_eq_length.mpr hallc, List.count_filter (p := fun d => !order.contains d) (a := current) hpass]
  constructor
  · intro x hx
    rcases List.mem_append.mp hx with h | h
    · exact inv.orderSub x h
    · rw [List.mem_singleton.mp h]
      exact hcur_ids
  · intro x hx
    rcases (hmem2 x).mp hx with h | ⟨hpos, heq⟩
    · exact inv.queueSub x (List.mem_cons_of_mem _ h)
    · exact (hnew_char x hpos heq).1
  · rw [List.nodup_append]
    refine ⟨?_, hnodup2, ?_⟩
    · rw [List.nodup_append]
      refine ⟨horder_nd, List.nodup_singleton _, ?_⟩
      intro x hx hx2
      rw [List.mem_singleton] at hx2
      exact hcur_noorder (hx2 ▸ hx)
    · intro x hx hx2
      rcases (hmem2 x).mp hx2 with h | ⟨hpos, heq⟩
      · rcases List.mem_append.mp hx with h1 | h1
        · exact hdisj h1 (List.mem_cons_of_mem _ h)
        · rw [List.mem_singleton.mp h1] at h
          exact hcur_notrest h
      · obtain ⟨hx_ids, hcur_dep, _⟩ := hnew_char x hpos heq
        rcases List.mem_append.mp hx with h1 | h1
        · have hall : ∀ d ∈ (j.findD x).dependencies, d ∈ order :=
            (inv.memberIff x hx_ids).mp (Or.inl h1)
          exact hcur_noorder (hall current hcur_dep)
        · rw [List.mem_singleton.mp h1] at hcur_dep
          have hall : ∀ d ∈ (j.findD current).dependencies, d ∈ order := hdeps_cur
          exact hcur_noorder (hall current hcur_dep)
  · exact hsort2
  · intro x hx
    rw [congrFun hind2 x, inv.indegMem x hx, hcount_ns x,
      length_filter_out_concat hcur_noorder]
  · intro x hx
    rw [congrFun hind2 x, inv.indegOut x hx, hcount_ns x, findD_default hx]
    simp
  · intro x hx
    constructor
    · intro hmem d hd
      rcases hmem with h | h
      · rcases List.mem_append.mp h with h1 | h1
        · exact List.mem_append.mpr (Or.inl ((inv.memberIff x hx).mp (Or.inl h1) d hd))
        · have hxc : x = current := List.mem_singleton.mp h1
          rw [hxc] at hd
          exact List.mem_append.mpr (Or.inl (hdeps_cur d hd))
      · rcases (hmem2 x).mp h with h1 | ⟨hpos, heq⟩
        · exact List.mem_append.mpr
            (Or.inl ((inv.memberIff x hx).mp (Or.inr (List.mem_cons_of_mem _ h1)) d hd))
        · obtain ⟨_, _, hklein⟩ := hnew_char x hpos heq
          by_cases hdo : d ∈ order
          · exact List.mem_append.mpr (Or.inl hdo)
          · rw [hklein d hd hdo]
            exact List.mem_append.mpr (Or.inr (List.mem_singleton.mpr rfl))
    · intro hdeps
      by_cases hallord : ∀ d ∈ (j.findD x).dependencies, d ∈ order
      · rcases (inv.memberIff x hx).mpr hallord with h | h
        · exact Or.inl (List.mem_append.mpr (Or.inl h))
        · rcases List.mem_cons.mp h with h1 | h1
          · exact Or.inl (List.mem_append.mpr (Or.inr (List.mem_singleton.mpr h1)))
          · exact Or.inr ((hmem2 x).mpr (Or.inl h1))
      · push_neg at hallord
        obtain ⟨d0, hd0, hd0o⟩ := hallord
        have hd0c : d0 = current := by
          have := hdeps d0 hd0
          rcases List.mem_append.mp this with h1 | h1
          · exact absurd h1 hd0o
          · exact List.mem_singleton.mp h1
        have hklein : ∀ d ∈ (j.findD x).dependencies, d ∉ order → d = current := by
          intro d hd hdo
          have := hdeps d hd
          rcases List.mem_append.mp this with h1 | h1
          · exact absurd h1 hdo
          · exact List.mem_singleton.mp h1
        obtain ⟨hpos, heq⟩ := hnew_char2 x hx (hd0c ▸ hd0) hklein
        exact Or.inr ((hmem2 x).mpr (Or.inr ⟨hpos, heq⟩))
  · intro i h
    rw [List.length_append, List.length_singleton] at h
    rcases Nat.lt_succ_iff_lt_or_eq.mp h with hlt | heq
    · intro d hd
      have hget : (order ++ [current]).get ⟨i, by rw [List.length_append]; omega⟩
          = order.get ⟨i, hlt⟩ := List.get_append i hlt
      rw [List.take_append_of_le_length (by omega)]
      apply inv.emittedDeps i hlt
      rw [← hget]
      exact hd
    · subst heq
      intro d hd
      have hget : (order ++ [current]).get ⟨order.length, by simp⟩ = current := by
        rw [List.get_eq_getElem]
        exact List.getElem_concat_length order current order.length rfl (by simp)
      rw [hget] at hd
      rw [List.take_left]
      exact hdeps_cur d hd
  · intro i h
    rw [List.length_append, List.length_singleton] at h
    rcases Nat.lt_succ_iff_lt_or_eq.mp h with hlt | heq
    · have hget : (order ++ [current]).get ⟨i, by rw [List.length_append]; omega⟩
          = order.get ⟨i, hlt⟩ := List.get_append i hlt
      rw [hget, List.take_append_of_le_length (by omega)]
      exact inv.minHist i hlt
    · subst heq
      have hget : (order ++ [current]).get ⟨order.length, by simp⟩ = current := by
        rw [List.get_eq_getElem]
        exact List.getElem_concat_length order current order.length rfl (by simp)
      rw [hget, List.take_left]
      constructor
      · exact mem_eligible_iff.mpr ⟨hcur_ids, hcur_noorder, hdeps_cur⟩
      · intro y hy
        obtain ⟨hy_ids, hy_no, hy_deps⟩ := mem_eligible_iff.mp hy
        rcases (inv.memberIff y hy_ids).mpr hy_deps with h1 | h1
        · exact absurd h1 hy_no
        · rcases List.mem_cons.mp h1 with h2 | h2
          · rw [h2]
            exact strLeP_refl current
          · exact (List.sorted_cons.mp inv.queueSorted).1 y h2

theorem taskIds_length (j : Job) : (taskIds j).length = j.taskCount := by
  unfold taskIds Job.taskCount
  rw [List.length_map]

theorem kahnLoop_zero (j : Job) (queue : List String) (indeg : String → Int)
    (order : List String) : kahnLoop j 0 queue indeg order = order := rfl

theorem kahnLoop_succ_nil (j : Job) (fuel : Nat) (indeg : String → Int)
    (order : List String) : kahnLoop j (fuel + 1) [] indeg order = order := rfl

theorem kahnLoop_succ_cons (j : Job) (fuel : Nat) (current : String) (rest : List String)
    (indeg : String → Int) (order : List String) :
    kahnLoop j (fuel + 1) (current :: rest) indeg order =
      kahnLoop j fuel ((sortStrings (dependents j current)).foldl kahnFold (rest, indeg)).1
        ((sortStrings (dependents j current)).foldl kahnFold (rest, indeg)).2
        (order ++ [current]) := rfl

theorem kahnLoop_final (j : Job) (hnd : (taskIds j).Nodup) :
    ∀ (fuel : Nat) (queue : List String) (indeg : String → Int) (order : List String),
    KahnInv j queue indeg order →
    j.taskCount + 1 ≤ fuel + order.length →
    ∃ tail ind2, kahnLoop j fuel queue indeg order = order ++ tail ∧
      KahnInv j [] ind2 (order ++ tail) := by
  intro fuel
  induction fuel with
  | zero =>
    intro queue indeg order inv hfuel
    exfalso
    have hsub : ∀ x ∈ order, x ∈ taskIds j := inv.orderSub
    have hnd2 : order.Nodup := ((List.nodup_append.mp inv.nodupAll).1)
    have hlen := nodup_subset_length_le hnd2 hsub
    rw [taskIds_length] at hlen
    omega
  | succ fuel ih =>
    intro queue indeg order inv hfuel
    cases queue with
    | nil =>
      refine ⟨[], indeg, ?_, ?_⟩
      · rw [kahnLoop_succ_nil, List.append_nil]
      · rw [List.append_nil]
        exact inv
    | cons current rest =>
      have inv2 := kahnInv_step j hnd inv
      have hfuel2 : j.taskCount + 1 ≤ fuel + (order ++ [current]).length := by
        rw [List.length_append, List.length_singleton]
        omega
      obtain ⟨tail, ind2, heq, hinv⟩ := ih _ _ _ inv2 hfuel2
      refine ⟨current :: tail, ind2, ?_, ?_⟩
      · rw [kahnLoop_succ_cons, heq, List.append_assoc]
        rfl
      · have : order ++ [current] ++ tail = order ++ current :: tail := by
          rw [List.append_assoc]
          rfl
        rw [← this]
        exact hinv

theorem topologicalOrder_kahn (j : Job) (hnd : (taskIds j).Nodup) :
    ∃ order ind2,
      kahnLoop j (j.taskCount + 1)
        (sortStrings ((taskIds j).filter (fun x => indeg0 j x == 0))) (indeg0 j) [] = order ∧
      KahnInv j [] ind2 order := by
  obtain ⟨tail, ind2, heq, hinv⟩ :=
    kahnLoop_final j hnd (j.taskCount + 1)
      (sortStrings ((taskIds j).filter (fun x => indeg0 j x == 0))) (indeg0 j) []
      (kahnInv_init j hnd) (by simp)
  exact ⟨tail, ind2, by rw [heq]; rfl, by simpa using hinv⟩

theorem find?_eq_some_findD {j : Job} {x : String} (h : x ∈ taskIds j) :
    j.find? x = some (j.findD x) := by
  cases hf : j.find? x with
  | none => exact absurd h (find?_eq_none_iff.mp hf)
  | some t =>
    have : j.findD x = t := by unfold Job.findD; rw [hf]; rfl
    rw [this]

theorem dependsOn_mem_taskIds {j : Job} {x y : String} (h : DependsOn j x y) :
    x ∈ taskIds j := by
  obtain ⟨t, ht, _⟩ := h
  by_contra hx
  rw [find?_eq_none_iff.mpr hx] at ht
  cases ht

theorem cycle_of_descent (j : Job) (S : List String) (hne : S ≠ [])
    (hstep : ∀ x ∈ S, ∃ y ∈ S, DependsOn j x y) :
    ∃ x, Relation.TransGen (DependsOn j) x x := by
  classical
  have hchoice : ∀ x, ∃ y, x ∈ S → (y ∈ S ∧ DependsOn j x y) := by
    intro x
    by_cases hx : x ∈ S
    · obtain ⟨y, hy, hxy⟩ := hstep x hx
      exact ⟨y, fun _ => ⟨hy, hxy⟩⟩
    · exact ⟨x, fun h => absurd h hx⟩
  choose f hf using hchoice
  obtain ⟨x0, hx0⟩ := List.exists_mem_of_ne_nil S hne
  have hiter : ∀ n : Nat, f^[n] x0 ∈ S := by
    intro n
    induction n with
    | zero => exact hx0
    | succ n ihn =>
      rw [Function.iterate_succ_apply']
      exact (hf _ ihn).1
  have hstep2 : ∀ n : Nat, DependsOn j (f^[n] x0) (f^[n+1] x0) := by
    intro n
    rw [Function.iterate_succ_apply']
    exact (hf _ (hiter n)).2
  have htrans : ∀ a b : Nat, a < b → Relation.TransGen (DependsOn j) (f^[a] x0) (f^[b] x0) := by
    intro a b hab
    induction b with
    | zero => omega
    | succ b ihb =>
      rcases Nat.lt_succ_iff_lt_or_eq.mp hab with h | h
      · exact Relation.TransGen.tail (ihb h) (hstep2 b)
      · subst h
        exact Relation.TransGen.single (hstep2 a)
  have hmaps : ∀ n ∈ Finset.range (S.toFinset.card + 1), f^[n] x0 ∈ S.toFinset := by
    intro n _
    rw [List.mem_toFinset]
    exact hiter n
  have hcard : S.toFinset.card < (Finset.range (S.toFinset.card + 1)).card := by
    rw [Finset.card_range]
    omega
  obtain ⟨a, ha, b, hb, hab, hfab⟩ :=
    Finset.exists_ne_map_eq_of_card_lt_of_maps_to hcard hmaps
  rcases Nat.lt_or_ge a b with h | h
  · refine ⟨f^[a] x0, ?_⟩
    have := htrans a b h
    rw [← hfab] at this
    exact this
  · have h2 : b < a := by omega
    refine ⟨f^[b] x0, ?_⟩
    have := htrans b a h2
    rw [hfab] at this
    exact this

theorem indexOf_lt_of_mem_take : ∀ (l : List String) (i : Nat) (y : String),
    y ∈ l.take i → l.indexOf y < i := by
  intro l
  induction l with
  | nil => intro i y h; rw [List.take_nil] at h; cases h
  | cons a t ih =>
    intro i y h
    cases i with
    | zero => cases h
    | succ i =>
      rw [List.take_succ_cons] at h
      rcases List.mem_cons.mp h with h1 | h1
      · subst h1
        rw [List.indexOf_cons_self]
        omega
      · by_cases hya : y = a
        · subst hya
          rw [List.indexOf_cons_self]
          omega
        · rw [List.indexOf_cons_ne _ (fun hh => hya hh.symm)]
          have := ih i y h1
          omega

theorem WellFormed_taskIds_nodup {j : Job} (h : j.WellFormed) : (taskIds j).Nodup := h.1

theorem WellFormed_deps_mem {j : Job} (h : j.WellFormed) {x : String} (hx : x ∈ taskIds j) :
    ∀ d ∈ (j.findD x).dependencies, d ∈ taskIds j := by
  intro d hd
  exact (h.2 (x, j.findD x) (findD_entry_mem hx) |>.2 d hd).2

theorem cover_of_subset_length {l1 l2 : List String} (hnd1 : l1.Nodup)
    (hsub : ∀ x ∈ l1, x ∈ l2) (hlen : l2.length ≤ l1.length) : ∀ x ∈ l2, x ∈ l1 := by
  intro x hx
  have h1 : l1.toFinset ⊆ l2.toFinset := by
    intro y hy
    rw [List.mem_toFinset] at hy ⊢
    exact hsub y hy
  have h2 : l2.toFinset.card ≤ l1.toFinset.card := by
    calc l2.toFinset.card ≤ l2.length := l2.toFinset_card_le
      _ ≤ l1.length := hlen
      _ = l1.toFinset.card := (List.toFinset_card_of_nodup hnd1).symm
  have h3 : l1.toFinset = l2.toFinset := Finset.eq_of_subset_of_card_le h1 h2
  rw [← List.mem_toFinset, ← h3, List.mem_toFinset] at hx
  exact hx

theorem edge_rank {j : Job} {order : List String} {ind2 : String → Int}
    (hinv : KahnInv j [] ind2 order) (hcover : ∀ x ∈ taskIds j, x ∈ order)
    {x y : String} (hxy : DependsOn j x y) : order.indexOf y < order.indexOf x := by
  obtain ⟨t, ht, hyt⟩ := hxy
  have hx_ids : x ∈ taskIds j := dependsOn_mem_taskIds ⟨t, ht, hyt⟩
  have hxo : x ∈ order := hcover x hx_ids
  have hidx : order.indexOf x < order.length := List.indexOf_lt_length.mpr hxo
  have hget : order.get ⟨order.indexOf x, hidx⟩ = x := by
    rw [List.get_eq_getElem]
    exact List.getElem_indexOf hidx
  have ht2 : j.findD x = t := by
    unfold Job.findD
    rw [ht]
    rfl
  have hdep := hinv.emittedDeps (order.indexOf x) hidx
  rw [hget, ht2] at hdep
  exact indexOf_lt_of_mem_take order (order.indexOf x) y (hdep y hyt)

theorem acyclic_of_full {j : Job} {order : List String} {ind2 : String → Int}
    (hinv : KahnInv j [] ind2 order) (hlen : order.length = j.taskCount) : Acyclic j := by
  have hnd2 : order.Nodup := (List.nodup_append.mp hinv.nodupAll).1
  have hcover : ∀ x ∈ taskIds j, x ∈ order := by
    apply cover_of_subset_length hnd2 hinv.orderSub
    rw [taskIds_length]
    omega
  intro x hx
  have hrank : ∀ a b, Relation.TransGen (DependsOn j) a b →
      order.indexOf b < order.indexOf a := by
    intro a b htg
    induction htg with
    | single h => exact edge_rank hinv hcover h
    | tail _ hstep ihtg => exact lt_trans (edge_rank hinv hcover hstep) ihtg
  exact absurd (hrank x x hx) (lt_irrefl _)

theorem cover_of_acyclic {j : Job} (hWF : j.WellFormed) (hA : Acyclic j)
    {order : List String} {ind2 : String → Int} (hinv : KahnInv j [] ind2 order) :
    ∀ x ∈ taskIds j, x ∈ order := by
  by_contra hmiss
  push_neg at hmiss
  obtain ⟨x0, hx0ids, hx0no⟩ := hmiss
  have hS : ∀ z ∈ (taskIds j).filter (fun x => !order.contains x),
      ∃ y ∈ (taskIds j).filter (fun x => !order.contains x), DependsOn j z y := by
    intro z hz
    obtain ⟨hz_ids, hz_no⟩ := List.mem_filter.mp hz
    have hz_no2 : z ∉ order := not_contains_iff.mp hz_no
    have hnotmem : ¬ (z ∈ order ∨ z ∈ ([] : List String)) := by
      rintro (h | h)
      · exact hz_no2 h
      · cases h
    have hnotall : ¬ ∀ d ∈ (j.findD z).dependencies, d ∈ order := by
      intro hall
      exact hnotmem ((hinv.memberIff z hz_ids).mpr hall)
    push_neg at hnotall
    obtain ⟨d, hd, hdo⟩ := hnotall
    refine ⟨d, ?_, ⟨j.findD z, find?_eq_some_findD hz_ids, hd⟩⟩
    rw [List.mem_filter]
    exact ⟨WellFormed_deps_mem hWF hz_ids d hd, not_contains_iff.mpr hdo⟩
  have hne : (taskIds j).filter (fun x => !order.contains x) ≠ [] := by
    intro hcontra
    have : x0 ∈ (taskIds j).filter (fun x => !order.contains x) :=
      List.mem_filter.mpr ⟨hx0ids, not_contains_iff.mpr hx0no⟩
    rw [hcontra] at this
    cases this
  obtain ⟨c, hc⟩ := cycle_of_descent j _ hne hS
  exact hA c hc

theorem perm_of_nodup_mem_iff {l1 l2 : List String} (h1 : l1.Nodup) (h2 : l2.Nodup)
    (hm : ∀ x, x ∈ l1 ↔ x ∈ l2) : l1.Perm l2 := by
  rw [List.perm_iff_count]
  intro x
  by_cases hx : x ∈ l1
  · rw [List.count_eq_one_of_mem h1 hx, List.count_eq_one_of_mem h2 ((hm x).mp hx)]
  · rw [List.count_eq_zero.mpr hx, List.count_eq_zero.mpr (fun hc => hx ((hm x).mpr hc))]

theorem topologicalOrder_ok_spec (j : Job) (hWF : j.WellFormed) (hA : Acyclic j) :
    ∃ order, topologicalOrder j = Except.ok order ∧ order.Perm (taskIds j) ∧
      (∃ ind2, KahnInv j [] ind2 order) := by
  have hnd := WellFormed_taskIds_nodup hWF
  obtain ⟨order, ind2, heq, hinv⟩ := topologicalOrder_kahn j hnd
  have hnd2 : order.Nodup := (List.nodup_append.mp hinv.nodupAll).1
  have hcover := cover_of_acyclic hWF hA hinv
  have hperm : order.Perm (taskIds j) := by
    apply perm_of_nodup_mem_iff hnd2 hnd
    intro x
    exact ⟨fun hx => hinv.orderSub x hx, fun hx => hcover x hx⟩
  refine ⟨order, ?_, hperm, ind2, hinv⟩
  unfold topologicalOrder
  simp only []
  rw [heq, if_pos]
  rw [hperm.length_eq, taskIds_length]

theorem topologicalOrder_cycle_error (j : Job) (hnd : (taskIds j).Nodup)
    (hcyc : ∃ x, Relation.TransGen (DependsOn j) x x) :
    topologicalOrder j =
      Except.error "topological sort failed: graph contains a cycle" := by
  obtain ⟨order, ind2, heq, hinv⟩ := topologicalOrder_kahn j hnd
  have hlen : order.length ≠ j.taskCount := by
    intro hlen
    obtain ⟨c, hc⟩ := hcyc
    exact absurd hc (acyclic_of_full hinv hlen c)
  unfold topologicalOrder
  simp only []
  rw [heq, if_neg hlen]

/-- C1: on the specification's concrete scenario (tasks A(3), B(2), C(4),
D(5 after A), E(2 after B,C), F(3 after D,E)), Schedule with any worker
count of at least 6 (unconstrained mode) and any iteration order of the
eft map returns minimum completion time 11, critical path A, D, F, and
per-task earliest start and finish A(0,3), B(0,2), C(0,4), D(3,8), E(4,6),
F(8,11). -/
theorem c1_concrete_unconstrained_schedule (w : Int) (enum : List (String × Int))
    (hw : 6 ≤ w) (henum : enum.Perm (cpmEft job1)) :
    Schedule job1 w enum =
      Outcome.ok
        { jobName := "J", workers := w, minCompletionTime := 11,
          taskSchedules :=
            [⟨"A", 0, 3⟩, ⟨"B", 0, 2⟩, ⟨"C", 0, 4⟩,
             ⟨"D", 3, 8⟩, ⟨"E", 4, 6⟩, ⟨"F", 8, 11⟩],
          executionOrder := ["A", "B", "C", "D", "E", "F"],
          criticalPath := some ["A", "D", "F"] } := by
  have hend : findEndTask enum 11 = "F" := by
    have hfind : enum.find? (fun p => p.2 == (11 : Int)) = some ("F", 11) := by
      apply find_eq_of_unique
      · exact henum.mem_iff.mpr (by decide)
      · decide
      · intro x hx hpx
        have hx2 : x ∈ cpmEft job1 := henum.mem_iff.mp hx
        have hc : cpmEft job1 = [("A", 3), ("B", 2), ("C", 4), ("D", 8), ("E", 6), ("F", 11)] := by
          decide
        rw [hc] at hx2
        fin_cases hx2 <;> simp_all
    unfold findEndTask
    rw [hfind]
  unfold Schedule
  rw [if_neg (by omega), if_pos (by
    show w ≥ ((job1.taskCount : Nat) : Int)
    rw [show job1.taskCount = 6 from rfl]
    omega)]
  unfold scheduleUnlimited
  rw [show topologicalOrder job1 = Except.ok ["A", "B", "C", "D", "E", "F"] from by decide]
  simp only []
  unfold findCriticalPath
  rw [show maxEft (forwardPass job1 ["A", "B", "C", "D", "E", "F"]).2 = 11 from by decide, hend]
  rw [show traceBack job1 (forwardPass job1 ["A", "B", "C", "D", "E", "F"]).1
        (forwardPass job1 ["A", "B", "C", "D", "E", "F"]).2 (job1.taskCount + 1) "F" ["F"]
      = some ["A", "D", "F"] from by decide]
  simp only []
  congr 1

/-- Closed instance of the C1 theorem at workers = 6 with the eft map
iterated in insertion order. -/
theorem c1_concrete_unconstrained_schedule_witness :
    Schedule job1 6 (cpmEft job1) =
      Outcome.ok
        { jobName := "J", workers := 6, minCompletionTime := 11,
          taskSchedules :=
            [⟨"A", 0, 3⟩, ⟨"B", 0, 2⟩, ⟨"C", 0, 4⟩,
             ⟨"D", 3, 8⟩, ⟨"E", 4, 6⟩, ⟨"F", 8, 11⟩],
          executionOrder := ["A", "B", "C", "D", "E", "F"],
          criticalPath := some ["A", "D", "F"] } :=
  c1_concrete_unconstrained_schedule 6 (cpmEft job1) (by decide) (List.Perm.refl _)

/-- C7: Schedule is not deterministic on the code as written: on a job with
two tasks X(1) and Y(1) that tie for the latest finish time, two
admissible iteration orders of the eft map (both permutations of its
entries, as Go map iteration delivers) yield different ScheduleResults:
the critical path is X under one order and Y under the other. -/
theorem c7_critical_path_depends_on_map_iteration_order :
    ([(("X" : String), (1 : Int)), ("Y", 1)]).Perm (cpmEft job7) ∧
    ([(("Y" : String), (1 : Int)), ("X", 1)]).Perm (cpmEft job7) ∧
    Schedule job7 2 [("X", 1), ("Y", 1)] ≠ Schedule job7 2 [("Y", 1), ("X", 1)] ∧
    (Schedule job7 2 [("X", 1), ("Y", 1)]).map (fun r => r.criticalPath) =
      Outcome.ok (some ["X"]) ∧
    (Schedule job7 2 [("Y", 1), ("X", 1)]).map (fun r => r.criticalPath) =
      Outcome.ok (some ["Y"]) := by
  refine ⟨by decide, by decide, by decide, by decide, by decide⟩

/-- The only error topologicalOrder produces is the cycle message. -/
theorem topologicalOrder_error_msg {j : Job} {e : String}
    (h : topologicalOrder j = Except.error e) :
    e = "topological sort failed: graph contains a cycle" := by
  simp only [topologicalOrder] at h
  split at h
  · cases h
  · cases h; rfl

/-- The only error scheduleUnlimited produces is the cycle message. -/
theorem scheduleUnlimited_error_msg {j : Job} {w : Int} {enum : List (String × Int)}
    {e : String} (h : scheduleUnlimited j w enum = Outcome.error e) :
    e = "topological sort failed: graph contains a cycle" := by
  unfold scheduleUnlimited at h
  cases htopo : topologicalOrder j with
  | error e2 =>
    rw [htopo] at h
    cases h
    exact topologicalOrder_error_msg htopo
  | ok order =>
    rw [htopo] at h
    simp only [] at h
    cases hcp : findCriticalPath j (forwardPass j order).1 (forwardPass j order).2 enum
        (maxEft (forwardPass j order).2) with
    | none => rw [hcp] at h; cases h
    | some cp => rw [hcp] at h; cases h

/-- The only error scheduleLimited produces is the cycle message. -/
theorem scheduleLimited_error_msg {j : Job} {w : Int} {e : String}
    (h : scheduleLimited j w = Except.error e) :
    e = "topological sort failed: graph contains a cycle" := by
  unfold scheduleLimited at h
  cases htopo : topologicalOrder j with
  | error e2 =>
    rw [htopo] at h
    cases h
    exact topologicalOrder_error_msg htopo
  | ok order => rw [htopo] at h; cases h

/-- The cycle message is not the invalid-worker-count message. -/
theorem cycle_msg_ne_workers_msg (w : Int) :
    "topological sort failed: graph contains a cycle" ≠
      "workers must be positive, got " ++ toString w := by
  intro h
  have h2 : ("topological sort failed: graph contains a cycle").data.head? =
      ("workers must be positive, got " ++ toString w).data.head? := by rw [h]
  have h3 : ("workers must be positive, got " ++ toString w).data =
      ("workers must be positive, got ").data ++ (toString w).data := rfl
  rw [h3] at h2
  simp at h2

/-- C8: a non-positive worker count is rejected with an error before any
computation (the result does not depend on the job graph or on the map
iteration order), and for any positive worker count this rejection never
occurs. -/
theorem c8_nonpositive_workers_rejected (j j2 : Job) (w : Int)
    (enum enum2 : List (String × Int)) :
    (w ≤ 0 →
      Schedule j w enum = Outcome.error ("workers must be positive, got " ++ toString w) ∧
      Schedule j w enum = Schedule j2 w enum2) ∧
    (1 ≤ w →
      Schedule j w enum ≠ Outcome.error ("workers must be positive, got " ++ toString w)) := by
  constructor
  · intro hw
    constructor
    · unfold Schedule
      rw [if_pos hw]
    · unfold Schedule
      rw [if_pos hw, if_pos hw]
  · intro hw heq
    unfold Schedule at heq
    rw [if_neg (by omega)] at heq
    split at heq
    · exact cycle_msg_ne_workers_msg w (scheduleUnlimited_error_msg heq).symm
    · split at heq
      · next e2 hs =>
        cases heq
        exact cycle_msg_ne_workers_msg w (scheduleLimited_error_msg hs).symm
      · cases heq

/-- Closed instance of the C8 theorem: workers = 0 is rejected on the
concrete job, workers = 1 is not. -/
theorem c8_nonpositive_workers_rejected_witness :
    Schedule job1 0 [] = Outcome.error ("workers must be positive, got " ++ toString (0 : Int)) ∧
    Schedule job1 1 [] ≠ Outcome.error ("workers must be positive, got " ++ toString (1 : Int)) :=
  ⟨((c8_nonpositive_workers_rejected job1 jobE 0 [] []).1 (by decide)).1,
    (c8_nonpositive_workers_rejected job1 jobE 1 [] []).2 (by decide)⟩

theorem acyclic_of_topo_ok {j : Job} (hnd : (taskIds j).Nodup) {order : List String}
    (h : topologicalOrder j = Except.ok order) : Acyclic j := by
  obtain ⟨order2, ind2, heq, hinv⟩ := topologicalOrder_kahn j hnd
  unfold topologicalOrder at h
  simp only [] at h
  rw [heq] at h
  split at h
  · next hlen => exact acyclic_of_full hinv hlen
  · cases h

/-- C4: for every well-formed acyclic job graph, topologicalOrder succeeds
and returns every task id exactly once (a permutation of the task ids);
every dependency of an emitted task precedes it; and at every step the
emitted task is the lexicographically smallest eligible one (present, not
yet emitted, all dependencies emitted). -/
theorem c4_topological_order_correct (j : Job) (hWF : j.WellFormed) (hA : Acyclic j) :
    ∃ order, topologicalOrder j = Except.ok order ∧
      order.Perm (taskIds j) ∧
      (∀ x y, DependsOn j x y → order.indexOf y < order.indexOf x) ∧
      (∀ i (h : i < order.length),
        order.get ⟨i, h⟩ ∈ eligible j (order.take i) ∧
          ∀ y ∈ eligible j (order.take i), strLeP (order.get ⟨i, h⟩) y) := by
  obtain ⟨order, hok, hperm, ind2, hinv⟩ := topologicalOrder_ok_spec j hWF hA
  refine ⟨order, hok, hperm, ?_, hinv.minHist⟩
  intro x y hxy
  exact edge_rank hinv (fun z hz => hperm.mem_iff.mpr hz) hxy

/-- Closed instance of the C4 theorem on the concrete six-task job. -/
theorem c4_topological_order_correct_witness :
    ∃ order, topologicalOrder job1 = Except.ok order ∧
      order.Perm (taskIds job1) ∧
      (∀ x y, DependsOn job1 x y → order.indexOf y < order.indexOf x) ∧
      (∀ i (h : i < order.length),
        order.get ⟨i, h⟩ ∈ eligible job1 (order.take i) ∧
          ∀ y ∈ eligible job1 (order.take i), strLeP (order.get ⟨i, h⟩) y) :=
  c4_topological_order_correct job1 (by decide)
    (acyclic_of_topo_ok (by decide)
      (show topologicalOrder job1 = Except.ok ["A", "B", "C", "D", "E", "F"] by decide))

/-- C6: for every job graph with unique task ids whose dependency relation
has a cycle, and every positive worker count, Schedule returns the
structural cycle error (and no result): the fuel-bounded model shows the
loop never diverges, every task is enqueued at most once. -/
theorem c6_cycle_structural_error (j : Job) (w : Int) (enum : List (String × Int))
    (hnd : (taskIds j).Nodup)
    (hcyc : ∃ x, Relation.TransGen (DependsOn j) x x) (hw : 1 ≤ w) :
    Schedule j w enum =
      Outcome.error "topological sort failed: graph contains a cycle" := by
  have htopo := topologicalOrder_cycle_error j hnd hcyc
  unfold Schedule
  rw [if_neg (by omega)]
  by_cases hge : w ≥ (j.taskCount : Int)
  · rw [if_pos hge]
    unfold scheduleUnlimited
    rw [htopo]
  · rw [if_neg hge]
    unfold scheduleLimited
    rw [htopo]

/-- Closed instance of the C6 theorem on the two-task cycle P <-> Q. -/
theorem c6_cycle_structural_error_witness :
    Schedule jobC 1 [] =
      Outcome.error "topological sort failed: graph contains a cycle" :=
  c6_cycle_structural_error jobC 1 [] (by decide)
    ⟨"P", Relation.TransGen.head
      (show DependsOn jobC "P" "Q" from ⟨⟨1, ["Q"]⟩, by decide, by decide⟩)
      (Relation.TransGen.single
        (show DependsOn jobC "Q" "P" from ⟨⟨1, ["P"]⟩, by decide, by decide⟩))⟩
    (by decide)

theorem lookup0_append_left {m1 m2 : List (String × Int)} {x : String}
    (h : x ∈ m1.map Prod.fst) : lookup0 (m1 ++ m2) x = lookup0 m1 x := by
  unfold lookup0
  rw [List.find?_append]
  rcases List.mem_map.mp h with ⟨p, hp, hpx⟩
  cases hf : m1.find? (fun q => q.1 == x) with
  | none =>
    exfalso
    rw [List.find?_eq_none] at hf
    exact hf p hp (by simpa using hpx)
  | some q => rfl

theorem lookup0_append_right {m1 m2 : List (String × Int)} {x : String}
    (h : x ∉ m1.map Prod.fst) : lookup0 (m1 ++ m2) x = lookup0 m2 x := by
  unfold lookup0
  rw [List.find?_append]
  cases hf : m1.find? (fun q => q.1 == x) with
  | none => rfl
  | some q =>
    exfalso
    apply h
    have hq := List.mem_of_find?_eq_some hf
    have hqx : q.1 = x := by simpa using List.find?_some hf
    exact List.mem_map.mpr ⟨q, hq, hqx⟩

theorem lookup0_single_self (x : String) (v : Int) : lookup0 [(x, v)] x = v := by
  unfold lookup0
  simp

theorem foldl_max_ge_init {α : Type} (f : α → Int) :
    ∀ (l : List α) (a : Int), a ≤ l.foldl (fun m x => if f x > m then f x else m) a := by
  intro l
  induction l with
  | nil => intro a; exact le_refl a
  | cons x t ih =>
    intro a
    rw [List.foldl_cons]
    by_cases h : f x > a
    · rw [if_pos h]
      exact le_trans (le_of_lt h) (ih (f x))
    · rw [if_neg h]
      exact ih a

theorem foldl_max_ge_mem {α : Type} (f : α → Int) :
    ∀ (l : List α) (a : Int) (x : α), x ∈ l →
      f x ≤ l.foldl (fun m x => if f x > m then f x else m) a := by
  intro l
  induction l with
  | nil => intro a x h; cases h
  | cons y t ih =>
    intro a x h
    rw [List.foldl_cons]
    rcases List.mem_cons.mp h with h1 | h1
    · subst h1
      by_cases h2 : f x > a
      · rw [if_pos h2]
        exact foldl_max_ge_init f t (f x)
      · rw [if_neg h2]
        exact le_trans (not_lt.mp h2) (foldl_max_ge_init f t a)
    · by_cases h2 : f y > a
      · rw [if_pos h2]
        exact ih (f y) x h1
      · rw [if_neg h2]
        exact ih a x h1

theorem foldl_max_attained {α : Type} (f : α → Int) :
    ∀ (l : List α) (a : Int),
      l.foldl (fun m x => if f x > m then f x else m) a = a ∨
        ∃ x ∈ l, l.foldl (fun m x => if f x > m then f x else m) a = f x := by
  intro l
  induction l with
  | nil => intro a; exact Or.inl rfl
  | cons y t ih =>
    intro a
    rw [List.foldl_cons]
    by_cases h2 : f y > a
    · rw [if_pos h2]
      rcases ih (f y) with h | ⟨x, hx, hfx⟩
      · exact Or.inr ⟨y, List.mem_cons_self _ _, h⟩
      · exact Or.inr ⟨x, List.mem_cons_of_mem _ hx, hfx⟩
    · rw [if_neg h2]
      rcases ih a with h | ⟨x, hx, hfx⟩
      · exact Or.inl h
      · exact Or.inr ⟨x, List.mem_cons_of_mem _ hx, hfx⟩

theorem foldl_max_le {α : Type} (f : α → Int) :
    ∀ (l : List α) (a B : Int), a ≤ B → (∀ x ∈ l, f x ≤ B) →
      l.foldl (fun m x => if f x > m then f x else m) a ≤ B := by
  intro l
  induction l with
  | nil => intro a B h _; exact h
  | cons y t ih =>
    intro a B h hall
    rw [List.foldl_cons]
    by_cases h2 : f y > a
    · rw [if_pos h2]
      exact ih (f y) B (hall y (List.mem_cons_self _ _))
        (fun x hx => hall x (List.mem_cons_of_mem _ hx))
    · rw [if_neg h2]
      exact ih a B h (fun x hx => hall x (List.mem_cons_of_mem _ hx))

theorem foldl_max_congr {α : Type} (f g : α → Int) :
    ∀ (l : List α) (a : Int), (∀ x ∈ l, f x = g x) →
      l.foldl (fun m x => if f x > m then f x else m) a =
        l.foldl (fun m x => if g x > m then g x else m) a := by
  intro l
  induction l with
  | nil => intro a _; rfl
  | cons y t ih =>
    intro a hall
    rw [List.foldl_cons, List.foldl_cons, hall y (List.mem_cons_self _ _)]
    exact ih _ (fun x hx => hall x (List.mem_cons_of_mem _ hx))

theorem forwardPass_snoc (j : Job) (ord0 : List String) (last : String) :
    forwardPass j (ord0 ++ [last]) =
      ((forwardPass j ord0).1 ++
        [(last,
          if (j.findD last).hasDependencies then
            (j.findD last).dependencies.foldl
              (fun m depID =>
                if lookup0 (forwardPass j ord0).2 depID > m then
                  lookup0 (forwardPass j ord0).2 depID
                else m) 0
          else 0)],
       (forwardPass j ord0).2 ++
        [(last,
          (if (j.findD last).hasDependencies then
            (j.findD last).dependencies.foldl
              (fun m depID =>
                if lookup0 (forwardPass j ord0).2 depID > m then
                  lookup0 (forwardPass j ord0).2 depID
                else m) 0
          else 0) + (j.findD last).duration)]) := by
  unfold forwardPass
  rw [List.foldl_append]
  rfl

theorem forwardPass_spec (j : Job) :
    ∀ (order : List String), order.Nodup →
    (∀ i (h : i < order.length),
      ∀ d ∈ (j.findD (order.get ⟨i, h⟩)).dependencies, d ∈ order.take i) →
    ((forwardPass j order).1.map Prod.fst = order) ∧
    ((forwardPass j order).2.map Prod.fst = order) ∧
    ∀ id ∈ order,
      lookup0 (forwardPass j order).2 id
        = lookup0 (forwardPass j order).1 id + (j.findD id).duration ∧
      lookup0 (forwardPass j order).1 id =
        (if (j.findD id).hasDependencies then
          (j.findD id).dependencies.foldl
            (fun m depID =>
              if lookup0 (forwardPass j order).2 depID > m then
                lookup0 (forwardPass j order).2 depID
              else m) 0
        else 0) := by
  intro order
  induction order using List.reverseRecOn with
  | nil =>
    intro _ _
    refine ⟨rfl, rfl, ?_⟩
    intro id hid
    cases hid
  | append_singleton ord0 last ih =>
    intro hnd hdeps
    have hlast_no : last ∉ ord0 := by
      rw [List.nodup_append] at hnd
      intro h
      exact hnd.2.2 h (List.mem_singleton.mpr rfl)
    have hnd0 : ord0.Nodup := (List.nodup_append.mp hnd).1
    have hdeps0 : ∀ i (h : i < ord0.length),
        ∀ d ∈ (j.findD (ord0.get ⟨i, h⟩)).dependencies, d ∈ ord0.take i := by
      intro i h d hd
      have h2 : i < (ord0 ++ [last]).length := by
        rw [List.length_append, List.length_singleton]
        omega
      have hget : (ord0 ++ [last]).get ⟨i, h2⟩ = ord0.get ⟨i, h⟩ := List.get_append i h
      have := hdeps i h2 d (by rw [hget]; exact hd)
      rwa [List.take_append_of_le_length (le_of_lt h)] at this
    obtain ⟨hkE, hkF, hspec⟩ := ih hnd0 hdeps0
    have hdeps_last : ∀ d ∈ (j.findD last).dependencies, d ∈ ord0 := by
      intro d hd
      have h2 : ord0.length < (ord0 ++ [last]).length := by
        rw [List.length_append, List.length_singleton]
        omega
      have hget : (ord0 ++ [last]).get ⟨ord0.length, h2⟩ = last := by
        rw [List.get_eq_getElem]
        exact List.getElem_concat_length ord0 last ord0.length rfl (by simp)
      have := hdeps ord0.length h2 d (by rw [hget]; exact hd)
      rwa [List.take_left] at this
    have hdeps_mem : ∀ id ∈ ord0, ∀ d ∈ (j.findD id).dependencies, d ∈ ord0 := by
      intro id hid d hd
      obtain ⟨⟨i, h⟩, hget⟩ := List.mem_iff_get.mp hid
      have h2 : i < (ord0 ++ [last]).length := by
        rw [List.length_append, List.length_singleton]
        omega
      have hget2 : (ord0 ++ [last]).get ⟨i, h2⟩ = id := by
        rw [List.get_append i h]
        exact hget
      have := hdeps i h2 d (by rw [hget2]; exact hd)
      rw [List.take_append_of_le_length (le_of_lt h)] at this
      exact List.take_subset i ord0 this
    rw [forwardPass_snoc]
    refine ⟨?_, ?_, ?_⟩
    · rw [List.map_append, hkE]
      rfl
    · rw [List.map_append, hkF]
      rfl
    · intro id hid
      rcases List.mem_append.mp hid with hid0 | hidl
      · have hlE : lookup0 ((forwardPass j ord0).1 ++ [(last,
            if (j.findD last).hasDependencies then
              (j.findD last).dependencies.foldl
                (fun m depID =>
                  if lookup0 (forwardPass j ord0).2 depID > m then
                    lookup0 (forwardPass j ord0).2 depID
                  else m) 0
            else 0)]) id = lookup0 (forwardPass j ord0).1 id :=
          lookup0_append_left (by rw [hkE]; exact hid0)
        have hlF : ∀ v : Int, lookup0 ((forwardPass j ord0).2 ++ [(last, v)]) id
            = lookup0 (forwardPass j ord0).2 id := by
          intro v
          exact lookup0_append_left (by rw [hkF]; exact hid0)
        rw [hlE, hlF]
        obtain ⟨hs1, hs2⟩ := hspec id hid0
        refine ⟨hs1, ?_⟩
        rw [hs2]
        by_cases hdep : (j.findD id).hasDependencies
        · rw [if_pos hdep, if_pos hdep]
          apply foldl_max_congr
          intro d hd
          exact (lookup0_append_left (by rw [hkF]; exact hdeps_mem id hid0 d hd)).symm
        · rw [if_neg hdep, if_neg hdep]
      · have hidl2 : id = last := List.mem_singleton.mp hidl
        subst hidl2
        have hlE : lookup0 ((forwardPass j ord0).1 ++ [(id,
            if (j.findD id).hasDependencies then
              (j.findD id).dependencies.foldl
                (fun m depID =>
                  if lookup0 (forwardPass j ord0).2 depID > m then
                    lookup0 (forwardPass j ord0).2 depID
                  else m) 0
            else 0)]) id = (if (j.findD id).hasDependencies then
              (j.findD id).dependencies.foldl
                (fun m depID =>
                  if lookup0 (forwardPass j ord0).2 depID > m then
                    lookup0 (forwardPass j ord0).2 depID
                  else m) 0
            else 0) := by
          rw [lookup0_append_right (by rw [hkE]; exact hlast_no)]
          exact lookup0_single_self _ _
        have hlF : ∀ v : Int, lookup0 ((forwardPass j ord0).2 ++ [(id, v)]) id = v := by
          intro v
          rw [lookup0_append_right (by rw [hkF]; exact hlast_no)]
          exact lookup0_single_self _ _
        rw [hlE, hlF]
        refine ⟨rfl, ?_⟩
        by_cases hdep : (j.findD id).hasDependencies
        · rw [if_pos hdep, if_pos hdep]
          apply foldl_max_congr
          intro d hd
          exact (lookup0_append_left (by rw [hkF]; exact hdeps_last d hd)).symm
        · rw [if_neg hdep, if_neg hdep]

/-- Consecutive links of a candidate critical path: each element's earliest
finish equals the next element's earliest start. -/
def chainLinked (est eft : List (String × Int)) : List String → Prop
  | [] => True
  | [_] => True
  | a :: b :: t => lookup0 eft a = lookup0 est b ∧ chainLinked est eft (b :: t)

theorem chainLinked_singleton (est eft : List (String × Int)) (a : String) :
    chainLinked est eft [a] := trivial

theorem chainLinked_extend (est eft : List (String × Int)) :
    ∀ (l : List String) (a b : String),
    chainLinked est eft (l ++ [a]) → lookup0 eft a = lookup0 est b →
    chainLinked est eft (l ++ [a, b]) := by
  intro l
  induction l with
  | nil =>
    intro a b _ hlink
    exact ⟨hlink, trivial⟩
  | cons c t ih =>
    intro a b hl hlink
    cases t with
    | nil =>
      obtain ⟨h1, h2⟩ := hl
      exact ⟨h1, ih a b h2 hlink⟩
    | cons d t2 =>
      obtain ⟨h1, h2⟩ := hl
      exact ⟨h1, ih a b h2 hlink⟩

theorem chainLinked_sum (j : Job) (est eft : List (String × Int)) (S : List String)
    (heft : ∀ id ∈ S, lookup0 eft id = lookup0 est id + (j.findD id).duration) :
    ∀ (l : List String) (a : String),
    chainLinked est eft (a :: l) → (∀ x ∈ a :: l, x ∈ S) →
    ((a :: l).map (fun id => (j.findD id).duration)).sum =
      lookup0 eft ((a :: l).getLast (by simp)) - lookup0 est a := by
  intro l
  induction l with
  | nil =>
    intro a _ hmem
    simp [heft a (hmem a (List.mem_singleton.mpr rfl))]
  | cons b t ih =>
    intro a hl hmem
    obtain ⟨h1, h2⟩ := hl
    have hmem2 : ∀ x ∈ b :: t, x ∈ S := fun x hx => hmem x (List.mem_cons_of_mem a hx)
    have := ih b h2 hmem2
    rw [List.map_cons, List.sum_cons]
    have hlast : (a :: b :: t).getLast (by simp) = (b :: t).getLast (by simp) := by
      rw [List.getLast_cons]
    rw [hlast, this, ← h1, heft a (hmem a (List.mem_cons_self a _))]
    ring

theorem length_filter_le_of_imp {α : Type} (p q : α → Bool)
    (himp : ∀ x, p x = true → q x = true) :
    ∀ l : List α, (l.filter p).length ≤ (l.filter q).length := by
  intro l
  induction l with
  | nil => exact le_refl 0
  | cons a t ih =>
    rw [List.filter_cons, List.filter_cons]
    by_cases hp : p a = true
    · rw [if_pos hp, if_pos (himp a hp)]
      simpa using ih
    · rw [if_neg hp]
      by_cases hq : q a = true
      · rw [if_pos hq]
        calc (t.filter p).length ≤ (t.filter q).length := ih
          _ ≤ (a :: t.filter q).length := by simp
      · rw [if_neg hq]
        exact ih

theorem length_filter_lt_of_imp {α : Type} (p q : α → Bool)
    (himp : ∀ x, p x = true → q x = true) :
    ∀ (l : List α) (d : α), d ∈ l → p d = false → q d = true →
    (l.filter p).length < (l.filter q).length := by
  intro l
  induction l with
  | nil => intro d hd; cases hd
  | cons a t ih =>
    intro d hd hpd hqd
    rw [List.filter_cons, List.filter_cons]
    rcases List.mem_cons.mp hd with h1 | h1
    · subst h1
      rw [if_neg (by simp [hpd]), if_pos hqd]
      calc (t.filter p).length ≤ (t.filter q).length := length_filter_le_of_imp p q himp t
        _ < (d :: t.filter q).length := by simp
    · by_cases hp : p a = true
      · rw [if_pos hp, if_pos (himp a hp)]
        simpa using ih d h1 hpd hqd
      · rw [if_neg hp]
        by_cases hq : q a = true
        · rw [if_pos hq]
          calc (t.filter p).length < (t.filter q).length := ih d h1 hpd hqd
            _ ≤ (a :: t.filter q).length := by simp
        · rw [if_neg hq]
          exact ih d h1 hpd hqd

theorem mem_entry_of_key {m : List (String × Int)} {x : String}
    (h : x ∈ m.map Prod.fst) : (x, lookup0 m x) ∈ m := by
  rcases List.mem_map.mp h with ⟨p, hp, hpx⟩
  cases hf : m.find? (fun q => q.1 == x) with
  | none =>
    exfalso
    rw [List.find?_eq_none] at hf
    exact hf p hp (by simpa using hpx)
  | some q =>
    have hq := List.mem_of_find?_eq_some hf
    have hqx : q.1 = x := by simpa using List.find?_some hf
    have : lookup0 m x = q.2 := by unfold lookup0; rw [hf]; rfl
    rw [this, ← hqx]
    exact hq

theorem lookup0_of_mem_nodup : ∀ {m : List (String × Int)},
    (m.map Prod.fst).Nodup → ∀ {x : String} {v : Int}, (x, v) ∈ m → lookup0 m x = v := by
  intro m
  induction m with
  | nil => intro _ x v h; cases h
  | cons p t ih =>
    intro hnd x v h
    rw [List.map_cons, List.nodup_cons] at hnd
    rcases List.mem_cons.mp h with h1 | h1
    · unfold lookup0
      rw [List.find?_cons_of_pos (p := fun q => q.1 == x) t
        (by rw [← h1]; simp)]
      rw [← h1]
      rfl
    · have hpx : p.1 ≠ x := by
        intro hc
        apply hnd.1
        rw [hc]
        exact List.mem_map.mpr ⟨(x, v), h1, rfl⟩
      unfold lookup0
      rw [List.find?_cons_of_neg (p := fun q => q.1 == x) t (by simpa using hpx)]
      exact ih hnd.2 h1

/-- The facts the CPM pipeline establishes for the order it computed. -/
structure CpmFacts (j : Job) (order : List String) : Prop where
  topo_ok : topologicalOrder j = Except.ok order
  perm : order.Perm (taskIds j)
  nodup : order.Nodup
  keysE : (forwardPass j order).1.map Prod.fst = order
  keysF : (forwardPass j order).2.map Prod.fst = order
  eft_eq : ∀ id ∈ order, lookup0 (forwardPass j order).2 id
    = lookup0 (forwardPass j order).1 id + (j.findD id).duration
  est_eq : ∀ id ∈ order, lookup0 (forwardPass j order).1 id =
    (if (j.findD id).hasDependencies then
      (j.findD id).dependencies.foldl
        (fun m depID =>
          if lookup0 (forwardPass j order).2 depID > m then
            lookup0 (forwardPass j order).2 depID
          else m) 0
    else 0)

theorem cpmFacts_exists (j : Job) (hWF : j.WellFormed) (hA : Acyclic j) :
    ∃ order, CpmFacts j order := by
  obtain ⟨order, hok, hperm, ind2, hinv⟩ := topologicalOrder_ok_spec j hWF hA
  have hnd2 : order.Nodup := (List.nodup_append.mp hinv.nodupAll).1
  obtain ⟨hkE, hkF, hspec⟩ := forwardPass_spec j order hnd2 hinv.emittedDeps
  exact ⟨order, hok, hperm, hnd2, hkE, hkF,
    fun id hid => (hspec id hid).1, fun id hid => (hspec id hid).2⟩

theorem dur_pos_of_WF {j : Job} (hWF : j.WellFormed) {id : String}
    (h : id ∈ taskIds j) : 0 < (j.findD id).duration :=
  (hWF.2 (id, j.findD id) (findD_entry_mem h)).1

theorem cpm_est_nonneg {j : Job} {order : List String} (hf : CpmFacts j order) :
    ∀ id ∈ order, 0 ≤ lookup0 (forwardPass j order).1 id := by
  intro id hid
  rw [hf.est_eq id hid]
  by_cases hdep : (j.findD id).hasDependencies
  · rw [if_pos hdep]
    exact foldl_max_ge_init _ _ 0
  · rw [if_neg hdep]

theorem cpm_eft_pos {j : Job} {order : List String} (hf : CpmFacts j order)
    (hWF : j.WellFormed) : ∀ id ∈ order, 0 < lookup0 (forwardPass j order).2 id := by
  intro id hid
  rw [hf.eft_eq id hid]
  have h1 := cpm_est_nonneg hf id hid
  have h2 := dur_pos_of_WF hWF (hf.perm.mem_iff.mp hid)
  omega

theorem cpm_dep_le {j : Job} {order : List String} (hf : CpmFacts j order) :
    ∀ id ∈ order, ∀ d ∈ (j.findD id).dependencies,
      lookup0 (forwardPass j order).2 d ≤ lookup0 (forwardPass j order).1 id := by
  intro id hid d hd
  rw [hf.est_eq id hid]
  have hdep : (j.findD id).hasDependencies = true := by
    unfold Task.hasDependencies
    cases hds : (j.findD id).dependencies with
    | nil => rw [hds] at hd; cases hd
    | cons a t => simp [hds]
  rw [if_pos hdep]
  exact foldl_max_ge_mem (fun depID => lookup0 (forwardPass j order).2 depID)
    (j.findD id).dependencies 0 d hd

theorem cpm_est_attained {j : Job} {order : List String} (hf : CpmFacts j order)
    (hWF : j.WellFormed) :
    ∀ id ∈ order, (j.findD id).hasDependencies = true →
      ∃ d ∈ (j.findD id).dependencies,
        lookup0 (forwardPass j order).2 d = lookup0 (forwardPass j order).1 id := by
  intro id hid hdep
  have hest := hf.est_eq id hid
  rw [if_pos hdep] at hest
  rcases foldl_max_attained (fun depID => lookup0 (forwardPass j order).2 depID)
      (j.findD id).dependencies 0 with h | ⟨d, hd, hfd⟩
  · exfalso
    have hne : (j.findD id).dependencies ≠ [] := by
      unfold Task.hasDependencies at hdep
      intro hc
      rw [hc] at hdep
      cases hdep
    obtain ⟨d0, hd0⟩ := List.exists_mem_of_ne_nil _ hne
    have hd0o : d0 ∈ order := hf.perm.mem_iff.mpr
      (WellFormed_deps_mem hWF (hf.perm.mem_iff.mp hid) d0 hd0)
    have hpos := cpm_eft_pos hf hWF d0 hd0o
    have hle := foldl_max_ge_mem (fun depID => lookup0 (forwardPass j order).2 depID)
      (j.findD id).dependencies 0 d0 hd0
    rw [h] at hle
    simp only [] at hle
    omega
  · exact ⟨d, hd, by rw [← hest] at hfd; exact hfd.symm⟩

theorem cpm_maxEft_ge {j : Job} {order : List String} (hf : CpmFacts j order) :
    ∀ id ∈ order, lookup0 (forwardPass j order).2 id ≤ maxEft (forwardPass j order).2 := by
  intro id hid
  unfold maxEft
  have hmem : (id, lookup0 (forwardPass j order).2 id) ∈ (forwardPass j order).2 :=
    mem_entry_of_key (by rw [hf.keysF]; exact hid)
  exact foldl_max_ge_mem (fun p => p.2) (forwardPass j order).2 0 _ hmem

theorem cpm_maxEft_attained {j : Job} {order : List String} (hf : CpmFacts j order)
    (hWF : j.WellFormed) (hne : order ≠ []) :
    ∃ id ∈ order, lookup0 (forwardPass j order).2 id = maxEft (forwardPass j order).2 := by
  rcases foldl_max_attained (fun p => p.2) (forwardPass j order).2 0 with h | ⟨p, hp, hfp⟩
  · exfalso
    obtain ⟨id0, hid0⟩ := List.exists_mem_of_ne_nil _ hne
    have hpos := cpm_eft_pos hf hWF id0 hid0
    have hle := cpm_maxEft_ge hf id0 hid0
    unfold maxEft at hle
    rw [h] at hle
    omega
  · have hkey : p.1 ∈ order := by
      rw [← hf.keysF]
      exact List.mem_map.mpr ⟨p, hp, rfl⟩
    have hval : lookup0 (forwardPass j order).2 p.1 = p.2 :=
      lookup0_of_mem_nodup (by rw [hf.keysF]; exact hf.nodup) (by
        have : (p.1, p.2) = p := rfl
        rw [this]
        exact hp)
    exact ⟨p.1, hkey, by unfold maxEft; rw [hval, hfp]⟩

theorem traceBack_succ (j : Job) (est eft : List (String × Int)) (fuel : Nat)
    (c : String) (path : List String) :
    traceBack j est eft (fuel + 1) c path =
      (match j.find? c with
      | none => none
      | some task =>
        if task.hasDependencies then
          match task.dependencies.find?
              (fun depID => lookup0 eft depID == lookup0 est c) with
          | some depID => traceBack j est eft fuel depID (depID :: path)
          | none => some path
        else some path) := rfl

theorem traceBack_spec (j : Job) (order : List String) (hWF : j.WellFormed)
    (hf : CpmFacts j order) :
    ∀ (fuel : Nat) (current : String) (rest : List String),
    current ∈ order →
    (order.filter (fun x =>
      decide (lookup0 (forwardPass j order).1 x
        < lookup0 (forwardPass j order).1 current))).length < fuel →
    ∃ chain, traceBack j (forwardPass j order).1 (forwardPass j order).2 fuel current
        (current :: rest) = some (chain ++ current :: rest) ∧
      (∀ x ∈ chain, x ∈ order) ∧
      chainLinked (forwardPass j order).1 (forwardPass j order).2 (chain ++ [current]) ∧
      ∃ first t2, chain ++ [current] = first :: t2 ∧
        (j.findD first).dependencies = [] ∧
        lookup0 (forwardPass j order).1 first = 0 := by
  intro fuel
  induction fuel with
  | zero =>
    intro current rest _ hmeas
    omega
  | succ fuel ih =>
    intro current rest hcur hmeas
    have hids : current ∈ taskIds j := hf.perm.mem_iff.mp hcur
    rw [traceBack_succ, find?_eq_some_findD hids]
    simp only []
    by_cases hdep : (j.findD current).hasDependencies
    · rw [if_pos hdep]
      obtain ⟨d0, hd0, hd0eq⟩ := cpm_est_attained hf hWF current hcur hdep
      have hfind : ∃ q, (j.findD current).dependencies.find?
          (fun depID => lookup0 (forwardPass j order).2 depID
            == lookup0 (forwardPass j order).1 current) = some q := by
        cases hq : (j.findD current).dependencies.find?
            (fun depID => lookup0 (forwardPass j order).2 depID
              == lookup0 (forwardPass j order).1 current) with
        | none =>
          exfalso
          rw [List.find?_eq_none] at hq
          exact hq d0 hd0 (by simpa using hd0eq)
        | some q => exact ⟨q, rfl⟩
      obtain ⟨d, hdfind⟩ := hfind
      rw [hdfind]
      have hd_mem : d ∈ (j.findD current).dependencies := List.mem_of_find?_eq_some hdfind
      have hd_eq : lookup0 (forwardPass j order).2 d
          = lookup0 (forwardPass j order).1 current := by
        simpa using List.find?_some hdfind
      have hd_ord : d ∈ order := hf.perm.mem_iff.mpr
        (WellFormed_deps_mem hWF hids d hd_mem)
      have hd_lt : lookup0 (forwardPass j order).1 d
          < lookup0 (forwardPass j order).1 current := by
        have h1 := hf.eft_eq d hd_ord
        have h2 := dur_pos_of_WF hWF (hf.perm.mem_iff.mp hd_ord)
        omega
      have hmeas2 : (order.filter (fun x =>
          decide (lookup0 (forwardPass j order).1 x
            < lookup0 (forwardPass j order).1 d))).length < fuel := by
        have hlt := length_filter_lt_of_imp
          (fun x => decide (lookup0 (forwardPass j order).1 x
            < lookup0 (forwardPass j order).1 d))
          (fun x => decide (lookup0 (forwardPass j order).1 x
            < lookup0 (forwardPass j order).1 current))
          (by
            intro x hx
            rw [decide_eq_true_iff] at hx
            rw [decide_eq_true_iff]
            omega)
          order d hd_ord
          (by rw [decide_eq_false_iff_not]; omega)
          (by rw [decide_eq_true_iff]; exact hd_lt)
        omega
      obtain ⟨chain, heq, hmem, hlinked, first, t2, hft, hfdeps, hfest⟩ :=
        ih d (current :: rest) hd_ord hmeas2
      refine ⟨chain ++ [d], ?_, ?_, ?_, first, t2 ++ [current], ?_, hfdeps, hfest⟩
      · show traceBack j (forwardPass j order).1 (forwardPass j order).2 fuel d
            (d :: current :: rest) = some (chain ++ [d] ++ current :: rest)
        rw [heq, List.append_assoc]
        rfl
      · intro x hx
        rcases List.mem_append.mp hx with h | h
        · exact hmem x h
        · rw [List.mem_singleton.mp h]
          exact hd_ord
      · have : chain ++ [d] ++ [current] = chain ++ [d, current] := by
          rw [List.append_assoc]
          rfl
        rw [this]
        exact chainLinked_extend _ _ chain d current hlinked hd_eq
      · rw [hft]
        rfl
    · rw [if_neg hdep]
      refine ⟨[], rfl, fun x hx => absurd hx (List.not_mem_nil x),
        chainLinked_singleton _ _ _, current, [], rfl, ?_, ?_⟩
      · unfold Task.hasDependencies at hdep
        cases hds : (j.findD current).dependencies with
        | nil => rfl
        | cons a t =>
          exfalso
          apply hdep
          rw [hds]
          rfl
      · rw [hf.est_eq current hcur, if_neg hdep]

theorem order_ne_nil_of_tasks {j : Job} {order : List String} (hf : CpmFacts j order)
    (hne : j.tasks ≠ []) : order ≠ [] := by
  intro hc
  apply hne
  have hlen := hf.perm.length_eq
  rw [hc, taskIds_length] at hlen
  unfold Job.taskCount at hlen
  cases htasks : j.tasks with
  | nil => rfl
  | cons p t =>
    rw [htasks] at hlen
    simp at hlen

theorem findCriticalPath_spec (j : Job) {order : List String} (hWF : j.WellFormed)
    (hf : CpmFacts j order) (hne : j.tasks ≠ [])
    (enum : List (String × Int)) (henum : enum.Perm (forwardPass j order).2) :
    ∃ cp, findCriticalPath j (forwardPass j order).1 (forwardPass j order).2 enum
        (maxEft (forwardPass j order).2) = some cp ∧
      (∀ x ∈ cp, x ∈ order) ∧
      chainLinked (forwardPass j order).1 (forwardPass j order).2 cp ∧
      (∃ first t2, cp = first :: t2 ∧ (j.findD first).dependencies = [] ∧
        lookup0 (forwardPass j order).1 first = 0) ∧
      (∃ pre last0, cp = pre ++ [last0] ∧
        lookup0 (forwardPass j order).2 last0 = maxEft (forwardPass j order).2) := by
  have hone : order ≠ [] := order_ne_nil_of_tasks hf hne
  obtain ⟨endId, hendo, hendeq⟩ := cpm_maxEft_attained hf hWF hone
  have hentry : (endId, lookup0 (forwardPass j order).2 endId) ∈ (forwardPass j order).2 :=
    mem_entry_of_key (by rw [hf.keysF]; exact hendo)
  have hentry2 : (endId, lookup0 (forwardPass j order).2 endId) ∈ enum :=
    henum.mem_iff.mpr hentry
  have hfind : ∃ q, enum.find? (fun p => p.2 == maxEft (forwardPass j order).2) = some q := by
    cases hq : enum.find? (fun p => p.2 == maxEft (forwardPass j order).2) with
    | none =>
      exfalso
      rw [List.find?_eq_none] at hq
      exact hq _ hentry2 (by simpa using hendeq)
    | some q => exact ⟨q, rfl⟩
  obtain ⟨q, hq⟩ := hfind
  have hq_mem : q ∈ (forwardPass j order).2 := henum.mem_iff.mp (List.mem_of_find?_eq_some hq)
  have hq_val : q.2 = maxEft (forwardPass j order).2 := by simpa using List.find?_some hq
  have hq_key : q.1 ∈ order := by
    rw [← hf.keysF]
    exact List.mem_map.mpr ⟨q, hq_mem, rfl⟩
  have hq_look : lookup0 (forwardPass j order).2 q.1 = q.2 :=
    lookup0_of_mem_nodup (by rw [hf.keysF]; exact hf.nodup) (by
      have : (q.1, q.2) = q := rfl
      rw [this]
      exact hq_mem)
  have hendtask : findEndTask enum (maxEft (forwardPass j order).2) = q.1 := by
    unfold findEndTask
    rw [hq]
  have hmeas : (order.filter (fun x =>
      decide (lookup0 (forwardPass j order).1 x
        < lookup0 (forwardPass j order).1 q.1))).length < j.taskCount + 1 := by
    have h1 := List.length_filter_le (fun x =>
      decide (lookup0 (forwardPass j order).1 x
        < lookup0 (forwardPass j order).1 q.1)) order
    have h2 : order.length = j.taskCount := by
      rw [hf.perm.length_eq, taskIds_length]
    omega
  obtain ⟨chain, heq, hmem, hlinked, first, t2, hft, hfdeps, hfest⟩ :=
    traceBack_spec j order hWF hf (j.taskCount + 1) q.1 [] hq_key hmeas
  refine ⟨chain ++ [q.1], ?_, ?_, ?_, ⟨first, t2, hft, hfdeps, hfest⟩,
    chain, q.1, rfl, by rw [hq_look, hq_val]⟩
  · unfold findCriticalPath
    rw [hendtask]
    exact heq
  · intro x hx
    rcases List.mem_append.mp hx with h | h
    · exact hmem x h
    · rw [List.mem_singleton.mp h]
      exact hq_key
  · exact hlinked

/-- C5: on every non-empty valid DAG job, the unconstrained (CPM) mode
succeeds and its critical path satisfies: the durations along the path sum
to the minimum completion time, every consecutive pair (dep, task) has
EarliestFinish(dep) = EarliestStart(task), the first task on the path has
no dependencies, and the last task finishes at the minimum completion
time. The map iteration order `enum` ranges over all permutations of the
eft entries. -/
theorem c5_critical_path_properties (j : Job) (hv : j.Valid) (w : Int)
    (enum : List (String × Int)) (henum : enum.Perm (cpmEft j)) :
    ∃ r cp, scheduleUnlimited j w enum = Outcome.ok r ∧ r.criticalPath = some cp ∧
      (cp.map (fun id => (j.findD id).duration)).sum = r.minCompletionTime ∧
      chainLinked (cpmEst j) (cpmEft j) cp ∧
      (∃ first t2, cp = first :: t2 ∧ (j.findD first).dependencies = []) ∧
      (∃ pre last0, cp = pre ++ [last0] ∧
        lookup0 (cpmEft j) last0 = r.minCompletionTime) := by
  obtain ⟨hne, hWF, hA⟩ := hv
  obtain ⟨order, hf⟩ := cpmFacts_exists j hWF hA
  have hestE : cpmEst j = (forwardPass j order).1 := by
    unfold cpmEst
    rw [hf.topo_ok]
  have heftE : cpmEft j = (forwardPass j order).2 := by
    unfold cpmEft
    rw [hf.topo_ok]
  rw [heftE] at henum
  obtain ⟨cp, hcp, hmem, hlinked, ⟨first, t2, hft, hfdeps, hfest⟩, pre, last0, hpre, hlast⟩ :=
    findCriticalPath_spec j hWF hf hne enum henum
  have hok : scheduleUnlimited j w enum = Outcome.ok
      { jobName := j.name, workers := w,
        minCompletionTime := maxEft (forwardPass j order).2,
        taskSchedules :=
          buildSortedSchedules order (forwardPass j order).1 (forwardPass j order).2,
        executionOrder :=
          (buildSortedSchedules order (forwardPass j order).1
            (forwardPass j order).2).map (fun ts => ts.taskID),
        criticalPath := some cp } := by
    unfold scheduleUnlimited
    rw [hf.topo_ok]
    simp only []
    rw [hcp]
  refine ⟨_, cp, hok, rfl, ?_, ?_, ⟨first, t2, hft, hfdeps⟩, pre, last0, hpre, ?_⟩
  · simp only []
    rw [hft]
    have hsum := chainLinked_sum j (forwardPass j order).1 (forwardPass j order).2 order
      hf.eft_eq t2 first (by rw [← hft]; exact hlinked) (by rw [← hft]; exact hmem)
    rw [hsum, hfest]
    have hgl : (first :: t2).getLast (by simp) = last0 := by
      have h1 : (first :: t2).getLast (by simp) = cp.getLast (by rw [hft]; simp) := by
        congr 1
        rw [hft]
      rw [h1]
      have h2 : cp.getLast (by rw [hft]; simp) = (pre ++ [last0]).getLast (by simp) := by
        congr 1
      rw [h2, List.getLast_concat]
    rw [hgl, hlast]
    ring
  · rw [hestE, heftE]
    exact hlinked
  · rw [heftE]
    simp only []
    exact hlast

/-- C10: the unconstrained (CPM) path is safe exactly under the non-empty
precondition: for every non-empty valid DAG every task lookup made by
findCriticalPath succeeds and an ok result is produced, while on the job
with zero tasks the empty end-task id misses the task map and the nil
dereference panics. -/
theorem c10_critical_path_safety :
    (∀ (j : Job) (w : Int) (enum : List (String × Int)), j.Valid →
      enum.Perm (cpmEft j) → ∃ r, scheduleUnlimited j w enum = Outcome.ok r) ∧
    scheduleUnlimited jobE 1 [] = Outcome.panics := by
  constructor
  · intro j w enum hv henum
    obtain ⟨r, cp, hok, _⟩ := c5_critical_path_properties j hv w enum henum
    exact ⟨r, hok⟩
  · decide

/-- Closed instance of the C5 theorem on the concrete six-task job. -/
theorem c5_critical_path_properties_witness :
    ∃ r cp, scheduleUnlimited job1 6 (cpmEft job1) = Outcome.ok r ∧
      r.criticalPath = some cp ∧
      (cp.map (fun id => (job1.findD id).duration)).sum = r.minCompletionTime ∧
      chainLinked (cpmEst job1) (cpmEft job1) cp ∧
      (∃ first t2, cp = first :: t2 ∧ (job1.findD first).dependencies = []) ∧
      (∃ pre last0, cp = pre ++ [last0] ∧
        lookup0 (cpmEft job1) last0 = r.minCompletionTime) :=
  c5_critical_path_properties job1
    ⟨by decide, by decide,
      acyclic_of_topo_ok (by decide)
        (show topologicalOrder job1 = Except.ok ["A", "B", "C", "D", "E", "F"] by decide)⟩
    6 (cpmEft job1) (List.Perm.refl _)

/-- Closed instance of the C10 theorem: the general part applied to the
concrete six-task job, next to the zero-task panic. -/
theorem c10_critical_path_safety_witness :
    (∃ r, scheduleUnlimited job1 6 (cpmEft job1) = Outcome.ok r) ∧
    scheduleUnlimited jobE 1 [] = Outcome.panics :=
  ⟨c10_critical_path_safety.1 job1 6 (cpmEft job1)
    ⟨by decide, by decide,
      acyclic_of_topo_ok (by decide)
        (show topologicalOrder job1 = Except.ok ["A", "B", "C", "D", "E", "F"] by decide)⟩
    (List.Perm.refl _),
   c10_critical_path_safety.2⟩

theorem lookupMem_iff {m : List (String × Int)} {x : String} :
    lookupMem m x = true ↔ x ∈ m.map Prod.fst := by
  unfold lookupMem
  rw [Option.isSome_iff_exists]
  constructor
  · rintro ⟨p, hp⟩
    have hmem := List.mem_of_find?_eq_some hp
    have hkey : p.1 = x := by simpa using List.find?_some hp
    exact List.mem_map.mpr ⟨p, hmem, hkey⟩
  · intro h
    rcases List.mem_map.mp h with ⟨p, hp, hpx⟩
    cases hf : m.find? (fun q => q.1 == x) with
    | none =>
      exfalso
      rw [List.find?_eq_none] at hf
      exact hf p hp (by simpa using hpx)
    | some q => exact ⟨q, rfl⟩

theorem mem_insertReady {s : List String} {x y : String} :
    y ∈ insertReady s x ↔ y ∈ s ∨ y = x := by
  unfold insertReady
  by_cases h : x ∈ s
  · rw [if_pos h]
    constructor
    · exact Or.inl
    · rintro (hy | hy)
      · exact hy
      · rw [hy]; exact h
  · rw [if_neg h]
    rw [List.mem_append, List.mem_singleton]

theorem nodup_insertReady {s : List String} (h : s.Nodup) (x : String) :
    (insertReady s x).Nodup := by
  unfold insertReady
  by_cases hx : x ∈ s
  · rw [if_pos hx]; exact h
  · rw [if_neg hx]
    rw [List.nodup_append]
    refine ⟨h, List.nodup_singleton x, ?_⟩
    intro y hy hy2
    rw [List.mem_singleton] at hy2
    exact hx (hy2 ▸ hy)

theorem mem_dependents_iff {j : Job} (hnd : (taskIds j).Nodup) {d x : String} :
    x ∈ dependents j d ↔ d ∈ (j.findD x).dependencies := by
  rw [← List.count_pos_iff (a := x) (l := dependents j d), count_dependents j hnd d x,
    List.count_pos_iff]

theorem foldl_min_le_init {α : Type} (f : α → Int) :
    ∀ (l : List α) (a : Int), l.foldl (fun m y => if f y < m then f y else m) a ≤ a := by
  intro l
  induction l with
  | nil => intro a; exact le_refl a
  | cons y t ih =>
    intro a
    rw [List.foldl_cons]
    by_cases h : f y < a
    · rw [if_pos h]
      exact le_trans (ih (f y)) (le_of_lt h)
    · rw [if_neg h]
      exact ih a

theorem foldl_min_le_mem {α : Type} (f : α → Int) :
    ∀ (l : List α) (a : Int) (x : α), x ∈ l →
      l.foldl (fun m y => if f y < m then f y else m) a ≤ f x := by
  intro l
  induction l with
  | nil => intro a x h; cases h
  | cons y t ih =>
    intro a x h
    rw [List.foldl_cons]
    rcases List.mem_cons.mp h with h1 | h1
    · subst h1
      by_cases h2 : f x < a
      · rw [if_pos h2]
        exact foldl_min_le_init f t (f x)
      · rw [if_neg h2]
        exact le_trans (foldl_min_le_init f t a) (not_lt.mp h2)
    · by_cases h2 : f y < a
      · rw [if_pos h2]
        exact ih (f y) x h1
      · rw [if_neg h2]
        exact ih a x h1

theorem foldl_min_attained {α : Type} (f : α → Int) :
    ∀ (l : List α) (a : Int),
      l.foldl (fun m y => if f y < m then f y else m) a = a ∨
        ∃ x ∈ l, l.foldl (fun m y => if f y < m then f y else m) a = f x := by
  intro l
  induction l with
  | nil => intro a; exact Or.inl rfl
  | cons y t ih =>
    intro a
    rw [List.foldl_cons]
    by_cases h : f y < a
    · rw [if_pos h]
      rcases ih (f y) with h1 | ⟨x, hx, hfx⟩
      · exact Or.inr ⟨y, List.mem_cons_self _ _, h1⟩
      · exact Or.inr ⟨x, List.mem_cons_of_mem _ hx, hfx⟩
    · rw [if_neg h]
      rcases ih a with h1 | ⟨x, hx, hfx⟩
      · exact Or.inl h1
      · exact Or.inr ⟨x, List.mem_cons_of_mem _ hx, hfx⟩

theorem foldl_min_ge {α : Type} (f : α → Int) :
    ∀ (l : List α) (a B : Int), B ≤ a → (∀ x ∈ l, B ≤ f x) →
      B ≤ l.foldl (fun m y => if f y < m then f y else m) a := by
  intro l
  induction l with
  | nil => intro a B h _; exact h
  | cons y t ih =>
    intro a B h hall
    rw [List.foldl_cons]
    by_cases h2 : f y < a
    · rw [if_pos h2]
      exact ih (f y) B (hall y (List.mem_cons_self _ _))
        (fun x hx => hall x (List.mem_cons_of_mem _ hx))
    · rw [if_neg h2]
      exact ih a B h (fun x hx => hall x (List.mem_cons_of_mem _ hx))

theorem wakeFold_spec (j : Job) :
    ∀ (ds : List String) (st : SimState),
    (ds.foldl (fun s nextID =>
        let task := j.findD nextID
        if task.dependencies.all (fun depID => lookupMem s.finished depID) then
          { s with ready := insertReady s.ready nextID }
        else s) st).finished = st.finished ∧
    (ds.foldl (fun s nextID =>
        let task := j.findD nextID
        if task.dependencies.all (fun depID => lookupMem s.finished depID) then
          { s with ready := insertReady s.ready nextID }
        else s) st).startTime = st.startTime ∧
    (ds.foldl (fun s nextID =>
        let task := j.findD nextID
        if task.dependencies.all (fun depID => lookupMem s.finished depID) then
          { s with ready := insertReady s.ready nextID }
        else s) st).running = st.running ∧
    (ds.foldl (fun s nextID =>
        let task := j.findD nextID
        if task.dependencies.all (fun depID => lookupMem s.finished depID) then
          { s with ready := insertReady s.ready nextID }
        else s) st).execOrder = st.execOrder ∧
    (ds.foldl (fun s nextID =>
        let task := j.findD nextID
        if task.dependencies.all (fun depID => lookupMem s.finished depID) then
          { s with ready := insertReady s.ready nextID }
        else s) st).currentTime = st.currentTime ∧
    (∀ x, x ∈ (ds.foldl (fun s nextID =>
        let task := j.findD nextID
        if task.dependencies.all (fun depID => lookupMem s.finished depID) then
          { s with ready := insertReady s.ready nextID }
        else s) st).ready ↔
      x ∈ st.ready ∨ (x ∈ ds ∧
        ∀ d ∈ (j.findD x).dependencies, d ∈ st.finished.map Prod.fst)) ∧
    (st.ready.Nodup → (ds.foldl (fun s nextID =>
        let task := j.findD nextID
        if task.dependencies.all (fun depID => lookupMem s.finished depID) then
          { s with ready := insertReady s.ready nextID }
        else s) st).ready.Nodup) := by
  intro ds
  induction ds with
  | nil =>
    intro st
    refine ⟨rfl, rfl, rfl, rfl, rfl, ?_, fun h => h⟩
    intro x
    simp
  | cons nx tl ih =>
    intro st
    rw [List.foldl_cons]
    simp only []
    by_cases hcheck : ((j.findD nx).dependencies.all
        (fun depID => lookupMem st.finished depID)) = true
    · rw [if_pos hcheck]
      obtain ⟨h1, h2, h3, h4, h5, h6, h7⟩ := ih { st with ready := insertReady st.ready nx }
      refine ⟨h1, h2, h3, h4, h5, ?_, fun hnd => h7 (nodup_insertReady hnd nx)⟩
      intro x
      rw [h6 x]
      simp only [mem_insertReady]
      constructor
      · rintro ((h | h) | ⟨hmem, hdeps⟩)
        · exact Or.inl h
        · subst h
          refine Or.inr ⟨List.mem_cons_self _ _, ?_⟩
          intro d hd
          have := List.all_eq_true.mp hcheck d hd
          exact lookupMem_iff.mp (by simpa using this)
        · exact Or.inr ⟨List.mem_cons_of_mem _ hmem, hdeps⟩
      · rintro (h | ⟨hmem, hdeps⟩)
        · exact Or.inl (Or.inl h)
        · rcases List.mem_cons.mp hmem with h1x | h1x
          · exact Or.inl (Or.inr h1x)
          · exact Or.inr ⟨h1x, hdeps⟩
    · rw [if_neg hcheck]
      obtain ⟨h1, h2, h3, h4, h5, h6, h7⟩ := ih st
      refine ⟨h1, h2, h3, h4, h5, ?_, h7⟩
      intro x
      rw [h6 x]
      constructor
      · rintro (h | ⟨hmem, hdeps⟩)
        · exact Or.inl h
        · exact Or.inr ⟨List.mem_cons_of_mem _ hmem, hdeps⟩
      · rintro (h | ⟨hmem, hdeps⟩)
        · exact Or.inl h
        · rcases List.mem_cons.mp hmem with h1x | h1x
          · exfalso
            subst h1x
            apply hcheck
            rw [List.all_eq_true]
            intro d hd
            simpa using lookupMem_iff.mpr (hdeps d hd)
          · exact Or.inr ⟨h1x, hdeps⟩

def wakeState (j : Job) (sl : Slot) (st : SimState) : SimState :=
  (dependents j sl.taskID).foldl
    (fun s nextID =>
      let task := j.findD nextID
      if task.dependencies.all (fun depID => lookupMem s.finished depID) then
        { s with ready := insertReady s.ready nextID }
      else s)
    { st with finished := st.finished ++ [(sl.taskID, st.currentTime)] }

theorem completeSlots_cons_pos (j : Job) (sl : Slot) (rest acc : List Slot)
    (st : SimState) (h : sl.finishTime = st.currentTime) :
    completeSlots j (sl :: rest) acc st = completeSlots j rest acc (wakeState j sl st) := by
  conv_lhs => rw [completeSlots]
  rw [if_pos h]
  rfl

theorem completeSlots_cons_neg (j : Job) (sl : Slot) (rest acc : List Slot)
    (st : SimState) (h : ¬ sl.finishTime = st.currentTime) :
    completeSlots j (sl :: rest) acc st = completeSlots j rest (acc ++ [sl]) st := by
  conv_lhs => rw [completeSlots]
  rw [if_neg h]

theorem completeSlots_spec (j : Job) (hnd : (taskIds j).Nodup) :
    ∀ (slots acc : List Slot) (st : SimState),
    (completeSlots j slots acc st).1 =
      acc ++ slots.filter (fun sl => !decide (sl.finishTime = st.currentTime)) ∧
    (completeSlots j slots acc st).2.finished =
      st.finished ++
        (slots.filter (fun sl => decide (sl.finishTime = st.currentTime))).map
          (fun sl => (sl.taskID, st.currentTime)) ∧
    (completeSlots j slots acc st).2.startTime = st.startTime ∧
    (completeSlots j slots acc st).2.running = st.running ∧
    (completeSlots j slots acc st).2.execOrder = st.execOrder ∧
    (completeSlots j slots acc st).2.currentTime = st.currentTime ∧
    (∀ x, x ∈ (completeSlots j slots acc st).2.ready ↔
      x ∈ st.ready ∨
        ∃ sl ∈ slots, sl.finishTime = st.currentTime ∧
          sl.taskID ∈ (j.findD x).dependencies ∧
          ∀ d ∈ (j.findD x).dependencies,
            (d ∈ st.finished.map Prod.fst ∨
              ∃ sl2 ∈ slots, sl2.finishTime = st.currentTime ∧ sl2.taskID = d)) ∧
    (st.ready.Nodup → (completeSlots j slots acc st).2.ready.Nodup) := by
  intro slots
  induction slots with
  | nil =>
    intro acc st
    refine ⟨by simp [completeSlots], by simp [completeSlots], rfl, rfl, rfl, rfl, ?_,
      fun h => h⟩
    intro x
    simp [completeSlots]
  | cons sl rest ih =>
    intro acc st
    by_cases hfin : sl.finishTime = st.currentTime
    · rw [completeSlots_cons_pos j sl rest acc st hfin]
      have hwake := wakeFold_spec j (dependents j sl.taskID)
        { st with finished := st.finished ++ [(sl.taskID, st.currentTime)] }
      obtain ⟨hwF, hwS, hwR, hwE, hwT, hwReady, hwNodup⟩ := hwake
      have hW : ∀ P : SimState → Prop, P (wakeState j sl st) ↔
          P ((dependents j sl.taskID).foldl
            (fun s nextID =>
              let task := j.findD nextID
              if task.dependencies.all (fun depID => lookupMem s.finished depID) then
                { s with ready := insertReady s.ready nextID }
              else s)
            { st with finished := st.finished ++ [(sl.taskID, st.currentTime)] }) := by
        intro P
        rfl
      obtain ⟨ih1, ih2, ih3, ih4, ih5, ih6, ih7, ih8⟩ := ih acc (wakeState j sl st)
      have hT2 : (wakeState j sl st).currentTime = st.currentTime := hwT
      have hF2 : (wakeState j sl st).finished =
          st.finished ++ [(sl.taskID, st.currentTime)] := hwF
      have hS2 : (wakeState j sl st).startTime = st.startTime := hwS
      have hR2 : (wakeState j sl st).running = st.running := hwR
      have hE2 : (wakeState j sl st).execOrder = st.execOrder := hwE
      refine ⟨?_, ?_, ?_, ?_, ?_, ?_, ?_, ?_⟩
      · rw [ih1, hT2]
        rw [List.filter_cons, if_neg (by simp [hfin])]
      · rw [ih2, hT2, hF2]
        rw [List.filter_cons, if_pos (by simp [hfin])]
        rw [List.map_cons, List.append_assoc]
        rfl
      · rw [ih3, hS2]
      · rw [ih4, hR2]
      · rw [ih5, hE2]
      · rw [ih6, hT2]
      · intro x
        rw [ih7 x, hT2, hF2]
        have hwr := hwReady x
        constructor
        · rintro (hx | ⟨sl2, hsl2, hsl2t, hsl2d, hsl2all⟩)
          · rcases hwr.mp hx with hx2 | ⟨hx2, hx2all⟩
            · exact Or.inl hx2
            · refine Or.inr ⟨sl, List.mem_cons_self _ _, hfin,
                (mem_dependents_iff hnd).mp hx2, ?_⟩
              intro d hd
              have := hx2all d hd
              rw [List.map_append] at this
              rcases List.mem_append.mp this with h1 | h1
              · exact Or.inl h1
              · rw [List.map_singleton, List.mem_singleton] at h1
                exact Or.inr ⟨sl, List.mem_cons_self _ _, hfin, h1.symm⟩
          · refine Or.inr ⟨sl2, List.mem_cons_of_mem _ hsl2, hsl2t, hsl2d, ?_⟩
            intro d hd
            rcases hsl2all d hd with h1 | ⟨sl3, hsl3, hsl3t, hsl3d⟩
            · rw [List.map_append] at h1
              rcases List.mem_append.mp h1 with h2 | h2
              · exact Or.inl h2
              · rw [List.map_singleton, List.mem_singleton] at h2
                exact Or.inr ⟨sl, List.mem_cons_self _ _, hfin, h2.symm⟩
            · exact Or.inr ⟨sl3, List.mem_cons_of_mem _ hsl3, hsl3t, hsl3d⟩
        · rintro (hx | ⟨sl2, hsl2, hsl2t, hsl2d, hsl2all⟩)
          · exact Or.inl (hwr.mpr (Or.inl hx))
          · have hconv : ∀ d ∈ (j.findD x).dependencies,
                (d ∈ st.finished.map Prod.fst ∨ d = sl.taskID) ∨
                  ∃ sl3 ∈ rest, sl3.finishTime = st.currentTime ∧ sl3.taskID = d := by
              intro d hd
              rcases hsl2all d hd with h1 | ⟨sl3, hsl3, hsl3t, hsl3d⟩
              · exact Or.inl (Or.inl h1)
              · rcases List.mem_cons.mp hsl3 with h2 | h2
                · exact Or.inl (Or.inr (by rw [← hsl3d, h2]))
                · exact Or.inr ⟨sl3, h2, hsl3t, hsl3d⟩
            rcases List.mem_cons.mp hsl2 with hsl2head | hsl2rest
            · by_cases hallnow : ∀ d ∈ (j.findD x).dependencies,
                  d ∈ (st.finished ++ [(sl.taskID, st.currentTime)]).map Prod.fst
              · exact Or.inl (hwr.mpr (Or.inr
                  ⟨(mem_dependents_iff hnd).mpr (by rw [← hsl2head]; exact hsl2d),
                    hallnow⟩))
              · push_neg at hallnow
                obtain ⟨d0, hd0, hd0no⟩ := hallnow
                have hd0conv := hconv d0 hd0
                rcases hd0conv with (h1 | h1) | ⟨sl3, hsl3, hsl3t, hsl3d⟩
                · exfalso
                  apply hd0no
                  rw [List.map_append, List.mem_append]
                  exact Or.inl h1
                · exfalso
                  apply hd0no
                  rw [List.map_append, List.mem_append, List.map_singleton]
                  exact Or.inr (by rw [List.mem_singleton, h1])
                · refine Or.inr ⟨sl3, hsl3, hsl3t, by rw [hsl3d]; exact hd0, ?_⟩
                  intro d hd
                  rcases hconv d hd with (h1 | h1) | h1
                  · rw [List.map_append]
                    exact Or.inl (List.mem_append.mpr (Or.inl h1))
                  · rw [List.map_append]
                    refine Or.inl (List.mem_append.mpr (Or.inr ?_))
                    rw [List.map_singleton, List.mem_singleton, h1]
                  · obtain ⟨sl4, hsl4, hsl4t, hsl4d⟩ := h1
                    exact Or.inr ⟨sl4, hsl4, hsl4t, hsl4d⟩
            · refine Or.inr ⟨sl2, hsl2rest, hsl2t, hsl2d, ?_⟩
              intro d hd
              rcases hconv d hd with (h1 | h1) | h1
              · rw [List.map_append]
                exact Or.inl (List.mem_append.mpr (Or.inl h1))
              · rw [List.map_append]
                refine Or.inl (List.mem_append.mpr (Or.inr ?_))
                rw [List.map_singleton, List.mem_singleton, h1]
              · obtain ⟨sl4, hsl4, hsl4t, hsl4d⟩ := h1
                exact Or.inr ⟨sl4, hsl4, hsl4t, hsl4d⟩
      · intro hnodup
        exact ih8 (hwNodup hnodup)
    · rw [completeSlots_cons_neg j sl rest acc st hfin]
      obtain ⟨ih1, ih2, ih3, ih4, ih5, ih6, ih7, ih8⟩ := ih (acc ++ [sl]) st
      refine ⟨?_, ?_, ih3, ih4, ih5, ih6, ?_, ih8⟩
      · rw [ih1, List.filter_cons, if_pos (by simp [hfin]), List.append_assoc]
        rfl
      · rw [ih2, List.filter_cons, if_neg (by simp [hfin])]
      · intro x
        rw [ih7 x]
        constructor
        · rintro (hx | ⟨sl2, hsl2, hsl2t, hsl2d, hsl2all⟩)
          · exact Or.inl hx
          · refine Or.inr ⟨sl2, List.mem_cons_of_mem _ hsl2, hsl2t, hsl2d, ?_⟩
            intro d hd
            rcases hsl2all d hd with h1 | ⟨sl3, hsl3, hsl3t, hsl3d⟩
            · exact Or.inl h1
            · exact Or.inr ⟨sl3, List.mem_cons_of_mem _ hsl3, hsl3t, hsl3d⟩
        · rintro (hx | ⟨sl2, hsl2, hsl2t, hsl2d, hsl2all⟩)
          · exact Or.inl hx
          · rcases List.mem_cons.mp hsl2 with h2 | h2
            · exact absurd (h2 ▸ hsl2t) hfin
            · refine Or.inr ⟨sl2, h2, hsl2t, hsl2d, ?_⟩
              intro d hd
              rcases hsl2all d hd with h1 | ⟨sl3, hsl3, hsl3t, hsl3d⟩
              · exact Or.inl h1
              · rcases List.mem_cons.mp hsl3 with h3 | h3
                · exact absurd (h3 ▸ hsl3t) hfin
                · exact Or.inr ⟨sl3, h3, hsl3t, hsl3d⟩


theorem mem_foldl_erase {y : String} : ∀ (D l : List String), l.Nodup →
    (y ∈ D.foldl (fun r x => r.erase x) l ↔ y ∈ l ∧ y ∉ D) := by
  intro D
  induction D with
  | nil =>
    intro l _
    simp
  | cons x D ih =>
    intro l hnd
    rw [List.foldl_cons]
    rw [ih (l.erase x) (hnd.erase x)]
    rw [List.Nodup.mem_erase_iff hnd]
    constructor
    · rintro ⟨⟨hne, hl⟩, hD⟩
      refine ⟨hl, ?_⟩
      intro hc
      rcases List.mem_cons.mp hc with h | h
      · exact hne h
      · exact hD h
    · rintro ⟨hl, hD⟩
      refine ⟨⟨fun hc => hD (hc ▸ List.mem_cons_self x D), hl⟩, ?_⟩
      intro hc
      exact hD (List.mem_cons_of_mem x hc)

theorem nodup_foldl_erase : ∀ (D l : List String), l.Nodup →
    (D.foldl (fun r x => r.erase x) l).Nodup := by
  intro D
  induction D with
  | nil => intro l h; exact h
  | cons x D ih =>
    intro l hnd
    rw [List.foldl_cons]
    exact ih (l.erase x) (hnd.erase x)

theorem dispatchLoop_spec (j : Job) (w : Int) :
    ∀ (rl : List String) (st : SimState), ∃ D R : List String,
      rl = D ++ R ∧
      (dispatchLoop j w rl st).ready = D.foldl (fun r x => r.erase x) st.ready ∧
      (dispatchLoop j w rl st).running =
        st.running ++ D.map (fun x => Slot.mk x (st.currentTime + (j.findD x).duration)) ∧
      (dispatchLoop j w rl st).finished = st.finished ∧
      (dispatchLoop j w rl st).startTime =
        st.startTime ++ D.map (fun x => (x, st.currentTime)) ∧
      (dispatchLoop j w rl st).execOrder = st.execOrder ++ D ∧
      (dispatchLoop j w rl st).currentTime = st.currentTime ∧
      (R = [] ∨ ((st.running.length : Int) + D.length ≥ w)) ∧
      (D = [] ∨ ((st.running.length : Int) + D.length ≤ w)) := by
  intro rl
  induction rl with
  | nil =>
    intro st
    refine ⟨[], [], rfl, rfl, by simp [dispatchLoop], rfl, by simp [dispatchLoop],
      by simp [dispatchLoop], rfl, Or.inl rfl, Or.inl rfl⟩
  | cons id rest ih =>
    intro st
    by_cases hlt : (st.running.length : Int) < w
    · have hstep : dispatchLoop j w (id :: rest) st = dispatchLoop j w rest
          { st with
            ready := st.ready.erase id,
            startTime := st.startTime ++ [(id, st.currentTime)],
            running := st.running ++ [Slot.mk id (st.currentTime + (j.findD id).duration)],
            execOrder := st.execOrder ++ [id] } := by
        conv_lhs => rw [dispatchLoop]
        rw [if_pos hlt]
      obtain ⟨D, R, hsplit, hready, hrun, hfin, hstart, hexec, htime, hcapR, hcapD⟩ :=
        ih { st with
            ready := st.ready.erase id,
            startTime := st.startTime ++ [(id, st.currentTime)],
            running := st.running ++ [Slot.mk id (st.currentTime + (j.findD id).duration)],
            execOrder := st.execOrder ++ [id] }
      refine ⟨id :: D, R, by rw [List.cons_append, hsplit], ?_, ?_, ?_, ?_, ?_, ?_, ?_, ?_⟩
      · rw [hstep, hready, List.foldl_cons]
      · rw [hstep, hrun]
        simp only [List.map_cons, List.append_assoc, List.singleton_append]
      · rw [hstep, hfin]
      · rw [hstep, hstart]
        simp only [List.map_cons, List.append_assoc, List.singleton_append]
      · rw [hstep, hexec]
        simp only [List.append_assoc, List.singleton_append]
      · rw [hstep, htime]
      · rcases hcapR with h | h
        · exact Or.inl h
        · refine Or.inr ?_
          simp only [List.length_append, List.length_singleton, List.length_cons,
            List.length_nil] at h ⊢
          push_cast at h ⊢
          omega
      · refine Or.inr ?_
        rcases hcapD with h | h
        · subst h
          simp only [List.length_cons, List.length_nil]
          push_cast
          omega
        · simp only [List.length_append, List.length_singleton, List.length_cons,
            List.length_nil] at h ⊢
          push_cast at h ⊢
          omega
    · have hstep : dispatchLoop j w (id :: rest) st = st := by
        unfold dispatchLoop
        rw [if_neg hlt]
      refine ⟨[], id :: rest, rfl, by simp [hstep], by simp [hstep], by rw [hstep],
        by simp [hstep], by simp [hstep], by rw [hstep], ?_, Or.inl rfl⟩
      refine Or.inr ?_
      simp only [List.length_nil]
      push_cast
      omega


/-- The event-loop invariant of scheduleLimited, at iteration boundaries
(and preserved by each phase): the ready/running/finished sets partition
the started universe, recorded times are consistent with the clock, every
ready task has all dependencies finished, every started task started no
earlier than each dependency finished, and the worker cap holds. -/
structure SimInv (j : Job) (w : Int) (st : SimState) : Prop where
  readyNd : st.ready.Nodup
  runNd : (st.running.map Slot.taskID).Nodup
  finNd : (st.finished.map Prod.fst).Nodup
  readySub : ∀ x ∈ st.ready, x ∈ taskIds j
  runSub : ∀ sl ∈ st.running, sl.taskID ∈ taskIds j
  finSub : ∀ p ∈ st.finished, p.1 ∈ taskIds j
  dRR : ∀ x ∈ st.ready, x ∉ st.running.map Slot.taskID
  dRF : ∀ x ∈ st.ready, x ∉ st.finished.map Prod.fst
  dNF : ∀ x ∈ st.running.map Slot.taskID, x ∉ st.finished.map Prod.fst
  startKeys : (st.startTime.map Prod.fst).Perm
      (st.running.map Slot.taskID ++ st.finished.map Prod.fst)
  readyDeps : ∀ x ∈ st.ready, ∀ d ∈ (j.findD x).dependencies, d ∈ st.finished.map Prod.fst
  startDeps : ∀ p ∈ st.startTime, ∀ d ∈ (j.findD p.1).dependencies,
      ∃ f, (d, f) ∈ st.finished ∧ f ≤ p.2
  startLe : ∀ p ∈ st.startTime, 0 ≤ p.2 ∧ p.2 ≤ st.currentTime
  slotTime : ∀ sl ∈ st.running, ∃ s, (sl.taskID, s) ∈ st.startTime ∧
      sl.finishTime = s + (j.findD sl.taskID).duration ∧ st.currentTime < sl.finishTime
  finTime : ∀ p ∈ st.finished, ∃ s, (p.1, s) ∈ st.startTime ∧
      p.2 = s + (j.findD p.1).duration ∧ p.2 ≤ st.currentTime
  pendingBlocked : ∀ x ∈ taskIds j, x ∉ st.ready → x ∉ st.running.map Slot.taskID →
      x ∉ st.finished.map Prod.fst →
      ∃ d ∈ (j.findD x).dependencies, d ∉ st.finished.map Prod.fst
  timeNonneg : 0 ≤ st.currentTime
  runCap : (st.running.length : Int) ≤ w
  timeIsFinish : st.currentTime = 0 ∨ ∃ p ∈ st.finished, p.2 = st.currentTime

theorem initState_ready_iff {j : Job} (hnd : (taskIds j).Nodup) {x : String} :
    x ∈ (initState j).ready ↔ x ∈ taskIds j ∧ (j.findD x).dependencies = [] := by
  unfold initState
  simp only [List.mem_map, List.mem_filter]
  constructor
  · rintro ⟨p, ⟨hp, hdep⟩, hx⟩
    have hfd : j.findD p.1 = p.2 := findD_of_entry hnd hp
    subst hx
    rw [hfd]
    refine ⟨List.mem_map.mpr ⟨p, hp, rfl⟩, ?_⟩
    unfold Task.hasDependencies at hdep
    simpa using hdep
  · rintro ⟨hx, hdep⟩
    refine ⟨(x, j.findD x), ⟨findD_entry_mem hx, ?_⟩, rfl⟩
    unfold Task.hasDependencies
    rw [hdep]
    rfl

theorem simInv_init (j : Job) (w : Int) (hWF : j.WellFormed) (hw : 1 ≤ w) :
    SimInv j w (initState j) := by
  have hnd := WellFormed_taskIds_nodup hWF
  have hrsub : ∀ x ∈ (initState j).ready, x ∈ taskIds j :=
    fun x hx => ((initState_ready_iff hnd).mp hx).1
  constructor
  case readyNd =>
    have hsub : ((j.tasks.filter (fun p => !p.2.hasDependencies)).map Prod.fst).Sublist
        (j.tasks.map Prod.fst) := (List.filter_sublist _).map Prod.fst
    exact hnd.sublist hsub
  case runNd => exact List.nodup_nil
  case finNd => exact List.nodup_nil
  case readySub => exact hrsub
  case runSub => intro sl hsl; cases hsl
  case finSub => intro p hp; cases hp
  case dRR => intro x _ hc; cases hc
  case dRF => intro x _ hc; cases hc
  case dNF => intro x hc; cases hc
  case startKeys => exact List.Perm.refl []
  case readyDeps =>
    intro x hx d hd
    rw [((initState_ready_iff hnd).mp hx).2] at hd
    cases hd
  case startDeps => intro p hp; cases hp
  case startLe => intro p hp; cases hp
  case slotTime => intro sl hsl; cases hsl
  case finTime => intro p hp; cases hp
  case pendingBlocked =>
    intro x hx hr _ _
    cases hds : (j.findD x).dependencies with
    | nil =>
      exact absurd ((initState_ready_iff hnd).mpr ⟨hx, hds⟩) hr
    | cons d t =>
      refine ⟨d, List.mem_cons_self d t, ?_⟩
      intro hc
      cases hc
  case timeNonneg => exact le_refl 0
  case runCap =>
    show ((0 : Nat) : Int) ≤ w
    omega
  case timeIsFinish => exact Or.inl rfl


theorem simInv_dispatch (j : Job) (w : Int) (hWF : j.WellFormed) (hw : 1 ≤ w)
    (st : SimState) (hinv : SimInv j w st) :
    SimInv j w (dispatchLoop j w (sortStrings st.ready) st) ∧
    (dispatchLoop j w (sortStrings st.ready) st).finished = st.finished ∧
    (dispatchLoop j w (sortStrings st.ready) st).currentTime = st.currentTime ∧
    ((dispatchLoop j w (sortStrings st.ready) st).running = [] →
      (dispatchLoop j w (sortStrings st.ready) st).ready = []) := by
  obtain ⟨D, R, hsplit, hready, hrun, hfin, hstart, hexec, htime, hcapR, hcapD⟩ :=
    dispatchLoop_spec j w (sortStrings st.ready) st
  have hsnd : (sortStrings st.ready).Nodup := sortStrings_nodup hinv.readyNd
  have hDnd : D.Nodup := by
    rw [hsplit] at hsnd
    exact (List.nodup_append.mp hsnd).1
  have hDsub : ∀ x ∈ D, x ∈ st.ready := fun x hx =>
    mem_sortStrings.mp (by rw [hsplit]; exact List.mem_append.mpr (Or.inl hx))
  have hreadyIff : ∀ y, y ∈ (dispatchLoop j w (sortStrings st.ready) st).ready ↔
      y ∈ st.ready ∧ y ∉ D := by
    intro y
    rw [hready]
    exact mem_foldl_erase D st.ready hinv.readyNd
  have hrunMap : (dispatchLoop j w (sortStrings st.ready) st).running.map Slot.taskID =
      st.running.map Slot.taskID ++ D := by
    rw [hrun, List.map_append, List.map_map]
    congr 1
    exact List.map_id D
  have hstartMap : (dispatchLoop j w (sortStrings st.ready) st).startTime.map Prod.fst =
      st.startTime.map Prod.fst ++ D := by
    rw [hstart, List.map_append, List.map_map]
    congr 1
    exact List.map_id D
  refine ⟨?_, hfin, htime, ?_⟩
  · constructor
    case readyNd => rw [hready]; exact nodup_foldl_erase D st.ready hinv.readyNd
    case runNd =>
      rw [hrunMap]
      rw [List.nodup_append]
      refine ⟨hinv.runNd, hDnd, ?_⟩
      intro a ha haD
      exact hinv.dRR a (hDsub a haD) ha
    case finNd => rw [hfin]; exact hinv.finNd
    case readySub =>
      intro x hx
      exact hinv.readySub x ((hreadyIff x).mp hx).1
    case runSub =>
      intro sl hsl
      rw [hrun] at hsl
      rcases List.mem_append.mp hsl with h | h
      · exact hinv.runSub sl h
      · rcases List.mem_map.mp h with ⟨x, hx, hxe⟩
        rw [← hxe]
        exact hinv.readySub x (hDsub x hx)
    case finSub =>
      intro p hp
      rw [hfin] at hp
      exact hinv.finSub p hp
    case dRR =>
      intro x hx
      rw [hrunMap]
      obtain ⟨hxr, hxD⟩ := (hreadyIff x).mp hx
      intro hc
      rcases List.mem_append.mp hc with h | h
      · exact hinv.dRR x hxr h
      · exact hxD h
    case dRF =>
      intro x hx
      rw [hfin]
      exact hinv.dRF x ((hreadyIff x).mp hx).1
    case dNF =>
      intro x hx
      rw [hrunMap] at hx
      rw [hfin]
      rcases List.mem_append.mp hx with h | h
      · exact hinv.dNF x h
      · exact hinv.dRF x (hDsub x h)
    case startKeys =>
      rw [hstartMap, hrunMap, hfin]
      refine (hinv.startKeys.append_right D).trans ?_
      rw [List.append_assoc, List.append_assoc]
      exact (List.perm_append_comm).append_left (st.running.map Slot.taskID)
    case readyDeps =>
      intro x hx d hd
      rw [hfin]
      exact hinv.readyDeps x ((hreadyIff x).mp hx).1 d hd
    case startDeps =>
      intro p hp d hd
      rw [hfin]
      rw [hstart] at hp
      rcases List.mem_append.mp hp with h | h
      · exact hinv.startDeps p h d hd
      · rcases List.mem_map.mp h with ⟨x, hx, hxe⟩
        have hx1 : p.1 = x := by rw [← hxe]
        have hx2 : p.2 = st.currentTime := by rw [← hxe]
        rw [hx1] at hd
        have hdf : d ∈ st.finished.map Prod.fst :=
          hinv.readyDeps x (hDsub x hx) d hd
        refine ⟨lookup0 st.finished d, mem_entry_of_key hdf, ?_⟩
        obtain ⟨s, _, _, hle⟩ := hinv.finTime (d, lookup0 st.finished d)
          (mem_entry_of_key hdf)
        rw [hx2]
        exact hle
    case startLe =>
      intro p hp
      rw [htime]
      rw [hstart] at hp
      rcases List.mem_append.mp hp with h | h
      · exact hinv.startLe p h
      · rcases List.mem_map.mp h with ⟨x, _, hxe⟩
        have hx2 : p.2 = st.currentTime := by rw [← hxe]
        rw [hx2]
        exact ⟨hinv.timeNonneg, le_refl _⟩
    case slotTime =>
      intro sl hsl
      rw [htime, hstart]
      rw [hrun] at hsl
      rcases List.mem_append.mp hsl with h | h
      · obtain ⟨s, hsS, heq, hlt⟩ := hinv.slotTime sl h
        exact ⟨s, List.mem_append.mpr (Or.inl hsS), heq, hlt⟩
      · rcases List.mem_map.mp h with ⟨x, hx, hxe⟩
        refine ⟨st.currentTime, ?_, ?_, ?_⟩
        · refine List.mem_append.mpr (Or.inr (List.mem_map.mpr ⟨x, hx, ?_⟩))
          rw [← hxe]
        · rw [← hxe]
        · rw [← hxe]
          have hdur := dur_pos_of_WF hWF (hinv.readySub x (hDsub x hx))
          simp only []
          omega
    case finTime =>
      intro p hp
      rw [htime, hstart, hfin] at *
      rw [hfin] at hp
      obtain ⟨s, hsS, heq, hle⟩ := hinv.finTime p hp
      exact ⟨s, List.mem_append.mpr (Or.inl hsS), heq, hle⟩
    case pendingBlocked =>
      intro x hx h1 h2 h3
      rw [hfin] at h3
      rw [hrunMap] at h2
      have hxr : x ∉ st.ready := by
        intro hc
        by_cases hD : x ∈ D
        · exact h2 (List.mem_append.mpr (Or.inr hD))
        · exact h1 ((hreadyIff x).mpr ⟨hc, hD⟩)
      have hxrun : x ∉ st.running.map Slot.taskID := by
        intro hc
        exact h2 (List.mem_append.mpr (Or.inl hc))
      rw [hfin]
      exact hinv.pendingBlocked x hx hxr hxrun h3
    case timeNonneg => rw [htime]; exact hinv.timeNonneg
    case runCap =>
      rw [hrun]
      rcases hcapD with h | h
      · subst h
        simp only [List.map_nil, List.append_nil]
        exact hinv.runCap
      · simp only [List.length_append, List.length_map]
        push_cast
        push_cast at h
        omega
    case timeIsFinish =>
      rw [htime, hfin]
      exact hinv.timeIsFinish
  · intro h0
    rw [hrun] at h0
    obtain ⟨hr0, hm0⟩ := List.append_eq_nil.mp h0
    have hD0 : D = [] := by
      cases D with
      | nil => rfl
      | cons a t => cases hm0
    have hR0 : R = [] := by
      rcases hcapR with h | h
      · exact h
      · exfalso
        rw [hr0, hD0] at h
        simp at h
        omega
    have hready0 : st.ready = [] := by
      have : sortStrings st.ready = [] := by rw [hsplit, hD0, hR0]; rfl
      have hp := sortStrings_perm st.ready
      rw [this] at hp
      exact (hp.nil_eq).symm
    rw [hready, hD0, hready0]
    rfl


theorem simInv_complete (j : Job) (w : Int) (hWF : j.WellFormed)
    (st : SimState) (hinv : SimInv j w st) (T : Int)
    (hTub : ∀ sl ∈ st.running, T ≤ sl.finishTime)
    (hTmem : ∃ sl ∈ st.running, sl.finishTime = T) :
    ∀ pr, pr = completeSlots j st.running [] { st with currentTime := T, running := [] } →
    SimInv j w { pr.2 with running := pr.1 } ∧
    st.finished.length < pr.2.finished.length ∧
    pr.2.currentTime = T ∧ st.currentTime < T := by
  have hnd := WellFormed_taskIds_nodup hWF
  intro pr hpr
  obtain ⟨h1, h2, h3, h4, h5, h6, h7, h8⟩ :=
    completeSlots_spec j hnd st.running [] { st with currentTime := T, running := [] }
  rw [← hpr] at h1 h2 h3 h4 h5 h6 h7 h8
  have hct : st.currentTime < T := by
    obtain ⟨sl, hsl, hslT⟩ := hTmem
    obtain ⟨s, _, _, hlt⟩ := hinv.slotTime sl hsl
    omega
  have hP1 : ({ pr.2 with running := pr.1 } : SimState).running =
      st.running.filter (fun sl => !decide (sl.finishTime = T)) := by
    have : pr.1 = [] ++ st.running.filter (fun sl => !decide (sl.finishTime = T)) := h1
    rw [List.nil_append] at this
    exact this
  have hP2 : ({ pr.2 with running := pr.1 } : SimState).finished =
      st.finished ++ (st.running.filter (fun sl => decide (sl.finishTime = T))).map
        (fun sl => (sl.taskID, T)) := h2
  have hP3 : ({ pr.2 with running := pr.1 } : SimState).startTime = st.startTime := h3
  have hP6 : ({ pr.2 with running := pr.1 } : SimState).currentTime = T := h6
  have hP7 : ∀ x, x ∈ ({ pr.2 with running := pr.1 } : SimState).ready ↔
      x ∈ st.ready ∨ ∃ sl ∈ st.running, sl.finishTime = T ∧
        sl.taskID ∈ (j.findD x).dependencies ∧
        ∀ d ∈ (j.findD x).dependencies,
          (d ∈ st.finished.map Prod.fst ∨
            ∃ sl2 ∈ st.running, sl2.finishTime = T ∧ sl2.taskID = d) := h7
  have hP8 : ({ pr.2 with running := pr.1 } : SimState).ready.Nodup := h8 hinv.readyNd
  have hBK : ∀ d, d ∈ (st.running.filter
        (fun sl => decide (sl.finishTime = T))).map Slot.taskID ↔
      ∃ sl2 ∈ st.running, sl2.finishTime = T ∧ sl2.taskID = d := by
    intro d
    constructor
    · intro h
      rcases List.mem_map.mp h with ⟨sl, hslf, hid⟩
      rcases List.mem_filter.mp hslf with ⟨hmem, hdec⟩
      exact ⟨sl, hmem, of_decide_eq_true hdec, hid⟩
    · rintro ⟨sl, hmem, hfin, hid⟩
      exact List.mem_map.mpr ⟨sl, List.mem_filter.mpr ⟨hmem, decide_eq_true hfin⟩, hid⟩
  have hfinKeys : ({ pr.2 with running := pr.1 } : SimState).finished.map Prod.fst =
      st.finished.map Prod.fst ++
        (st.running.filter (fun sl => decide (sl.finishTime = T))).map Slot.taskID := by
    rw [hP2, List.map_append, List.map_map]
    rfl
  have hsw : ∀ x, x ∈ st.startTime.map Prod.fst →
      ∀ sl ∈ st.running, sl.taskID ∉ (j.findD x).dependencies := by
    intro x hx sl hsl hc
    obtain ⟨p, hp, hpx⟩ := List.mem_map.mp hx
    obtain ⟨f, hf, _⟩ := hinv.startDeps p hp sl.taskID (by rw [hpx]; exact hc)
    exact hinv.dNF sl.taskID (List.mem_map.mpr ⟨sl, hsl, rfl⟩)
      (List.mem_map.mpr ⟨(sl.taskID, f), hf, rfl⟩)
  have hwokenStart : ∀ x, (∃ sl ∈ st.running, sl.finishTime = T ∧
      sl.taskID ∈ (j.findD x).dependencies) → x ∉ st.startTime.map Prod.fst := by
    rintro x ⟨sl, hsl, _, hdep⟩ hx
    exact hsw x hx sl hsl hdep
  have hrunStart : ∀ y, y ∈ st.running.map Slot.taskID → y ∈ st.startTime.map Prod.fst :=
    fun y hy => hinv.startKeys.mem_iff.mpr (List.mem_append.mpr (Or.inl hy))
  have hfinStart : ∀ y, y ∈ st.finished.map Prod.fst → y ∈ st.startTime.map Prod.fst :=
    fun y hy => hinv.startKeys.mem_iff.mpr (List.mem_append.mpr (Or.inr hy))
  have hbatchSub : ∀ y, y ∈ (st.running.filter
        (fun sl => decide (sl.finishTime = T))).map Slot.taskID →
      y ∈ st.running.map Slot.taskID := by
    intro y hy
    rcases List.mem_map.mp hy with ⟨sl, hslf, hid⟩
    exact List.mem_map.mpr ⟨sl, (List.mem_filter.mp hslf).1, hid⟩
  have hkeepSub : ∀ y, y ∈ (st.running.filter
        (fun sl => !decide (sl.finishTime = T))).map Slot.taskID →
      y ∈ st.running.map Slot.taskID := by
    intro y hy
    rcases List.mem_map.mp hy with ⟨sl, hslf, hid⟩
    exact List.mem_map.mpr ⟨sl, (List.mem_filter.mp hslf).1, hid⟩
  refine ⟨?_, ?_, hP6, hct⟩
  · constructor
    case readyNd => exact hP8
    case runNd =>
      rw [hP1]
      exact hinv.runNd.sublist ((List.filter_sublist _).map Slot.taskID)
    case finNd =>
      rw [hfinKeys]
      rw [List.nodup_append]
      refine ⟨hinv.finNd, hinv.runNd.sublist ((List.filter_sublist _).map Slot.taskID), ?_⟩
      intro a ha haB
      exact hinv.dNF a (hbatchSub a haB) ha
    case readySub =>
      intro x hx
      rcases (hP7 x).mp hx with h | ⟨sl, hsl, _, hdep, _⟩
      · exact hinv.readySub x h
      · exact mem_dependents ((mem_dependents_iff hnd).mpr hdep)
    case runSub =>
      intro sl hsl
      rw [hP1] at hsl
      exact hinv.runSub sl (List.mem_filter.mp hsl).1
    case finSub =>
      intro p hp
      rw [hP2] at hp
      rcases List.mem_append.mp hp with h | h
      · exact hinv.finSub p h
      · rcases List.mem_map.mp h with ⟨sl, hslf, hsp⟩
        rw [← hsp]
        exact hinv.runSub sl (List.mem_filter.mp hslf).1
    case dRR =>
      intro x hx
      rw [hP1]
      intro hc
      have hcrun : x ∈ st.running.map Slot.taskID := hkeepSub x hc
      rcases (hP7 x).mp hx with h | h
      · exact hinv.dRR x h hcrun
      · exact hwokenStart x (by
          obtain ⟨sl, hsl, hfin, hdep, _⟩ := h
          exact ⟨sl, hsl, hfin, hdep⟩) (hrunStart x hcrun)
    case dRF =>
      intro x hx
      rw [hfinKeys]
      intro hc
      rcases (hP7 x).mp hx with h | h
      · rcases List.mem_append.mp hc with h2 | h2
        · exact hinv.dRF x h h2
        · exact hinv.dRR x h (hbatchSub x h2)
      · have hxs : x ∈ st.startTime.map Prod.fst := by
          rcases List.mem_append.mp hc with h2 | h2
          · exact hfinStart x h2
          · exact hrunStart x (hbatchSub x h2)
        exact hwokenStart x (by
          obtain ⟨sl, hsl, hfin, hdep, _⟩ := h
          exact ⟨sl, hsl, hfin, hdep⟩) hxs
    case dNF =>
      intro x hx
      rw [hP1] at hx
      rw [hfinKeys]
      intro hc
      rcases List.mem_append.mp hc with h2 | h2
      · exact hinv.dNF x (hkeepSub x hx) h2
      · rcases List.mem_map.mp hx with ⟨sl1, hsl1f, hid1⟩
        rcases List.mem_map.mp h2 with ⟨sl2, hsl2f, hid2⟩
        rcases List.mem_filter.mp hsl1f with ⟨hm1, hd1⟩
        rcases List.mem_filter.mp hsl2f with ⟨hm2, hd2⟩
        have heq : sl1 = sl2 :=
          List.inj_on_of_nodup_map hinv.runNd hm1 hm2 (by rw [hid1, hid2])
        rw [heq] at hd1
        rw [hd2] at hd1
        cases hd1
    case startKeys =>
      rw [hP3, hP1, hfinKeys]
      refine hinv.startKeys.trans ?_
      have hparts : ((st.running.filter (fun sl => decide (sl.finishTime = T))).map
            Slot.taskID ++ (st.running.filter
              (fun sl => !decide (sl.finishTime = T))).map Slot.taskID).Perm
          (st.running.map Slot.taskID) := by
        rw [← List.map_append]
        exact (List.filter_append_perm _ st.running).map Slot.taskID
      refine (hparts.symm.append_right (st.finished.map Prod.fst)).trans ?_
      rw [List.append_assoc]
      refine (List.perm_append_comm).trans ?_
      rw [List.append_assoc]
    case readyDeps =>
      intro x hx d hd
      rw [hfinKeys]
      rcases (hP7 x).mp hx with h | ⟨sl, hsl, hfin, hdep, hall⟩
      · exact List.mem_append.mpr (Or.inl (hinv.readyDeps x h d hd))
      · rcases hall d hd with h2 | h2
        · exact List.mem_append.mpr (Or.inl h2)
        · exact List.mem_append.mpr (Or.inr ((hBK d).mpr h2))
    case startDeps =>
      intro p hp d hd
      rw [hP3] at hp
      rw [hP2]
      obtain ⟨f, hf, hle⟩ := hinv.startDeps p hp d hd
      exact ⟨f, List.mem_append.mpr (Or.inl hf), hle⟩
    case startLe =>
      intro p hp
      rw [hP3] at hp
      rw [hP6]
      obtain ⟨h0, hle⟩ := hinv.startLe p hp
      exact ⟨h0, le_trans hle (le_of_lt hct)⟩
    case slotTime =>
      intro sl hsl
      rw [hP1] at hsl
      rw [hP3, hP6]
      rcases List.mem_filter.mp hsl with ⟨hm, hne⟩
      obtain ⟨s, hs, heq, _⟩ := hinv.slotTime sl hm
      refine ⟨s, hs, heq, ?_⟩
      have hT := hTub sl hm
      have hne2 : ¬ sl.finishTime = T := by
        intro hc
        rw [hc] at hne
        simp at hne
      omega
    case finTime =>
      intro p hp
      rw [hP2] at hp
      rw [hP3, hP6]
      rcases List.mem_append.mp hp with h | h
      · obtain ⟨s, hs, heq, hle⟩ := hinv.finTime p h
        exact ⟨s, hs, heq, le_trans hle (le_of_lt hct)⟩
      · rcases List.mem_map.mp h with ⟨sl, hslf, hsp⟩
        rcases List.mem_filter.mp hslf with ⟨hm, hdT⟩
        obtain ⟨s, hs, heq, _⟩ := hinv.slotTime sl hm
        refine ⟨s, ?_, ?_, ?_⟩
        · rw [← hsp]
          exact hs
        · rw [← hsp]
          have hfT : sl.finishTime = T := of_decide_eq_true hdT
          simp only []
          omega
        · rw [← hsp]
    case pendingBlocked =>
      intro x hx h1x h2x h3x
      rw [hP1] at h2x
      rw [hfinKeys] at h3x
      by_contra hcon
      push_neg at hcon
      have hcon2 : ∀ d ∈ (j.findD x).dependencies,
          d ∈ st.finished.map Prod.fst ∨
            ∃ sl2 ∈ st.running, sl2.finishTime = T ∧ sl2.taskID = d := by
        intro d hd
        have := hcon d hd
        rw [hfinKeys] at this
        rcases List.mem_append.mp this with h | h
        · exact Or.inl h
        · exact Or.inr ((hBK d).mp h)
      have hxr : x ∉ st.ready := by
        intro hc
        exact h1x ((hP7 x).mpr (Or.inl hc))
      have hxrun : x ∉ st.running.map Slot.taskID := by
        intro hc
        rcases List.mem_map.mp hc with ⟨sl, hsl, hid⟩
        by_cases hfT : sl.finishTime = T
        · refine h3x (List.mem_append.mpr (Or.inr ?_))
          exact (hBK x).mpr ⟨sl, hsl, hfT, hid⟩
        · refine h2x ?_
          exact List.mem_map.mpr ⟨sl, List.mem_filter.mpr ⟨hsl, by
            rw [Bool.not_eq_true']
            exact decide_eq_false hfT⟩, hid⟩
      have hxfin : x ∉ st.finished.map Prod.fst := by
        intro hc
        exact h3x (List.mem_append.mpr (Or.inl hc))
      obtain ⟨d, hd, hdnf⟩ := hinv.pendingBlocked x hx hxr hxrun hxfin
      rcases hcon2 d hd with h | ⟨sl2, hsl2, hfin2, hid2⟩
      · exact hdnf h
      · refine h1x ((hP7 x).mpr (Or.inr ⟨sl2, hsl2, hfin2, ?_, hcon2⟩))
        rw [hid2]
        exact hd
    case timeNonneg =>
      rw [hP6]
      have := hinv.timeNonneg
      omega
    case runCap =>
      rw [hP1]
      have hlen : ((st.running.filter (fun sl => !decide (sl.finishTime = T))).length : Int)
          ≤ (st.running.length : Int) := by
        have := List.length_filter_le (fun sl => !decide (sl.finishTime = T)) st.running
        omega
      exact le_trans hlen hinv.runCap
    case timeIsFinish =>
      rw [hP2, hP6]
      obtain ⟨sl, hsl, hfT⟩ := hTmem
      refine Or.inr ⟨(sl.taskID, T), List.mem_append.mpr (Or.inr ?_), rfl⟩
      exact List.mem_map.mpr ⟨sl, List.mem_filter.mpr ⟨hsl, decide_eq_true hfT⟩, rfl⟩
  · have hP2' : pr.2.finished = st.finished ++
        (st.running.filter (fun sl => decide (sl.finishTime = T))).map
          (fun sl => (sl.taskID, T)) := hP2
    rw [hP2', List.length_append]
    obtain ⟨sl, hsl, hfT⟩ := hTmem
    have hmem : sl ∈ st.running.filter (fun sl => decide (sl.finishTime = T)) :=
      List.mem_filter.mpr ⟨hsl, decide_eq_true hfT⟩
    have hpos : 0 < (st.running.filter (fun sl => decide (sl.finishTime = T))).length :=
      List.length_pos.mpr (fun hc => by rw [hc] at hmem; cases hmem)
    rw [List.length_map]
    omega


theorem simBody_break (j : Job) (w : Int) (st : SimState)
    (h : (dispatchLoop j w (sortStrings st.ready) st).running = []) :
    simBody j w st = (dispatchLoop j w (sortStrings st.ready) st, true) := by
  unfold simBody
  simp only [h]

theorem simBody_step (j : Job) (w : Int) (st : SimState) (s0 : Slot) (rest : List Slot)
    (h : (dispatchLoop j w (sortStrings st.ready) st).running = s0 :: rest) :
    simBody j w st =
      ({ (completeSlots j (s0 :: rest) []
            { dispatchLoop j w (sortStrings st.ready) st with
              currentTime := minFinishTime s0 rest, running := [] }).2 with
          running := (completeSlots j (s0 :: rest) []
            { dispatchLoop j w (sortStrings st.ready) st with
              currentTime := minFinishTime s0 rest, running := [] }).1 }, false) := by
  unfold simBody
  simp only [h]

theorem simInv_body (j : Job) (w : Int) (hWF : j.WellFormed) (hw : 1 ≤ w)
    (st : SimState) (hinv : SimInv j w st) :
    SimInv j w (simBody j w st).1 ∧
    st.currentTime ≤ (simBody j w st).1.currentTime ∧
    ((simBody j w st).2 = true →
      (simBody j w st).1.ready = [] ∧ (simBody j w st).1.running = []) ∧
    ((simBody j w st).2 = false →
      st.finished.length < (simBody j w st).1.finished.length) := by
  obtain ⟨hinv1, hfin1, htime1, hbreak1⟩ := simInv_dispatch j w hWF hw st hinv
  cases hru : (dispatchLoop j w (sortStrings st.ready) st).running with
  | nil =>
    rw [simBody_break j w st hru]
    refine ⟨hinv1, le_of_eq htime1.symm, fun _ => ⟨hbreak1 hru, hru⟩, fun hc => by cases hc⟩
  | cons s0 rest =>
    rw [simBody_step j w st s0 rest hru]
    have hTub : ∀ sl ∈ (dispatchLoop j w (sortStrings st.ready) st).running,
        minFinishTime s0 rest ≤ sl.finishTime := by
      rw [hru]
      intro sl hsl
      unfold minFinishTime
      rcases List.mem_cons.mp hsl with h | h
      · rw [h]
        exact foldl_min_le_init (fun sl => sl.finishTime) rest s0.finishTime
      · exact foldl_min_le_mem (fun sl => sl.finishTime) rest s0.finishTime sl h
    have hTmem : ∃ sl ∈ (dispatchLoop j w (sortStrings st.ready) st).running,
        sl.finishTime = minFinishTime s0 rest := by
      rw [hru]
      unfold minFinishTime
      rcases foldl_min_attained (fun sl => sl.finishTime) rest s0.finishTime with h | ⟨x, hx, hfx⟩
      · exact ⟨s0, List.mem_cons_self s0 rest, h.symm⟩
      · exact ⟨x, List.mem_cons_of_mem s0 hx, hfx.symm⟩
    obtain ⟨hinv2, hprog, hT6, hct⟩ := simInv_complete j w hWF
      (dispatchLoop j w (sortStrings st.ready) st) hinv1 (minFinishTime s0 rest)
      hTub hTmem
      (completeSlots j (s0 :: rest) []
        { dispatchLoop j w (sortStrings st.ready) st with
          currentTime := minFinishTime s0 rest, running := [] })
      (by rw [hru])
    refine ⟨hinv2, ?_, fun hc => Bool.noConfusion hc, fun _ => ?_⟩
    · have : ({ (completeSlots j (s0 :: rest) []
            { dispatchLoop j w (sortStrings st.ready) st with
              currentTime := minFinishTime s0 rest, running := [] }).2 with
          running := (completeSlots j (s0 :: rest) []
            { dispatchLoop j w (sortStrings st.ready) st with
              currentTime := minFinishTime s0 rest, running := [] }).1 } :
          SimState).currentTime = minFinishTime s0 rest := hT6
      rw [this]
      rw [← htime1]
      exact le_of_lt hct
    · have hfe : ({ (completeSlots j (s0 :: rest) []
            { dispatchLoop j w (sortStrings st.ready) st with
              currentTime := minFinishTime s0 rest, running := [] }).2 with
          running := (completeSlots j (s0 :: rest) []
            { dispatchLoop j w (sortStrings st.ready) st with
              currentTime := minFinishTime s0 rest, running := [] }).1 } :
          SimState).finished = (completeSlots j (s0 :: rest) []
            { dispatchLoop j w (sortStrings st.ready) st with
              currentTime := minFinishTime s0 rest, running := [] }).2.finished := rfl
    
      rw [hfe]
      rw [← hfin1]
      exact hprog


theorem simLoop_succ (j : Job) (w : Int) (fuel : Nat) (st : SimState) :
    simLoop j w (fuel + 1) st =
      if (simBody j w st).2 then (simBody j w st).1
      else simLoop j w fuel (simBody j w st).1 := rfl

theorem simLoop_final (j : Job) (w : Int) (hWF : j.WellFormed) (hw : 1 ≤ w) :
    ∀ (fuel : Nat) (st : SimState), SimInv j w st →
      j.taskCount - st.finished.length < fuel →
      SimInv j w (simLoop j w fuel st) ∧
      (simLoop j w fuel st).ready = [] ∧ (simLoop j w fuel st).running = [] := by
  intro fuel
  induction fuel with
  | zero =>
    intro st _ hfuel
    exact absurd hfuel (Nat.not_lt_zero _)
  | succ k ih =>
    intro st hinv hfuel
    obtain ⟨hinvB, htimeB, hbrk, hprog⟩ := simInv_body j w hWF hw st hinv
    rw [simLoop_succ]
    by_cases hb2 : (simBody j w st).2 = true
    · rw [if_pos hb2]
      obtain ⟨hre, hru⟩ := hbrk hb2
      exact ⟨hinvB, hre, hru⟩
    · rw [if_neg hb2]
      have hfalse : (simBody j w st).2 = false := Bool.eq_false_iff.mpr hb2
      have hgrow := hprog hfalse
      have hle : (simBody j w st).1.finished.length ≤ j.taskCount := by
        have h1 : ((simBody j w st).1.finished.map Prod.fst).Nodup := hinvB.finNd
        have h2 : ∀ x ∈ (simBody j w st).1.finished.map Prod.fst, x ∈ taskIds j := by
          intro x hx
          rcases List.mem_map.mp hx with ⟨p, hp, hpx⟩
          rw [← hpx]
          exact hinvB.finSub p hp
        have h3 := nodup_subset_length_le h1 h2
        rw [List.length_map, taskIds_length] at h3
        exact h3
      exact ih (simBody j w st).1 hinvB (by omega)

theorem simLoop_all_finished (j : Job) (hWF : j.WellFormed) (hA : Acyclic j)
    (w : Int) (st : SimState) (hinv : SimInv j w st)
    (hre : st.ready = []) (hru : st.running = []) :
    ∀ x ∈ taskIds j, x ∈ st.finished.map Prod.fst := by
  by_contra hcon
  push_neg at hcon
  obtain ⟨x0, hx0, hx0f⟩ := hcon
  have hx0S : x0 ∈ (taskIds j).filter
      (fun x => !decide (x ∈ st.finished.map Prod.fst)) := by
    refine List.mem_filter.mpr ⟨hx0, ?_⟩
    rw [Bool.not_eq_true']
    exact decide_eq_false hx0f
  have hSne : (taskIds j).filter (fun x => !decide (x ∈ st.finished.map Prod.fst)) ≠ [] :=
    fun hc => by rw [hc] at hx0S; cases hx0S
  have hstep : ∀ x ∈ (taskIds j).filter
      (fun x => !decide (x ∈ st.finished.map Prod.fst)),
      ∃ y ∈ (taskIds j).filter (fun x => !decide (x ∈ st.finished.map Prod.fst)),
        DependsOn j x y := by
    intro x hx
    rcases List.mem_filter.mp hx with ⟨hxt, hxb⟩
    have hxf : x ∉ st.finished.map Prod.fst := by
      rw [Bool.not_eq_true'] at hxb
      exact of_decide_eq_false hxb
    have hxr : x ∉ st.ready := by rw [hre]; exact List.not_mem_nil x
    have hxrun : x ∉ st.running.map Slot.taskID := by
      rw [hru]
      exact List.not_mem_nil x
    obtain ⟨d, hd, hdf⟩ := hinv.pendingBlocked x hxt hxr hxrun hxf
    refine ⟨d, List.mem_filter.mpr ⟨WellFormed_deps_mem hWF hxt d hd, ?_⟩, ?_⟩
    · rw [Bool.not_eq_true']
      exact decide_eq_false hdf
    · exact ⟨j.findD x, find?_eq_some_findD hxt, hd⟩
  obtain ⟨z, hz⟩ := cycle_of_descent j _ hSne hstep
  exact hA z hz


theorem sim_lower_bound (j : Job) {order : List String} {ind2 : String → Int}
    (hWF : j.WellFormed) (hf : CpmFacts j order)
    (hkinv : KahnInv j [] ind2 order)
    (S F : String → Int)
    (hS0 : ∀ x ∈ taskIds j, 0 ≤ S x)
    (hF : ∀ x ∈ taskIds j, F x = S x + (j.findD x).duration)
    (hdep : ∀ x ∈ taskIds j, ∀ d ∈ (j.findD x).dependencies, F d ≤ S x) :
    ∀ x ∈ taskIds j, lookup0 (forwardPass j order).1 x ≤ S x ∧
      lookup0 (forwardPass j order).2 x ≤ F x := by
  have hcover : ∀ x ∈ taskIds j, x ∈ order := fun x hx => hf.perm.mem_iff.mpr hx
  have main : ∀ n : Nat, ∀ x ∈ taskIds j, order.indexOf x = n →
      lookup0 (forwardPass j order).1 x ≤ S x ∧
        lookup0 (forwardPass j order).2 x ≤ F x := by
    intro n
    induction n using Nat.strong_induction_on with
    | _ n ih =>
      intro x hx hidx
      have hxo : x ∈ order := hcover x hx
      have hestle : lookup0 (forwardPass j order).1 x ≤ S x := by
        rw [hf.est_eq x hxo]
        by_cases hdeps : (j.findD x).hasDependencies
        · rw [if_pos hdeps]
          apply foldl_max_le
          · exact hS0 x hx
          · intro d hd
            have hdept : d ∈ taskIds j := WellFormed_deps_mem hWF hx d hd
            have hDO : DependsOn j x d := ⟨j.findD x, find?_eq_some_findD hx, hd⟩
            have hlt : order.indexOf d < n := hidx ▸ edge_rank hkinv hcover hDO
            have ihd := ih (order.indexOf d) hlt d hdept rfl
            exact le_trans ihd.2 (hdep x hx d hd)
        · rw [if_neg hdeps]
          exact hS0 x hx
      refine ⟨hestle, ?_⟩
      rw [hf.eft_eq x hxo, hF x hx]
      omega
  intro x hx
  exact main (order.indexOf x) x hx rfl

theorem simFinal_facts (j : Job) (w : Int) (hWF : j.WellFormed) (hA : Acyclic j)
    (hw : 1 ≤ w) :
    SimInv j w (simLoop j w (j.taskCount + 1) (initState j)) ∧
    (simLoop j w (j.taskCount + 1) (initState j)).ready = [] ∧
    (simLoop j w (j.taskCount + 1) (initState j)).running = [] ∧
    ∀ x ∈ taskIds j, x ∈ (simLoop j w (j.taskCount + 1) (initState j)).finished.map
      Prod.fst := by
  have hinv0 := simInv_init j w hWF hw
  have hfl : j.taskCount - (initState j).finished.length < j.taskCount + 1 := by
    have : (initState j).finished = [] := rfl
    rw [this]
    simp
  obtain ⟨hinvF, hre, hru⟩ := simLoop_final j w hWF hw (j.taskCount + 1) (initState j)
    hinv0 hfl
  exact ⟨hinvF, hre, hru, simLoop_all_finished j hWF hA w _ hinvF hre hru⟩

theorem scheduleLimited_run (j : Job) (w : Int) (hWF : j.WellFormed) (hA : Acyclic j) :
    scheduleLimited j w = Except.ok
      { jobName := j.name, workers := w,
        minCompletionTime := (simLoop j w (j.taskCount + 1) (initState j)).currentTime,
        taskSchedules := buildLimitedSchedules
          (simLoop j w (j.taskCount + 1) (initState j)).startTime
          (simLoop j w (j.taskCount + 1) (initState j)).finished,
        executionOrder := (buildLimitedSchedules
          (simLoop j w (j.taskCount + 1) (initState j)).startTime
          (simLoop j w (j.taskCount + 1) (initState j)).finished).map
            (fun ts => ts.taskID),
        criticalPath := none } := by
  obtain ⟨order, hok, _, _⟩ := topologicalOrder_ok_spec j hWF hA
  unfold scheduleLimited
  rw [hok]


/-- C3 (amended): increasing the worker count can increase the reported
completion time (list-scheduling anomaly), so the monotonicity half of the
claim is false; what holds is the lower bound: whenever Schedule succeeds
on a valid DAG job, the reported completion time is at least the
unconstrained (CPM) minimum completion time. -/
theorem c3_completion_at_least_cpm_minimum (j : Job) (w : Int)
    (enum : List (String × Int)) (r : ScheduleResult)
    (hv : j.Valid) (hok : Schedule j w enum = Outcome.ok r) :
    maxEft (cpmEft j) ≤ r.minCompletionTime := by
  obtain ⟨hne, hWF, hA⟩ := hv
  obtain ⟨order, htopo, hperm, ind2, hkinv⟩ := topologicalOrder_ok_spec j hWF hA
  obtain ⟨order2, hf0⟩ := cpmFacts_exists j hWF hA
  have hoeq : order2 = order := Except.ok.inj (hf0.topo_ok.symm.trans htopo)
  have hf : CpmFacts j order := hoeq ▸ hf0
  have hcpm : cpmEft j = (forwardPass j order).2 := by
    unfold cpmEft
    rw [htopo]
  rw [hcpm]
  unfold Schedule at hok
  by_cases hw0 : w ≤ 0
  · rw [if_pos hw0] at hok
    cases hok
  rw [if_neg hw0] at hok
  by_cases hwn : w ≥ (j.taskCount : Int)
  · rw [if_pos hwn] at hok
    unfold scheduleUnlimited at hok
    rw [htopo] at hok
    simp only [] at hok
    cases hcpc : findCriticalPath j (forwardPass j order).1 (forwardPass j order).2 enum
        (maxEft (forwardPass j order).2) with
    | none =>
      rw [hcpc] at hok
      cases hok
    | some cp =>
      rw [hcpc] at hok
      injection hok with h
      rw [← h]
  · rw [if_neg hwn] at hok
    rw [scheduleLimited_run j w hWF hA] at hok
    simp only [] at hok
    injection hok with h
    rw [← h]
    have hw1 : 1 ≤ w := by omega
    obtain ⟨hinvF, hre, hru, hall⟩ := simFinal_facts j w hWF hA hw1
    have hSNd : ((simLoop j w (j.taskCount + 1) (initState j)).startTime.map Prod.fst).Nodup := by
      have hp := hinvF.startKeys
      rw [hru, List.map_nil, List.nil_append] at hp
      exact hp.nodup_iff.mpr hinvF.finNd
    have hSK : ∀ x ∈ taskIds j, x ∈ (simLoop j w (j.taskCount + 1) (initState j)).startTime.map Prod.fst := by
      intro x hx
      have hp := hinvF.startKeys
      rw [hru, List.map_nil, List.nil_append] at hp
      exact hp.mem_iff.mpr (hall x hx)
    have hSentry : ∀ x ∈ taskIds j,
        (x, lookup0 (simLoop j w (j.taskCount + 1) (initState j)).startTime x) ∈ (simLoop j w (j.taskCount + 1) (initState j)).startTime :=
      fun x hx => mem_entry_of_key (hSK x hx)
    have hFentry : ∀ x ∈ taskIds j,
        (x, lookup0 (simLoop j w (j.taskCount + 1) (initState j)).finished x) ∈ (simLoop j w (j.taskCount + 1) (initState j)).finished :=
      fun x hx => mem_entry_of_key (hall x hx)
    have hS0 : ∀ x ∈ taskIds j, 0 ≤ lookup0 (simLoop j w (j.taskCount + 1) (initState j)).startTime x :=
      fun x hx => (hinvF.startLe _ (hSentry x hx)).1
    have hFeq : ∀ x ∈ taskIds j, lookup0 (simLoop j w (j.taskCount + 1) (initState j)).finished x =
        lookup0 (simLoop j w (j.taskCount + 1) (initState j)).startTime x + (j.findD x).duration := by
      intro x hx
      obtain ⟨s, hsE, he, _⟩ := hinvF.finTime _ (hFentry x hx)
      have hsv : lookup0 (simLoop j w (j.taskCount + 1) (initState j)).startTime x = s := lookup0_of_mem_nodup hSNd hsE
      rw [hsv]
      exact he
    have hdep : ∀ x ∈ taskIds j, ∀ d ∈ (j.findD x).dependencies,
        lookup0 (simLoop j w (j.taskCount + 1) (initState j)).finished d ≤ lookup0 (simLoop j w (j.taskCount + 1) (initState j)).startTime x := by
      intro x hx d hd
      obtain ⟨f, hfE, hle⟩ := hinvF.startDeps _ (hSentry x hx) d hd
      have hFd : lookup0 (simLoop j w (j.taskCount + 1) (initState j)).finished d = f :=
        lookup0_of_mem_nodup hinvF.finNd hfE
      rw [hFd]
      exact hle
    have hLB := sim_lower_bound j hWF hf hkinv
      (fun x => lookup0 (simLoop j w (j.taskCount + 1) (initState j)).startTime x)
      (fun x => lookup0 (simLoop j w (j.taskCount + 1) (initState j)).finished x) hS0 hFeq hdep
    show maxEft (forwardPass j order).2 ≤ (simLoop j w (j.taskCount + 1) (initState j)).currentTime
    unfold maxEft
    apply foldl_max_le
    · exact hinvF.timeNonneg
    · intro p hp
      have hkey : p.1 ∈ order := by
        rw [← hf.keysF]
        exact List.mem_map.mpr ⟨p, hp, rfl⟩
      have hxt : p.1 ∈ taskIds j := hf.perm.mem_iff.mp hkey
      have hpv : lookup0 (forwardPass j order).2 p.1 = p.2 :=
        lookup0_of_mem_nodup (by rw [hf.keysF]; exact hf.nodup) hp
      have h1 : p.2 ≤ lookup0 (simLoop j w (j.taskCount + 1) (initState j)).finished p.1 := by
        rw [← hpv]
        exact (hLB p.1 hxt).2
      have h2 : lookup0 (simLoop j w (j.taskCount + 1) (initState j)).finished p.1 ≤ (simLoop j w (j.taskCount + 1) (initState j)).currentTime := by
        obtain ⟨s, _, _, hle⟩ := hinvF.finTime _ (hFentry p.1 hxt)
        exact hle
      exact le_trans h1 h2


/-- C3 (counterexample): the worker-monotonicity half of the claim is false
at an explicit input: on the anomaly job, two workers complete in 10 while
three workers complete in 11, so more workers report a strictly larger
completion time. -/
theorem c3_counterexample_more_workers_slower :
    ¬ (∀ (j : Job) (w1 w2 : Int) (e1 e2 : List (String × Int))
        (r1 r2 : ScheduleResult), j.Valid → 1 ≤ w1 → w1 < w2 →
        Schedule j w1 e1 = Outcome.ok r1 → Schedule j w2 e2 = Outcome.ok r2 →
        r2.minCompletionTime ≤ r1.minCompletionTime) := by
  intro hcl
  have hv3 : job3.Valid :=
    ⟨by decide, by decide,
      acyclic_of_topo_ok (by decide)
        (show topologicalOrder job3 =
          Except.ok ["a", "b", "g", "t", "u", "v", "w", "x"] by decide)⟩
  have h2 : Schedule job3 2 [] = Outcome.ok
      { jobName := "G", workers := 2, minCompletionTime := 10,
        taskSchedules := [⟨"a", 0, 1⟩, ⟨"u", 0, 1⟩, ⟨"b", 1, 2⟩, ⟨"v", 1, 2⟩,
          ⟨"g", 2, 5⟩, ⟨"t", 2, 10⟩, ⟨"w", 5, 7⟩, ⟨"x", 7, 10⟩],
        executionOrder := ["a", "u", "b", "v", "g", "t", "w", "x"],
        criticalPath := none } := by decide
  have h3 : Schedule job3 3 [] = Outcome.ok
      { jobName := "G", workers := 3, minCompletionTime := 11,
        taskSchedules := [⟨"a", 0, 1⟩, ⟨"u", 0, 1⟩, ⟨"v", 0, 1⟩, ⟨"b", 1, 2⟩,
          ⟨"w", 1, 3⟩, ⟨"x", 1, 4⟩, ⟨"g", 2, 5⟩, ⟨"t", 3, 11⟩],
        executionOrder := ["a", "u", "v", "b", "w", "x", "g", "t"],
        criticalPath := none } := by decide
  have hle := hcl job3 2 3 [] [] _ _ hv3 (by decide) (by decide) h2 h3
  exact absurd hle (by decide)

/-- Closed instance of the amended C3 theorem: the six-task job run with two
workers reports completion time 11, which the theorem bounds from below by
the CPM minimum. -/
theorem c3_completion_at_least_cpm_minimum_witness :
    maxEft (cpmEft job1) ≤
      ({ jobName := "J", workers := 2, minCompletionTime := 11,
         taskSchedules := [⟨"A", 0, 3⟩, ⟨"B", 0, 2⟩, ⟨"C", 2, 6⟩, ⟨"D", 3, 8⟩,
           ⟨"E", 6, 8⟩, ⟨"F", 8, 11⟩],
         executionOrder := ["A", "B", "C", "D", "E", "F"],
         criticalPath := none } : ScheduleResult).minCompletionTime :=
  c3_completion_at_least_cpm_minimum job1 2 [] _
    ⟨by decide, by decide,
      acyclic_of_topo_ok (by decide)
        (show topologicalOrder job1 =
          Except.ok ["A", "B", "C", "D", "E", "F"] by decide)⟩
    (by decide)


/-- C9: in the worker-constrained simulation on a valid DAG job with
1 <= workers < taskCount, the produced schedule respects every dependency
edge (each task's recorded start is at least each dependency's recorded
finish) and the number of occupied worker slots never exceeds the worker
count, at every iteration boundary of the event loop and inside each
iteration after its dispatch phase. -/
theorem c9_dependencies_respected_and_capacity (j : Job) (w : Int) (hv : j.Valid)
    (hw1 : 1 ≤ w) (hwn : w < (j.taskCount : Int)) :
    (∃ r, scheduleLimited j w = Except.ok r ∧
      ∀ ts ∈ r.taskSchedules, ∀ d ∈ (j.findD ts.taskID).dependencies,
        ∃ ts2 ∈ r.taskSchedules, ts2.taskID = d ∧
          ts2.earliestFinish ≤ ts.earliestStart) ∧
    (∀ k : Nat, ((simIter j w k).running.length : Int) ≤ w ∧
      ((dispatchLoop j w (sortStrings (simIter j w k).ready)
        (simIter j w k)).running.length : Int) ≤ w) := by
  obtain ⟨hne, hWF, hA⟩ := hv
  refine ⟨⟨_, scheduleLimited_run j w hWF hA, ?_⟩, ?_⟩
  · obtain ⟨hinvF, hre, hru, hall⟩ := simFinal_facts j w hWF hA hw1
    have hSKfin : ∀ y, y ∈ (simLoop j w (j.taskCount + 1) (initState j)).startTime.map Prod.fst ↔
        y ∈ (simLoop j w (j.taskCount + 1) (initState j)).finished.map Prod.fst := by
      intro y
      have hp := hinvF.startKeys
      rw [hru, List.map_nil, List.nil_append] at hp
      exact hp.mem_iff
    have hSNd : ((simLoop j w (j.taskCount + 1) (initState j)).startTime.map Prod.fst).Nodup := by
      have hp := hinvF.startKeys
      rw [hru, List.map_nil, List.nil_append] at hp
      exact hp.nodup_iff.mpr hinvF.finNd
    intro ts hts d hd
    have hsort := List.perm_insertionSort schedLe
      ((simLoop j w (j.taskCount + 1) (initState j)).startTime.map (fun p => TaskSchedule.mk p.1 p.2 (lookup0 (simLoop j w (j.taskCount + 1) (initState j)).finished p.1)))
    have hts2 : ts ∈ (simLoop j w (j.taskCount + 1) (initState j)).startTime.map
        (fun p => TaskSchedule.mk p.1 p.2 (lookup0 (simLoop j w (j.taskCount + 1) (initState j)).finished p.1)) := by
      unfold buildLimitedSchedules at hts
      exact hsort.mem_iff.mp hts
    rcases List.mem_map.mp hts2 with ⟨p, hp, hpe⟩
    have htsid : ts.taskID = p.1 := by rw [← hpe]
    have htsst : ts.earliestStart = p.2 := by rw [← hpe]
    rw [htsid] at hd
    have hp1 : p.1 ∈ taskIds j := by
      have hk : p.1 ∈ (simLoop j w (j.taskCount + 1) (initState j)).startTime.map Prod.fst := List.mem_map.mpr ⟨p, hp, rfl⟩
      rcases List.mem_map.mp ((hSKfin p.1).mp hk) with ⟨q, hq, hq1⟩
      rw [← hq1]
      exact hinvF.finSub q hq
    obtain ⟨f, hfE, hle⟩ := hinvF.startDeps p hp d hd
    have hdT : d ∈ taskIds j := WellFormed_deps_mem hWF hp1 d hd
    have hdSK : d ∈ (simLoop j w (j.taskCount + 1) (initState j)).startTime.map Prod.fst := (hSKfin d).mpr (hall d hdT)
    have hdq : (d, lookup0 (simLoop j w (j.taskCount + 1) (initState j)).startTime d) ∈ (simLoop j w (j.taskCount + 1) (initState j)).startTime := mem_entry_of_key hdSK
    refine ⟨TaskSchedule.mk d (lookup0 (simLoop j w (j.taskCount + 1) (initState j)).startTime d) (lookup0 (simLoop j w (j.taskCount + 1) (initState j)).finished d), ?_, rfl, ?_⟩
    · unfold buildLimitedSchedules
      refine hsort.mem_iff.mpr ?_
      exact List.mem_map.mpr ⟨(d, lookup0 (simLoop j w (j.taskCount + 1) (initState j)).startTime d), hdq, rfl⟩
    · have hfd : lookup0 (simLoop j w (j.taskCount + 1) (initState j)).finished d = f := lookup0_of_mem_nodup hinvF.finNd hfE
      rw [htsst]
      show lookup0 (simLoop j w (j.taskCount + 1) (initState j)).finished d ≤ p.2
      rw [hfd]
      exact hle
  · intro k
    have hinvK : SimInv j w (simIter j w k) := by
      induction k with
      | zero => exact simInv_init j w hWF hw1
      | succ m ihm => exact (simInv_body j w hWF hw1 _ ihm).1
    exact ⟨hinvK.runCap, ((simInv_dispatch j w hWF hw1 _ hinvK).1).runCap⟩

/-- Closed instance of the C9 theorem: the six-task job with two workers. -/
theorem c9_dependencies_respected_and_capacity_witness :
    (∃ r, scheduleLimited job1 2 = Except.ok r ∧
      ∀ ts ∈ r.taskSchedules, ∀ d ∈ (job1.findD ts.taskID).dependencies,
        ∃ ts2 ∈ r.taskSchedules, ts2.taskID = d ∧
          ts2.earliestFinish ≤ ts.earliestStart) ∧
    (∀ k : Nat, ((simIter job1 2 k).running.length : Int) ≤ 2 ∧
      ((dispatchLoop job1 2 (sortStrings (simIter job1 2 k).ready)
        (simIter job1 2 k)).running.length : Int) ≤ 2) :=
  c9_dependencies_respected_and_capacity job1 2
    ⟨by decide, by decide,
      acyclic_of_topo_ok (by decide)
        (show topologicalOrder job1 =
          Except.ok ["A", "B", "C", "D", "E", "F"] by decide)⟩
    (by decide) (by decide)


theorem simInv_startNd {j : Job} {w : Int} {st : SimState} (hinv : SimInv j w st) :
    (st.startTime.map Prod.fst).Nodup := by
  refine hinv.startKeys.nodup_iff.mpr ?_
  rw [List.nodup_append]
  exact ⟨hinv.runNd, hinv.finNd, fun a ha => hinv.dNF a ha⟩

/-- The strengthened event-loop invariant that holds when the worker count
is at least the task count: every recorded start equals the CPM earliest
start, and every ready task's CPM earliest start is exactly the clock
(capacity never binds, so tasks are dispatched the moment they wake). -/
structure SimInvN (j : Job) (w : Int) (order : List String) (st : SimState) : Prop where
  base : SimInv j w st
  startEst : ∀ p ∈ st.startTime, p.2 = lookup0 (forwardPass j order).1 p.1
  readyEst : ∀ x ∈ st.ready, lookup0 (forwardPass j order).1 x = st.currentTime

theorem simInvN_finEft {j : Job} {w : Int} {order : List String} {st : SimState}
    (hf : CpmFacts j order) (hinvN : SimInvN j w order st) :
    ∀ p ∈ st.finished, p.2 = lookup0 (forwardPass j order).2 p.1 := by
  intro p hp
  obtain ⟨s, hsE, he, _⟩ := hinvN.base.finTime p hp
  have hso : p.1 ∈ order := hf.perm.mem_iff.mpr (hinvN.base.finSub p hp)
  have hsv : s = lookup0 (forwardPass j order).1 p.1 := hinvN.startEst (p.1, s) hsE
  rw [hf.eft_eq p.1 hso, ← hsv]
  exact he

theorem simInvN_slotEft {j : Job} {w : Int} {order : List String} {st : SimState}
    (hf : CpmFacts j order) (hinvN : SimInvN j w order st) :
    ∀ sl ∈ st.running, sl.finishTime = lookup0 (forwardPass j order).2 sl.taskID := by
  intro sl hsl
  obtain ⟨s, hsE, he, _⟩ := hinvN.base.slotTime sl hsl
  have hso : sl.taskID ∈ order := hf.perm.mem_iff.mpr (hinvN.base.runSub sl hsl)
  have hsv : s = lookup0 (forwardPass j order).1 sl.taskID := hinvN.startEst (sl.taskID, s) hsE
  rw [hf.eft_eq sl.taskID hso, ← hsv]
  exact he

theorem simInvN_init (j : Job) (w : Int) {order : List String} (hWF : j.WellFormed)
    (hw : 1 ≤ w) (hf : CpmFacts j order) :
    SimInvN j w order (initState j) := by
  have hnd := WellFormed_taskIds_nodup hWF
  refine ⟨simInv_init j w hWF hw, ?_, ?_⟩
  · intro p hp
    cases hp
  · intro x hx
    obtain ⟨hxt, hdeps⟩ := (initState_ready_iff hnd).mp hx
    have hxo : x ∈ order := hf.perm.mem_iff.mpr hxt
    rw [hf.est_eq x hxo]
    have hnodep : (j.findD x).hasDependencies = false := by
      unfold Task.hasDependencies
      rw [hdeps]
      rfl
    rw [hnodep]
    rfl


theorem simInvN_dispatch (j : Job) (w : Int) {order : List String} (hWF : j.WellFormed)
    (hw : 1 ≤ w) (hwn : (j.taskCount : Int) ≤ w) (hf : CpmFacts j order)
    (st : SimState) (hinv : SimInvN j w order st) :
    SimInvN j w order (dispatchLoop j w (sortStrings st.ready) st) ∧
    (dispatchLoop j w (sortStrings st.ready) st).ready = [] ∧
    (dispatchLoop j w (sortStrings st.ready) st).finished = st.finished ∧
    (dispatchLoop j w (sortStrings st.ready) st).currentTime = st.currentTime := by
  obtain ⟨hbase, hfinE, htimeE, _⟩ := simInv_dispatch j w hWF hw st hinv.base
  obtain ⟨D, R, hsplit, hready, hrun, hfin, hstart, hexec, htime, hcapR, hcapD⟩ :=
    dispatchLoop_spec j w (sortStrings st.ready) st
  have hsnd : (sortStrings st.ready).Nodup := sortStrings_nodup hinv.base.readyNd
  have hsnd2 : (D ++ R).Nodup := hsplit ▸ hsnd
  have hDsub : ∀ x ∈ D, x ∈ st.ready := fun x hx =>
    mem_sortStrings.mp (by rw [hsplit]; exact List.mem_append.mpr (Or.inl hx))
  have hRsub : ∀ x ∈ R, x ∈ st.ready := fun x hx =>
    mem_sortStrings.mp (by rw [hsplit]; exact List.mem_append.mpr (Or.inr hx))
  have hR0 : R = [] := by
    rcases hcapR with h | h
    · exact h
    · by_contra hR
      obtain ⟨r0, hr0⟩ := List.exists_mem_of_ne_nil R hR
      have hnd : (st.running.map Slot.taskID ++ D).Nodup := by
        rw [List.nodup_append]
        refine ⟨hinv.base.runNd, (List.nodup_append.mp hsnd2).1, ?_⟩
        intro a ha haD
        exact hinv.base.dRR a (hDsub a haD) ha
      have hsub : ∀ x ∈ st.running.map Slot.taskID ++ D, x ∈ taskIds j := by
        intro x hx
        rcases List.mem_append.mp hx with h2 | h2
        · rcases List.mem_map.mp h2 with ⟨sl, hsl, hid⟩
          rw [← hid]
          exact hinv.base.runSub sl hsl
        · exact hinv.base.readySub x (hDsub x h2)
      have hlen2 : (taskIds j).length ≤ (st.running.map Slot.taskID ++ D).length := by
        rw [taskIds_length, List.length_append, List.length_map]
        have hn := nodup_subset_length_le hnd hsub
        rw [List.length_append, List.length_map, taskIds_length] at hn
        omega
      have hcover := cover_of_subset_length hnd hsub hlen2
      have hr0t : r0 ∈ taskIds j := hinv.base.readySub r0 (hRsub r0 hr0)
      rcases List.mem_append.mp (hcover r0 hr0t) with h2 | h2
      · exact hinv.base.dRR r0 (hRsub r0 hr0) h2
      · have hdisj := (List.nodup_append.mp hsnd2).2.2
        exact hdisj h2 hr0
  have hDall : ∀ y ∈ st.ready, y ∈ D := by
    intro y hy
    have : y ∈ sortStrings st.ready := mem_sortStrings.mpr hy
    rw [hsplit, hR0, List.append_nil] at this
    exact this
  have hready0 : (dispatchLoop j w (sortStrings st.ready) st).ready = [] := by
    rw [List.eq_nil_iff_forall_not_mem]
    intro y hy
    rw [hready] at hy
    obtain ⟨hy1, hy2⟩ := (mem_foldl_erase D st.ready hinv.base.readyNd).mp hy
    exact hy2 (hDall y hy1)
  refine ⟨⟨hbase, ?_, ?_⟩, hready0, hfinE, htimeE⟩
  · intro p hp
    rw [hstart] at hp
    rcases List.mem_append.mp hp with h | h
    · exact hinv.startEst p h
    · rcases List.mem_map.mp h with ⟨x, hx, hxe⟩
      have hx1 : p.1 = x := by rw [← hxe]
      have hx2 : p.2 = st.currentTime := by rw [← hxe]
      rw [hx1, hx2]
      exact (hinv.readyEst x (hDsub x hx)).symm
  · intro x hx
    rw [hready0] at hx
    cases hx


theorem simInvN_complete (j : Job) (w : Int) {order : List String} (hWF : j.WellFormed)
    (hf : CpmFacts j order) (st : SimState) (hinv : SimInvN j w order st)
    (hready0 : st.ready = [])
    (T : Int)
    (hTub : ∀ sl ∈ st.running, T ≤ sl.finishTime)
    (hTmem : ∃ sl ∈ st.running, sl.finishTime = T) :
    ∀ pr, pr = completeSlots j st.running [] { st with currentTime := T, running := [] } →
    SimInvN j w order { pr.2 with running := pr.1 } := by
  have hnd := WellFormed_taskIds_nodup hWF
  intro pr hpr
  obtain ⟨hbase, _, _, hct⟩ := simInv_complete j w hWF st hinv.base T hTub hTmem pr hpr
  obtain ⟨h1, h2, h3, h4, h5, h6, h7, h8⟩ :=
    completeSlots_spec j hnd st.running [] { st with currentTime := T, running := [] }
  rw [← hpr] at h3 h6 h7
  have hP3 : ({ pr.2 with running := pr.1 } : SimState).startTime = st.startTime := h3
  have hP6 : ({ pr.2 with running := pr.1 } : SimState).currentTime = T := h6
  have hP7 : ∀ x, x ∈ ({ pr.2 with running := pr.1 } : SimState).ready ↔
      x ∈ st.ready ∨ ∃ sl ∈ st.running, sl.finishTime = T ∧
        sl.taskID ∈ (j.findD x).dependencies ∧
        ∀ d ∈ (j.findD x).dependencies,
          (d ∈ st.finished.map Prod.fst ∨
            ∃ sl2 ∈ st.running, sl2.finishTime = T ∧ sl2.taskID = d) := h7
  refine ⟨hbase, ?_, ?_⟩
  · intro p hp
    rw [hP3] at hp
    exact hinv.startEst p hp
  · intro x hx
    rw [hP6]
    rcases (hP7 x).mp hx with h | ⟨sl, hsl, hfT, hdep, hall⟩
    · rw [hready0] at h
      cases h
    · have hxt : x ∈ taskIds j := mem_dependents ((mem_dependents_iff hnd).mpr hdep)
      have hxo : x ∈ order := hf.perm.mem_iff.mpr hxt
      have hdeps : (j.findD x).hasDependencies = true := by
        unfold Task.hasDependencies
        cases hds : (j.findD x).dependencies with
        | nil =>
          rw [hds] at hdep
          cases hdep
        | cons a t => simp [hds]
      rw [hf.est_eq x hxo, if_pos hdeps]
      have hse0 : sl.finishTime = lookup0 (forwardPass j order).2 sl.taskID :=
        simInvN_slotEft hf hinv sl hsl
      refine le_antisymm ?_ ?_
      · apply foldl_max_le
        · have := hinv.base.timeNonneg
          omega
        · intro d hd
          show lookup0 (forwardPass j order).2 d ≤ T
          rcases hall d hd with h2 | ⟨sl2, hsl2, hfT2, hid2⟩
          · have hentry := mem_entry_of_key h2
            have hveq : lookup0 st.finished d = lookup0 (forwardPass j order).2 d :=
              simInvN_finEft hf hinv (d, lookup0 st.finished d) hentry
            have hle2 : lookup0 st.finished d ≤ st.currentTime := by
              obtain ⟨s, _, _, hle⟩ := hinv.base.finTime _ hentry
              exact hle
            rw [← hveq]
            exact le_trans hle2 (le_of_lt hct)
          · have hse2 : sl2.finishTime = lookup0 (forwardPass j order).2 sl2.taskID :=
              simInvN_slotEft hf hinv sl2 hsl2
            rw [← hid2, ← hse2]
            exact le_of_eq hfT2
      · have h10 : lookup0 (forwardPass j order).2 sl.taskID = T := by
          rw [← hse0]
          exact hfT
        rw [← h10]
        exact foldl_max_ge_mem (fun depID => lookup0 (forwardPass j order).2 depID)
          (j.findD x).dependencies 0 sl.taskID hdep


theorem simInvN_body (j : Job) (w : Int) {order : List String} (hWF : j.WellFormed)
    (hw : 1 ≤ w) (hwn : (j.taskCount : Int) ≤ w) (hf : CpmFacts j order)
    (st : SimState) (hinv : SimInvN j w order st) :
    SimInvN j w order (simBody j w st).1 := by
  obtain ⟨hinv1, hready0, hfinE, htimeE⟩ := simInvN_dispatch j w hWF hw hwn hf st hinv
  cases hru : (dispatchLoop j w (sortStrings st.ready) st).running with
  | nil =>
    rw [simBody_break j w st hru]
    exact hinv1
  | cons s0 rest =>
    rw [simBody_step j w st s0 rest hru]
    have hTub : ∀ sl ∈ (dispatchLoop j w (sortStrings st.ready) st).running,
        minFinishTime s0 rest ≤ sl.finishTime := by
      rw [hru]
      intro sl hsl
      unfold minFinishTime
      rcases List.mem_cons.mp hsl with h | h
      · rw [h]
        exact foldl_min_le_init (fun sl => sl.finishTime) rest s0.finishTime
      · exact foldl_min_le_mem (fun sl => sl.finishTime) rest s0.finishTime sl h
    have hTmem : ∃ sl ∈ (dispatchLoop j w (sortStrings st.ready) st).running,
        sl.finishTime = minFinishTime s0 rest := by
      rw [hru]
      unfold minFinishTime
      rcases foldl_min_attained (fun sl => sl.finishTime) rest s0.finishTime with h | ⟨x, hx, hfx⟩
      · exact ⟨s0, List.mem_cons_self s0 rest, h.symm⟩
      · exact ⟨x, List.mem_cons_of_mem s0 hx, hfx.symm⟩
    exact simInvN_complete j w hWF hf _ hinv1 hready0 (minFinishTime s0 rest) hTub hTmem
      (completeSlots j (s0 :: rest) []
        { dispatchLoop j w (sortStrings st.ready) st with
          currentTime := minFinishTime s0 rest, running := [] })
      (by rw [hru])

theorem simLoopN_inv (j : Job) (w : Int) {order : List String} (hWF : j.WellFormed)
    (hw : 1 ≤ w) (hwn : (j.taskCount : Int) ≤ w) (hf : CpmFacts j order) :
    ∀ (fuel : Nat) (st : SimState), SimInvN j w order st →
      SimInvN j w order (simLoop j w fuel st) := by
  intro fuel
  induction fuel with
  | zero =>
    intro st h
    exact h
  | succ k ih =>
    intro st h
    rw [simLoop_succ]
    by_cases hb : (simBody j w st).2 = true
    · rw [if_pos hb]
      exact simInvN_body j w hWF hw hwn hf st h
    · rw [if_neg hb]
      exact ih _ (simInvN_body j w hWF hw hwn hf st h)


/-- C2: for every valid DAG job and every worker count at least the number
of tasks, the worker-constrained simulation produces the same minimum
completion time and the same per-task start and finish times (the same set
of task-schedule records) as the CPM path: the two modes agree at the
boundary workers = taskCount and above. -/
theorem c2_limited_matches_cpm_at_boundary (j : Job) (w : Int) (hv : j.Valid)
    (hwn : (j.taskCount : Int) ≤ w) :
    ∃ rl, scheduleLimited j w = Except.ok rl ∧
      ∀ (enum : List (String × Int)) (ru : ScheduleResult),
        scheduleUnlimited j w enum = Outcome.ok ru →
        rl.minCompletionTime = ru.minCompletionTime ∧
        (∀ ts, ts ∈ rl.taskSchedules ↔ ts ∈ ru.taskSchedules) := by
  obtain ⟨hne, hWF, hA⟩ := hv
  have hn1 : 1 ≤ j.taskCount := by
    unfold Job.taskCount
    cases htasks : j.tasks with
    | nil => exact absurd htasks hne
    | cons p t => simp
  have hw : 1 ≤ w := le_trans (by exact_mod_cast hn1) hwn
  obtain ⟨order, htopo, hperm, ind2, hkinv⟩ := topologicalOrder_ok_spec j hWF hA
  obtain ⟨order2, hf0⟩ := cpmFacts_exists j hWF hA
  have hoeq : order2 = order := Except.ok.inj (hf0.topo_ok.symm.trans htopo)
  have hf : CpmFacts j order := hoeq ▸ hf0
  have hinvNF : SimInvN j w order (simLoop j w (j.taskCount + 1) (initState j)) :=
    simLoopN_inv j w hWF hw hwn hf (j.taskCount + 1) (initState j)
      (simInvN_init j w hWF hw hf)
  obtain ⟨hinvF, hre, hru, hall⟩ := simFinal_facts j w hWF hA hw
  have hSKfin : ∀ y, y ∈ (simLoop j w (j.taskCount + 1) (initState j)).startTime.map Prod.fst ↔
      y ∈ (simLoop j w (j.taskCount + 1) (initState j)).finished.map Prod.fst := by
    intro y
    have hp := hinvF.startKeys
    rw [hru, List.map_nil, List.nil_append] at hp
    exact hp.mem_iff
  have hlimMem : ∀ ts, ts ∈ buildLimitedSchedules (simLoop j w (j.taskCount + 1) (initState j)).startTime (simLoop j w (j.taskCount + 1) (initState j)).finished ↔
      ∃ id ∈ taskIds j, ts = TaskSchedule.mk id (lookup0 (forwardPass j order).1 id)
        (lookup0 (forwardPass j order).2 id) := by
    intro ts
    unfold buildLimitedSchedules
    rw [(List.perm_insertionSort schedLe _).mem_iff]
    constructor
    · intro h
      rcases List.mem_map.mp h with ⟨p, hp, hpe⟩
      have hpk : p.1 ∈ (simLoop j w (j.taskCount + 1) (initState j)).startTime.map Prod.fst := List.mem_map.mpr ⟨p, hp, rfl⟩
      have hpf : p.1 ∈ (simLoop j w (j.taskCount + 1) (initState j)).finished.map Prod.fst := (hSKfin p.1).mp hpk
      have hp1t : p.1 ∈ taskIds j := by
        rcases List.mem_map.mp hpf with ⟨q, hq, hq1⟩
        rw [← hq1]
        exact hinvF.finSub q hq
      have hps : p.2 = lookup0 (forwardPass j order).1 p.1 := hinvNF.startEst p hp
      have hpfv : lookup0 (simLoop j w (j.taskCount + 1) (initState j)).finished p.1 = lookup0 (forwardPass j order).2 p.1 :=
        simInvN_finEft hf hinvNF (p.1, lookup0 (simLoop j w (j.taskCount + 1) (initState j)).finished p.1) (mem_entry_of_key hpf)
      refine ⟨p.1, hp1t, ?_⟩
      rw [← hpe, hps, hpfv]
    · rintro ⟨id, hid, hts⟩
      have hidf : id ∈ (simLoop j w (j.taskCount + 1) (initState j)).finished.map Prod.fst := hall id hid
      have hids : id ∈ (simLoop j w (j.taskCount + 1) (initState j)).startTime.map Prod.fst := (hSKfin id).mpr hidf
      have hentry : (id, lookup0 (simLoop j w (j.taskCount + 1) (initState j)).startTime id) ∈ (simLoop j w (j.taskCount + 1) (initState j)).startTime :=
        mem_entry_of_key hids
      have hsv : lookup0 (simLoop j w (j.taskCount + 1) (initState j)).startTime id = lookup0 (forwardPass j order).1 id :=
        hinvNF.startEst (id, lookup0 (simLoop j w (j.taskCount + 1) (initState j)).startTime id) hentry
      have hfv : lookup0 (simLoop j w (j.taskCount + 1) (initState j)).finished id = lookup0 (forwardPass j order).2 id :=
        simInvN_finEft hf hinvNF (id, lookup0 (simLoop j w (j.taskCount + 1) (initState j)).finished id) (mem_entry_of_key hidf)
      refine List.mem_map.mpr ⟨(id, lookup0 (simLoop j w (j.taskCount + 1) (initState j)).startTime id), hentry, ?_⟩
      rw [hts, hsv, hfv]
  have hunlMem : ∀ ts, ts ∈ buildSortedSchedules order (forwardPass j order).1
      (forwardPass j order).2 ↔
      ∃ id ∈ taskIds j, ts = TaskSchedule.mk id (lookup0 (forwardPass j order).1 id)
        (lookup0 (forwardPass j order).2 id) := by
    intro ts
    unfold buildSortedSchedules
    rw [(List.perm_insertionSort schedLe _).mem_iff]
    constructor
    · intro h
      rcases List.mem_map.mp h with ⟨id, hid, hpe⟩
      exact ⟨id, hf.perm.mem_iff.mp hid, hpe.symm⟩
    · rintro ⟨id, hid, hts⟩
      exact List.mem_map.mpr ⟨id, hf.perm.mem_iff.mpr hid, hts.symm⟩
  have htimeA : (simLoop j w (j.taskCount + 1) (initState j)).currentTime ≤ maxEft (forwardPass j order).2 := by
    rcases hinvF.timeIsFinish with h0 | ⟨p, hp, hpv⟩
    · rw [h0]
      unfold maxEft
      exact foldl_max_ge_init (fun p => p.2) (forwardPass j order).2 0
    · have hpv2 : p.2 = lookup0 (forwardPass j order).2 p.1 := simInvN_finEft hf hinvNF p hp
      have hp1o : p.1 ∈ order := hf.perm.mem_iff.mpr (hinvF.finSub p hp)
      rw [← hpv, hpv2]
      exact cpm_maxEft_ge hf p.1 hp1o
  have htimeB : maxEft (forwardPass j order).2 ≤ (simLoop j w (j.taskCount + 1) (initState j)).currentTime := by
    obtain ⟨id, hid, heq⟩ := cpm_maxEft_attained hf hWF (order_ne_nil_of_tasks hf hne)
    have hidT : id ∈ taskIds j := hf.perm.mem_iff.mp hid
    have hentry : (id, lookup0 (simLoop j w (j.taskCount + 1) (initState j)).finished id) ∈ (simLoop j w (j.taskCount + 1) (initState j)).finished :=
      mem_entry_of_key (hall id hidT)
    have hv : lookup0 (simLoop j w (j.taskCount + 1) (initState j)).finished id = lookup0 (forwardPass j order).2 id :=
      simInvN_finEft hf hinvNF (id, lookup0 (simLoop j w (j.taskCount + 1) (initState j)).finished id) hentry
    have hle : lookup0 (simLoop j w (j.taskCount + 1) (initState j)).finished id ≤ (simLoop j w (j.taskCount + 1) (initState j)).currentTime := by
      obtain ⟨s, _, _, hle⟩ := hinvF.finTime _ hentry
      exact hle
    rw [← heq, ← hv]
    exact hle
  refine ⟨_, scheduleLimited_run j w hWF hA, ?_⟩
  intro enum ru hok
  unfold scheduleUnlimited at hok
  rw [htopo] at hok
  simp only [] at hok
  cases hcpc : findCriticalPath j (forwardPass j order).1 (forwardPass j order).2 enum
      (maxEft (forwardPass j order).2) with
  | none =>
    rw [hcpc] at hok
    cases hok
  | some cp =>
    rw [hcpc] at hok
    injection hok with h
    rw [← h]
    constructor
    · show (simLoop j w (j.taskCount + 1) (initState j)).currentTime = maxEft (forwardPass j order).2
      exact le_antisymm htimeA htimeB
    · intro ts
      show ts ∈ buildLimitedSchedules (simLoop j w (j.taskCount + 1) (initState j)).startTime (simLoop j w (j.taskCount + 1) (initState j)).finished ↔
        ts ∈ buildSortedSchedules order (forwardPass j order).1 (forwardPass j order).2
      rw [hlimMem ts, hunlMem ts]

/-- Closed instance of the C2 theorem: the six-task job at the boundary
worker count six. -/
theorem c2_limited_matches_cpm_at_boundary_witness :
    ∃ rl, scheduleLimited job1 6 = Except.ok rl ∧
      ∀ (enum : List (String × Int)) (ru : ScheduleResult),
        scheduleUnlimited job1 6 enum = Outcome.ok ru →
        rl.minCompletionTime = ru.minCompletionTime ∧
        (∀ ts, ts ∈ rl.taskSchedules ↔ ts ∈ ru.taskSchedules) :=
  c2_limited_matches_cpm_at_boundary job1 6
    ⟨by decide, by decide,
      acyclic_of_topo_ok (by decide)
        (show topologicalOrder job1 =
          Except.ok ["A", "B", "C", "D", "E", "F"] by decide)⟩
    (by decide)

end SchedulerModel
